import Mathlib

/-!
Formal model of the AffinityTable plugin (tag-indexed grid of fixed-layout
records with a handle-based memory pool, persistence and an inheritance-link
graph).  Each C++ entity of the plugin is embedded as an executable Lean
definition; the theorems at the end of the file settle the specification
claims against those definitions.

Modelling conventions:
* `FGameplayTag` is its list of dot-separated segments; the empty list is the
  empty (invalid) tag, `RequestDirectParent` drops the last segment.
* `TMap` is an association list in iteration (= insertion) order with unique
  keys, which is how Unreal's `TMap` behaves for the operations used here.
* machine integers are `Nat` with the explicit sentinels of the source
  (`MAX_uint32`, `MAX_uint64`); no arithmetic in the plugin ever wraps.
* a C++ `check(...)` (fatal assertion) is modelled by returning `Option`:
  `none` means the assertion fired; `some` carries the result of the
  successful run.
* raw record memory is abstracted to one `Nat` per record slot
  (`UScriptStruct` contents compare by value); `InitializeStruct` /
  `ClearScriptStruct` write the schema's default value.
-/

namespace AffinityTableModel

/-- A gameplay tag, as its list of dot-separated segments. -/
abbrev GameplayTag := List String

namespace GameplayTag

/-- `FGameplayTag::IsValid()`: the empty tag is the invalid tag. -/
def IsValid (t : GameplayTag) : Bool := !t.isEmpty

/-- `FGameplayTag::RequestDirectParent()`: drop the last segment
(`A.B.C ↦ A.B`); the direct parent of a root tag is the empty tag. -/
def RequestDirectParent (t : GameplayTag) : GameplayTag := t.dropLast

end GameplayTag

/-- `UAffinityTable::InvalidIndex = MAX_uint32` (`TagIndex` is `uint32`). -/
def InvalidIndex : Nat := 2 ^ 32 - 1

/-- `TMap<FGameplayTag, TagIndex>`: association list in iteration order. -/
abbrev TagMap := List (GameplayTag × Nat)

namespace TagMap

/-- `TMap::Find`-style lookup: first entry with the given key. -/
def find? : TagMap → GameplayTag → Option Nat
  | [], _ => none
  | p :: rest, t => if p.1 = t then some p.2 else find? rest t

/-- `TMap::Contains`. -/
def Contains (m : TagMap) (t : GameplayTag) : Bool := (m.find? t).isSome

/-- All keys of the map are valid (non-empty) tags.  `UAffinityTable` only
ever inserts tags that passed `IsValid()`. -/
def ValidKeys (m : TagMap) : Prop := ∀ p ∈ m, p.1 ≠ ([] : GameplayTag)

instance (m : TagMap) : Decidable (ValidKeys m) := by
  unfold ValidKeys; infer_instance

end TagMap

namespace UAffinityTable

/-- `UAffinityTable::GetIndex` (src/unnamed/part_000:1608-1625): exact lookup
in the map; on a miss with `ExactMatch == false`, retry on the direct parent
tag, until the tag runs out of segments. -/
def GetIndex (m : TagMap) (t : GameplayTag) (exactMatch : Bool) : Nat :=
  if t.IsValid then
    match m.find? t with
    | some i => i
    | none =>
      if !exactMatch then GetIndex m t.RequestDirectParent exactMatch
      else InvalidIndex
  else InvalidIndex
termination_by t.length
decreasing_by
  have ht : t ≠ [] := by
    intro he
    subst he
    simp_all [GameplayTag.IsValid]
  have : 0 < t.length := List.length_pos.mpr ht
  simp [GameplayTag.RequestDirectParent]
  omega

end UAffinityTable

/-- The ancestor chain of a tag, from the tag itself up to its root:
`ancestorChain A.B.C = [A.B.C, A.B, A]`.  (Specification-side notion used to
characterise the closest-match walk.) -/
def ancestorChain (t : GameplayTag) : List GameplayTag :=
  (List.range t.length).reverse.map (fun k => t.take (k + 1))

/-- The index of the closest indexed ancestor of `t` (including `t` itself),
if any ancestor of `t` is a key of the map. -/
def closestIndexedAncestor (m : TagMap) (t : GameplayTag) : Option Nat :=
  (ancestorChain t).findSome? (fun a => m.find? a)

/-- The hierarchy invariant of an axis map: every indexed tag's direct
parent (when it has one) is also indexed. -/
def HierarchyClosed (m : TagMap) : Prop :=
  ∀ p ∈ m, p.1.RequestDirectParent.IsValid = true →
    TagMap.Contains m p.1.RequestDirectParent = true

instance (m : TagMap) : Decidable (HierarchyClosed m) := by
  unfold HierarchyClosed; infer_instance

/-! ### FStructDatablock (memory pool)

`FStructDatablock` owns one raw buffer of `Capacity` record slots for one
`UScriptStruct`.  The buffer is `none` while `Datablock == nullptr`.
-/

/-- `FStructDatablock::InvalidHandle = MAX_uint32`. -/
def InvalidHandle : Nat := 2 ^ 32 - 1

/-- `FStructDatablock::MaxDatablockCapacity = 512`. -/
def MaxDatablockCapacity : Nat := 512

/-- `FAffinityTablePage::InvalidDataHandle = MAX_uint64`. -/
def InvalidDataHandle : Nat := 2 ^ 64 - 1

/-- The capability set of a `UScriptStruct` that the plugin consumes: records
are single values; `InitializeStruct`/`ClearScriptStruct` write `defaultVal`;
`size` is the byte footprint reported by `GetStructureSize()`. -/
structure Schema where
  defaultVal : Nat
  size : Nat
  deriving DecidableEq, Repr

/-- A `UScriptStruct*`: object identity is its name (names are unique in any
one table's `Structures` array). -/
structure UScriptStructRef where
  name : String
  schema : Schema
  deriving DecidableEq, Repr

structure FStructDatablock where
  /-- `Capacity` -/
  capacity : Nat
  /-- the backing buffer; `none` while `Datablock == nullptr` -/
  datablock : Option (List Nat)
  /-- `NextHandle` (`InvalidHandle` while unallocated) -/
  nextHandle : Nat
  /-- `FreeHandles` -/
  freeHandles : List Nat
  /-- `StructSize` (cached on `Alloc`) -/
  structSize : Nat
  deriving DecidableEq, Repr

namespace FStructDatablock

/-- `FStructDatablock::Alloc`: commit the buffer, default-initialise every
slot (`InitializeStruct`), start handing out handles from 0.  Its `check`s
(`Datablock == nullptr`, `FreeHandles` empty, `StructSize != 0`) hold at
every call site of the plugin. -/
def Alloc (s : Schema) (b : FStructDatablock) : FStructDatablock :=
  { b with
    datablock := some (List.replicate b.capacity s.defaultVal)
    nextHandle := 0
    structSize := s.size }

/-- The `FStructDatablock` constructor.  It `check`s that the desired
capacity is non-zero and survives the `MaxDatablockCapacity` cap; every call
site passes `1 ≤ DesiredCapacity ≤ MaxDatablockCapacity`, where both checks
hold, so the model keeps the constructor total. -/
def new (s : Schema) (desiredCapacity : Nat) (allocNow : Bool) : FStructDatablock :=
  let cap := if desiredCapacity < MaxDatablockCapacity then desiredCapacity
             else MaxDatablockCapacity
  let b : FStructDatablock :=
    { capacity := cap, datablock := none, nextHandle := InvalidHandle,
      freeHandles := [], structSize := 0 }
  if allocNow then b.Alloc s else b

/-- `FStructDatablock::NewHandle` (src/unnamed/part_000:1704-1730): lazily
allocate, hand out the next unopened slot, else pop a recycled slot off
`FreeHandles` and `ClearScriptStruct` it, else return `InvalidHandle`.
`TArray::HeapPop` removes element 0 and re-heapifies the remainder; the model
removes element 0 and keeps the remainder in place — the relative order of
the surviving free handles is the only divergence and no theorem below
depends on it. -/
def NewHandle (s : Schema) (b : FStructDatablock) : FStructDatablock × Nat :=
  let b := if b.datablock.isNone then b.Alloc s else b
  if b.nextHandle < b.capacity then
    ({ b with nextHandle := b.nextHandle + 1 }, b.nextHandle)
  else
    match b.freeHandles with
    | recycled :: rest =>
      ({ b with freeHandles := rest,
                datablock := b.datablock.map (fun buf => buf.set recycled s.defaultVal) },
        recycled)
    | [] => (b, InvalidHandle)

/-- `FStructDatablock::RecycleHandle` (src/unnamed/part_000:1732-1736):
`check(Handle != InvalidHandle)`, then `FreeHandles.Add(Handle)`.  The slot's
content is *not* touched. -/
def RecycleHandle (b : FStructDatablock) (h : Nat) : Option FStructDatablock :=
  if h = InvalidHandle then none
  else some { b with freeHandles := b.freeHandles ++ [h] }

/-- `FStructDatablock::GetMemoryBlock`: `check(Handle != InvalidHandle)`,
then pointer arithmetic into the buffer.  Dereferencing the result of the
C++ version outside the committed buffer is undefined behaviour; the model
returns `none` there. -/
def GetMemoryBlock (b : FStructDatablock) (h : Nat) : Option Nat :=
  if h = InvalidHandle then none
  else match b.datablock with
    | some buf => buf.get? h
    | none => none

/-- A caller writing record data through the raw pointer returned by
`GetMemoryBlock` (this is how the editor authors a cell's record). -/
def writeBlock (b : FStructDatablock) (h v : Nat) : FStructDatablock :=
  { b with datablock := b.datablock.map (fun buf => buf.set h v) }

end FStructDatablock

/-! ### FAffinityTablePage (per-schema grid) -/

structure FAffinityTablePage where
  /-- `Struct` -/
  struct : UScriptStructRef
  /-- `Rows`: `none` models a deleted row (`TSharedPtr` reset) -/
  rows : List (Option (List Nat))
  /-- `Datablocks` -/
  datablocks : List FStructDatablock
  /-- `DeletedColumns` (a `TSet`; modelled in insertion order, no duplicates) -/
  deletedColumns : List Nat
  /-- `Columns` -/
  columns : Nat
  /-- `FixedMode` -/
  fixedMode : Bool
  /-- `CurrentDatablock` -/
  currentDatablock : Nat
  deriving DecidableEq, Repr

namespace FAffinityTablePage

/-- `FAffinityTablePage::MakeHandle` (src/unnamed/part_001:218-226):
`check`s, then `(DatablockIndex << 32) | DatablockHandle`. -/
def MakeHandle (p : FAffinityTablePage) (blockIndex blockHandle : Nat) : Option Nat :=
  if blockIndex < p.datablocks.length ∧ blockHandle ≠ InvalidHandle then
    some (blockIndex * 2 ^ 32 + blockHandle)
  else none

/-- `FAffinityTablePage::GetHandleData` (src/unnamed/part_001:228-240):
`false` (modelled `some none`) for `InvalidDataHandle`; otherwise split the
64-bit handle and `check` both halves. -/
def GetHandleData (p : FAffinityTablePage) (h : Nat) : Option (Option (Nat × Nat)) :=
  if h = InvalidDataHandle then some none
  else
    let bi := h / 2 ^ 32 % 2 ^ 32
    let bh := h % 2 ^ 32
    if bi < p.datablocks.length ∧ bh ≠ InvalidHandle then some (some (bi, bh))
    else none

/-- `FAffinityTablePage::GetRow`: `check(RowIndex < Rows.Num())`, then the
row pointer (null — inner `none` — for a deleted row). -/
def GetRow (p : FAffinityTablePage) (i : Nat) : Option (Option (List Nat)) :=
  if h : i < p.rows.length then some (p.rows.get ⟨i, h⟩) else none

/-- `FAffinityTablePage::AllocateBlocks` (src/unnamed/part_001:162-186):
`check(Capacity)`, point `CurrentDatablock` at the first new block, then
append `Capacity / 512` full datablocks plus one datablock for the
remainder, all committed immediately (`AllocNow`). -/
def AllocateBlocks (p : FAffinityTablePage) (cap : Nat) : Option FAffinityTablePage :=
  if cap = 0 then none
  else
    some { p with
      currentDatablock := p.datablocks.length
      datablocks := p.datablocks
        ++ List.replicate (cap / MaxDatablockCapacity)
             (FStructDatablock.new p.struct.schema MaxDatablockCapacity true)
        ++ (if cap % MaxDatablockCapacity ≠ 0 then
              [FStructDatablock.new p.struct.schema (cap % MaxDatablockCapacity) true]
            else []) }

/-- The `for` loop of `FindAvailableHandle`: try `NewHandle` on each
datablock in turn starting at index `i`; on success point `CurrentDatablock`
at it and build the handle.  `fuel` is the number of blocks left to visit
(`Datablocks.Num() - i`). -/
def ScanBlocks (p : FAffinityTablePage) (i : Nat) : Nat → Option (FAffinityTablePage × Nat)
  | 0 => some (p, InvalidDataHandle)
  | fuel + 1 =>
    match p.datablocks.get? i with
    | none => none
    | some db =>
      let (db', h) := db.NewHandle p.struct.schema
      let p' := { p with datablocks := p.datablocks.set i db' }
      if h ≠ InvalidHandle then do
        let handle ← p'.MakeHandle i h
        some ({ p' with currentDatablock := i }, handle)
      else ScanBlocks p' (i + 1) fuel

/-- `FAffinityTablePage::FindAvailableHandle` (src/unnamed/part_001:242-269):
ask the current datablock first, then scan every datablock from the start.
Yields `InvalidDataHandle` when every block is exhausted (or there are no
blocks). -/
def FindAvailableHandle (p : FAffinityTablePage) : Option (FAffinityTablePage × Nat) :=
  if p.datablocks.length = 0 then some (p, InvalidDataHandle)
  else do
    let db ← p.datablocks.get? p.currentDatablock
    let (db', h) := db.NewHandle p.struct.schema
    let p' := { p with datablocks := p.datablocks.set p.currentDatablock db' }
    if h = InvalidHandle then
      p'.ScanBlocks 0 p'.datablocks.length
    else do
      let handle ← p'.MakeHandle p.currentDatablock h
      some (p', handle)

/-- `FAffinityTablePage::NewHandle` (src/unnamed/part_001:271-285).  On
exhaustion in dynamic mode, allocate one full block and retry once
(`check`ing the retry produced a handle).  The final assertion of the source
is `check(Handle != FStructDatablock::InvalidHandle)`: it compares the
64-bit `DataHandle` against the *32-bit* sentinel `MAX_uint32`, exactly as
written. -/
def NewHandle (p : FAffinityTablePage) : Option (FAffinityTablePage × Nat) := do
  let (p1, h1) ← p.FindAvailableHandle
  let (p2, h2) ←
    if h1 = InvalidDataHandle ∧ ¬ p1.fixedMode then do
      let pa ← p1.AllocateBlocks MaxDatablockCapacity
      let (pb, hb) ← pa.FindAvailableHandle
      if hb = InvalidDataHandle then none
      else some (pb, hb)
    else some (p1, h1)
  if h2 = InvalidHandle then none
  else some (p2, h2)

/-- The `while (Count)` loop of `AppendHandles`: append `count` fresh
handles to the row. -/
def AppendCount (p : FAffinityTablePage) (row : List Nat) : Nat → Option (FAffinityTablePage × List Nat)
  | 0 => some (p, row)
  | count + 1 => do
    let (p', h) ← p.NewHandle
    AppendCount p' (row ++ [h]) count

/-- The per-column `else` loop of `AppendHandles`: one handle per column,
with `InvalidDataHandle` for delete-marked columns. -/
def AppendPerColumn (p : FAffinityTablePage) (row : List Nat) : List Nat → Option (FAffinityTablePage × List Nat)
  | [] => some (p, row)
  | i :: rest =>
    if i ∈ p.deletedColumns then AppendPerColumn p (row ++ [InvalidDataHandle]) rest
    else do
      let (p', h) ← p.NewHandle
      AppendPerColumn p' (row ++ [h]) rest

/-- `FAffinityTablePage::AppendHandles` (src/unnamed/part_001:188-216),
default `Count = 0`. -/
def AppendHandles (p : FAffinityTablePage) (row : List Nat) (count : Nat) : Option (FAffinityTablePage × List Nat) :=
  let count := if count = 0 ∧ p.deletedColumns = [] then p.columns else count
  if count ≠ 0 then p.AppendCount row count
  else p.AppendPerColumn row (List.range p.columns)

/-- `FAffinityTablePage::AddRow` (src/unnamed/part_001:53-58). -/
def AddRow (p : FAffinityTablePage) : Option FAffinityTablePage := do
  let (p', row) ← p.AppendHandles [] 0
  some { p' with rows := p'.rows ++ [some row] }

/-- The row loop of `FAffinityTablePage::AddColumn`: append one handle to
every valid row. -/
def AddColumnRows (p : FAffinityTablePage) : List (Option (List Nat)) → Option (FAffinityTablePage × List (Option (List Nat)))
  | [] => some (p, [])
  | none :: rest => do
    let (p', rest') ← p.AddColumnRows rest
    some (p', none :: rest')
  | some row :: rest => do
    let (p', row') ← p.AppendHandles row 1
    let (p'', rest') ← p'.AddColumnRows rest
    some (p'', some row' :: rest')

/-- `FAffinityTablePage::AddColumn` (src/unnamed/part_001:60-71). -/
def AddColumn (p : FAffinityTablePage) : Option FAffinityTablePage := do
  let (p', rows') ← p.AddColumnRows p.rows
  some { p' with rows := rows', columns := p'.columns + 1 }

/-- Recycle every resolvable handle of a row back into its datablock
(the loop of `FAffinityTablePage::DeleteRow`). -/
def RecycleRowHandles (p : FAffinityTablePage) : List Nat → Option FAffinityTablePage
  | [] => some p
  | h :: rest => do
    match ← p.GetHandleData h with
    | some (bi, bh) => do
      let db ← p.datablocks.get? bi
      let db' ← db.RecycleHandle bh
      RecycleRowHandles { p with datablocks := p.datablocks.set bi db' } rest
    | none => RecycleRowHandles p rest

/-- `FAffinityTablePage::DeleteRow` (src/unnamed/part_001:73-90):
`check`s the row exists and is live, recycles its handles, resets the row
pointer. -/
def DeleteRow (p : FAffinityTablePage) (i : Nat) : Option FAffinityTablePage := do
  let rowOpt ← p.GetRow i
  let row ← rowOpt
  let p' ← p.RecycleRowHandles row
  some { p' with rows := p'.rows.set i none }

/-- The row loop of `FAffinityTablePage::DeleteColumn`: in every valid row,
`check` the column is in range, recycle the handle there if it resolves, and
overwrite it with `InvalidDataHandle`. -/
def DeleteColumnRows (p : FAffinityTablePage) (colIndex : Nat) : List (Option (List Nat)) → Option (FAffinityTablePage × List (Option (List Nat)))
  | [] => some (p, [])
  | none :: rest => do
    let (p', rest') ← p.DeleteColumnRows colIndex rest
    some (p', none :: rest')
  | some row :: rest =>
    if hc : colIndex < row.length then
      match p.GetHandleData (row.get ⟨colIndex, hc⟩) with
      | none => none
      | some (some (bi, bh)) => do
        let db ← p.datablocks.get? bi
        let db' ← db.RecycleHandle bh
        let p' := { p with datablocks := p.datablocks.set bi db' }
        let (p'', rest') ← p'.DeleteColumnRows colIndex rest
        some (p'', some (row.set colIndex InvalidDataHandle) :: rest')
      | some none => do
        let (p'', rest') ← p.DeleteColumnRows colIndex rest
        some (p'', some row :: rest')
    else none

/-- `FAffinityTablePage::DeleteColumn` (src/unnamed/part_001:92-113):
`check(ColumnIndex < Columns && !DeletedColumns.Contains(ColumnIndex))`,
recycle one handle per valid row, add the index to `DeletedColumns`. -/
def DeleteColumn (p : FAffinityTablePage) (colIndex : Nat) : Option FAffinityTablePage :=
  if colIndex < p.columns ∧ colIndex ∉ p.deletedColumns then do
    let (p', rows') ← p.DeleteColumnRows colIndex p.rows
    some { p' with rows := rows', deletedColumns := p'.deletedColumns ++ [colIndex] }
  else none

/-- `FAffinityTablePage::GetDatablockPtr(DataHandle)`
(src/unnamed/part_001:115-125): null (inner `none`) if the handle does not
resolve; otherwise the record pointer inside the owning datablock. -/
def GetDatablockPtrHandle (p : FAffinityTablePage) (h : Nat) : Option (Option Nat) := do
  match ← p.GetHandleData h with
  | some (bi, bh) => do
    let db ← p.datablocks.get? bi
    some (db.GetMemoryBlock bh)
  | none => some none

/-- `FAffinityTablePage::GetDatablockPtr(Row, Column)`
(src/unnamed/part_001:127-136): null if the row is deleted; `check`s the
column index against the row's width. -/
def GetDatablockPtr (p : FAffinityTablePage) (i j : Nat) : Option (Option Nat) := do
  match ← p.GetRow i with
  | some row =>
    if hc : j < row.length then p.GetDatablockPtrHandle (row.get ⟨j, hc⟩)
    else none
  | none => some none

/-- `FAffinityTablePage::GetStructSize` (src/unnamed/part_000 companion of
the page, part_001:152-160). -/
def GetStructSize (p : FAffinityTablePage) : Nat :=
  match p.datablocks with
  | db :: _ => db.structSize
  | [] => 0

/-- Write a record value through the pointer produced by
`GetDatablockPtr(Row, Column)` (this is what `UScriptStruct::SerializeItem`
does to the cell's memory when the archive is loading). -/
def WriteCell (p : FAffinityTablePage) (i j v : Nat) : Option FAffinityTablePage := do
  match ← p.GetRow i with
  | some row =>
    if hc : j < row.length then
      match ← p.GetHandleData (row.get ⟨j, hc⟩) with
      | some (bi, bh) => do
        let db ← p.datablocks.get? bi
        some { p with datablocks := p.datablocks.set bi (db.writeBlock bh v) }
      | none => some p
    else none
  | none => some p

/-- `AddRow` iterated (the row loop of the page constructor). -/
def AddRows (p : FAffinityTablePage) : Nat → Option FAffinityTablePage
  | 0 => some p
  | n + 1 => do
    let p' ← p.AddRow
    p'.AddRows n

/-- The `FAffinityTablePage` constructor (src/unnamed/part_001:20-42):
allocate `InRows * InColumns` record slots up front when non-zero, then add
`InRows` rows. -/
def new (st : UScriptStructRef) (inRows inColumns : Nat) (inFixedMode : Bool) : Option FAffinityTablePage :=
  let p0 : FAffinityTablePage :=
    { struct := st, rows := [], datablocks := [], deletedColumns := [],
      columns := inColumns, fixedMode := inFixedMode, currentDatablock := 0 }
  do
    let p1 ← if inRows * inColumns ≠ 0 then p0.AllocateBlocks (inRows * inColumns) else some p0
    p1.AddRows inRows

end FAffinityTablePage

/-! ### UAffinityTable (facade) -/

/-- `UAffinityTable::CellTags`. -/
structure CellTags where
  row : GameplayTag
  column : GameplayTag
  deriving DecidableEq, Repr

/-- `UAffinityTable::Cell`: a pair of tag indices. -/
structure Cell where
  row : Nat
  column : Nat
  deriving DecidableEq, Repr

/-- `UAffinityTable::InheritanceMap = TMap<FString, CellTags>`. -/
abbrev InheritanceMap := List (String × CellTags)

/-- `UAffinityTable::FileFormatVersion = 3`. -/
def FileFormatVersion : Nat := 3

structure UAffinityTable where
  /-- `Rows` -/
  rows : TagMap
  /-- `Columns` -/
  columns : TagMap
  /-- `NextRowIndex` -/
  nextRowIndex : Nat
  /-- `NextColumnIndex` -/
  nextColumnIndex : Nat
  /-- `Structures` (UPROPERTY) -/
  structures : List UScriptStructRef
  /-- `Pages` (each page remembers its struct) -/
  pages : List FAffinityTablePage
  /-- `RowColors` (colors abstracted to `Nat`) -/
  rowColors : List (GameplayTag × Nat)
  /-- `ColumnColors` -/
  columnColors : List (GameplayTag × Nat)
  /-- `InheritanceMaps`, keyed by struct name -/
  inheritanceMaps : List (String × InheritanceMap)
  /-- `RowTags` (UPROPERTY; refreshed by `PreSaveTable`) -/
  rowTags : List GameplayTag
  /-- `ColumnTags` (UPROPERTY) -/
  columnTags : List GameplayTag
  /-- `bHasLoadingErrors` -/
  bHasLoadingErrors : Bool
  /-- `FixedModeActive` (false in editor builds) -/
  bFixedModeActive : Bool
  deriving DecidableEq, Repr

namespace UAffinityTable

/-- The `for (Page : Pages)` loops of the table's add/delete operations:
apply one page operation to every page in order, failing if any page's
assertions fire. -/
def mapPages (f : FAffinityTablePage → Option FAffinityTablePage) :
    List FAffinityTablePage → Option (List FAffinityTablePage)
  | [] => some []
  | pg :: rest => do
    let pg' ← f pg
    let rest' ← mapPages f rest
    some (pg' :: rest')

/-- `UAffinityTable::GetPageForStruct` (src/unnamed/part_000:1649-1659):
find the page whose `GetStruct()` is the requested struct. -/
def GetPageForStruct (T : UAffinityTable) (st : UScriptStructRef) : Option FAffinityTablePage :=
  T.pages.find? (fun pg => pg.struct = st)

/-- `UAffinityTable::GetRowIndex`. -/
def GetRowIndex (T : UAffinityTable) (t : GameplayTag) (exactMatch : Bool) : Nat :=
  GetIndex T.rows t exactMatch

/-- `UAffinityTable::GetColumnIndex`. -/
def GetColumnIndex (T : UAffinityTable) (t : GameplayTag) (exactMatch : Bool) : Nat :=
  GetIndex T.columns t exactMatch

/-- `UAffinityTable::GetCellData` (src/unnamed/part_000:892-900): null
(inner `none`) when the struct has no page; otherwise the page's record
pointer for the cell. -/
def GetCellData (T : UAffinityTable) (c : Cell) (st : UScriptStructRef) : Option (Option Nat) :=
  match T.GetPageForStruct st with
  | some page => page.GetDatablockPtr c.row c.column
  | none => some none

/-- The structure loop of `UAffinityTable::Query`: append the record pointer
of every requested structure that yields data to `OutMemoryPtrs` (a missing
structure is logged and skipped). -/
def QueryLoop (T : UAffinityTable) (cell : Cell) : List UScriptStructRef → List Nat → Option (List Nat)
  | [], out => some out
  | st :: rest, out => do
    match ← T.GetCellData cell st with
    | some d => T.QueryLoop cell rest (out ++ [d])
    | none => T.QueryLoop cell rest out

/-- `UAffinityTable::Query` (src/unnamed/part_000:813-841).  `OutMemoryPtrs`
is an in-out parameter; the result is `(QueryResult, OutMemoryPtrs)`. -/
def Query (T : UAffinityTable) (ct : CellTags) (exactMatch : Bool)
    (structureTypes : List UScriptStructRef) (outMemoryPtrs : List Nat) :
    Option (Bool × List Nat) :=
  if T.structures.length ≠ 0 then
    let queriedCell : Cell :=
      ⟨T.GetRowIndex ct.row exactMatch, T.GetColumnIndex ct.column exactMatch⟩
    if queriedCell.row ≠ InvalidIndex ∧ queriedCell.column ≠ InvalidIndex then do
      let out ← T.QueryLoop queriedCell structureTypes outMemoryPtrs
      some (decide (out.length = structureTypes.length), out)
    else some (false, outMemoryPtrs)
  else some (false, outMemoryPtrs)

/-- `UAffinityTable::AddRow` (src/unnamed/part_000:953-970): no-op returning
false on an invalid or already-present tag; otherwise grow every page, map
the tag to `NextRowIndex++`, and recursively add the direct parent. -/
def AddRow (T : UAffinityTable) (t : GameplayTag) : Option (UAffinityTable × Bool) :=
  if t.IsValid ∧ ¬ TagMap.Contains T.rows t then do
    let pages' ← mapPages (fun pg => pg.AddRow) T.pages
    let T1 : UAffinityTable :=
      { T with pages := pages', rows := T.rows ++ [(t, T.nextRowIndex)],
               nextRowIndex := T.nextRowIndex + 1 }
    let (T2, _) ← T1.AddRow t.RequestDirectParent
    some (T2, true)
  else some (T, false)
termination_by t.length
decreasing_by
  rename_i hcond
  have ht : t ≠ [] := by
    intro he
    subst he
    simp [GameplayTag.IsValid] at hcond
  have : 0 < t.length := List.length_pos.mpr ht
  simp [GameplayTag.RequestDirectParent]
  omega

/-- `UAffinityTable::AddColumn` (src/unnamed/part_000:972-988). -/
def AddColumn (T : UAffinityTable) (t : GameplayTag) : Option (UAffinityTable × Bool) :=
  if t.IsValid ∧ ¬ TagMap.Contains T.columns t then do
    let pages' ← mapPages (fun pg => pg.AddColumn) T.pages
    let T1 : UAffinityTable :=
      { T with pages := pages', columns := T.columns ++ [(t, T.nextColumnIndex)],
               nextColumnIndex := T.nextColumnIndex + 1 }
    let (T2, _) ← T1.AddColumn t.RequestDirectParent
    some (T2, true)
  else some (T, false)
termination_by t.length
decreasing_by
  rename_i hcond
  have ht : t ≠ [] := by
    intro he
    subst he
    simp [GameplayTag.IsValid] at hcond
  have : 0 < t.length := List.length_pos.mpr ht
  simp [GameplayTag.RequestDirectParent]
  omega

/-- `UAffinityTable::DeleteRow` (src/unnamed/part_000:990-1006). -/
def DeleteRow (T : UAffinityTable) (t : GameplayTag) : Option UAffinityTable :=
  if t.IsValid ∧ TagMap.Contains T.rows t then do
    let rowIndex ← T.rows.find? t
    let pages' ← mapPages (fun pg => pg.DeleteRow rowIndex) T.pages
    some { T with pages := pages',
                  rows := T.rows.filter (fun p => decide (p.1 ≠ t)),
                  rowColors := T.rowColors.filter (fun p => decide (p.1 ≠ t)) }
  else some T

/-- `UAffinityTable::DeleteColumn` (src/unnamed/part_000:1008-1024). -/
def DeleteColumn (T : UAffinityTable) (t : GameplayTag) : Option UAffinityTable :=
  if t.IsValid ∧ TagMap.Contains T.columns t then do
    let colIndex ← T.columns.find? t
    let pages' ← mapPages (fun pg => pg.DeleteColumn colIndex) T.pages
    some { T with pages := pages',
                  columns := T.columns.filter (fun p => decide (p.1 ≠ t)),
                  columnColors := T.columnColors.filter (fun p => decide (p.1 ≠ t)) }
  else some T

/-- `FGameplayTag::ToString` (dot-joined segments). -/
def tagToString (t : GameplayTag) : String := String.intercalate "." t

/-- `UAffinityTable::StringIDForCell` (src/unnamed/part_000:1603-1606). -/
def StringIDForCell (c : CellTags) : String :=
  tagToString c.row ++ "|" ++ tagToString c.column

end UAffinityTable

/-! ### Persistence -/

/-- The archive written for one table: the UPROPERTY payload that
`Super::Serialize` handles (`Structures`, `RowTags`, `ColumnTags`) followed
by `UAffinityTable::SaveTable`'s custom section.  Each page's record stream
is kept with its page header, which is how `SaveTable` lays the bytes out. -/
structure FTableArchive where
  formatVersion : Nat
  rowTags : List GameplayTag
  columnTags : List GameplayTag
  structures : List UScriptStructRef
  /-- per page: struct name, record byte footprint, serialized records -/
  pageData : List (String × Nat × List Nat)
  rowColors : List (GameplayTag × Nat)
  columnColors : List (GameplayTag × Nat)
  /-- per page: struct name and its link list -/
  inheritance : List (String × InheritanceMap)
  deriving DecidableEq, Repr

namespace UAffinityTable

/-- `UAffinityTable::PreSaveTable` (src/unnamed/part_000:1109-1122):
`ValueSort` rows and columns by index, then regenerate `RowTags` /
`ColumnTags` in that order.  `TMap::ValueSort` orders the pairs by the
supplied `A < B` comparator on values; tag indices are pairwise distinct in
any saved table, so the sorted order is unique and independent of the
algorithm (the model uses insertion sort). -/
def PreSaveTable (T : UAffinityTable) : UAffinityTable :=
  let rows' := List.insertionSort (fun a b => a.2 ≤ b.2) T.rows
  let columns' := List.insertionSort (fun a b => a.2 ≤ b.2) T.columns
  { T with rows := rows', columns := columns',
           rowTags := rows'.map (·.1), columnTags := columns'.map (·.1) }

/-- One row of `UAffinityTable::SerializePage` in the saving direction:
serialize the record of every column of the row; a cell without a memory
location is logged and skipped. -/
def SavePageRow (page : FAffinityTablePage) (r : GameplayTag × Nat) :
    List (GameplayTag × Nat) → Option (List Nat)
  | [] => some []
  | c :: crest => do
    match ← page.GetDatablockPtr r.2 c.2 with
    | some d => do
      let rest ← SavePageRow page r crest
      some (d :: rest)
    | none => SavePageRow page r crest

/-- `UAffinityTable::SerializePage` (src/unnamed/part_000:1562-1577) in the
saving direction: records in `Rows × Columns` iteration order. -/
def SavePageCells (page : FAffinityTablePage) (cols : List (GameplayTag × Nat)) :
    List (GameplayTag × Nat) → Option (List Nat)
  | [] => some []
  | r :: rrest => do
    let rowTokens ← SavePageRow page r cols
    let restTokens ← SavePageCells page cols rrest
    some (rowTokens ++ restTokens)

/-- `UAffinityTable::SaveTable` (src/unnamed/part_000:1124-1190), returning
the archive it produces; `PreSaveTable` has already refreshed the tag
arrays. -/
def SaveTable (T : UAffinityTable) : Option FTableArchive := do
  let structsToSave := T.structures.filter (fun st => (T.GetPageForStruct st).isSome)
  let pageData ← structsToSave.mapM (fun st => do
    let page ← T.GetPageForStruct st
    let tokens ← SavePageCells page T.columns T.rows
    some (st.name, page.GetStructSize, tokens))
  let inheritance := structsToSave.map (fun st =>
    (st.name,
     match T.inheritanceMaps.find? (fun q => decide (q.1 = st.name)) with
     | some q => q.2
     | none => []))
  some { formatVersion := FileFormatVersion
         rowTags := T.rowTags
         columnTags := T.columnTags
         structures := T.structures
         pageData := pageData
         rowColors := T.rowColors
         columnColors := T.columnColors
         inheritance := inheritance }

/-- `UAffinityTable::Serialize` in the saving direction
(src/unnamed/part_000:1538-1560): `PreSaveTable`, the UPROPERTY pass, then
`SaveTable`. -/
def SerializeSave (T : UAffinityTable) : Option FTableArchive :=
  (T.PreSaveTable).SaveTable

/-- The tag loop of `GenerateRowAndColumnMaps`: assign sequential indices in
array order; a duplicated tag is logged, skipped and flags a loading error
(`UE_BUILD_DEVELOPMENT`). -/
def GenMaps : List GameplayTag → TagMap → Nat → TagMap × Nat × Bool
  | [], m, n => (m, n, false)
  | t :: rest, m, n =>
    if TagMap.Contains m t then
      let (m', n', _) := GenMaps rest m n
      (m', n', true)
    else
      let (m', n', e) := GenMaps rest (m ++ [(t, n)]) (n + 1)
      (m', n', e)

/-- `UAffinityTable::GenerateRowAndColumnMaps`
(src/unnamed/part_000:1392-1430): `check`s the table is fresh, then rebuilds
`Rows` and `Columns` from the persisted tag arrays. -/
def GenerateRowAndColumnMaps (T : UAffinityTable) : Option UAffinityTable :=
  if T.nextRowIndex = 0 ∧ T.rows = [] ∧ T.nextColumnIndex = 0 ∧ T.columns = [] then
    let (rows', nextRow, rerr) := GenMaps T.rowTags [] 0
    let (cols', nextCol, cerr) := GenMaps T.columnTags [] 0
    some { T with rows := rows', nextRowIndex := nextRow,
                  columns := cols', nextColumnIndex := nextCol,
                  bHasLoadingErrors := T.bHasLoadingErrors || rerr || cerr }
  else none

/-- One row of `UAffinityTable::SerializePage` in the loading direction:
`SerializeItem` reads the next record of the stream into each cell that has
a memory location; a cell without one is logged and skipped, consuming
nothing.  Reading past the end of the stream is a stream error (`none`). -/
def LoadPageRow (page : FAffinityTablePage) (tokens : List Nat) (r : GameplayTag × Nat) :
    List (GameplayTag × Nat) → Option (FAffinityTablePage × List Nat)
  | [] => some (page, tokens)
  | c :: crest => do
    match ← page.GetDatablockPtr r.2 c.2 with
    | some _ =>
      match tokens with
      | [] => none
      | v :: vrest => do
        let page' ← page.WriteCell r.2 c.2 v
        LoadPageRow page' vrest r crest
    | none => LoadPageRow page tokens r crest

/-- `UAffinityTable::SerializePage` in the loading direction. -/
def LoadPageCells (page : FAffinityTablePage) (tokens : List Nat) (cols : List (GameplayTag × Nat)) :
    List (GameplayTag × Nat) → Option (FAffinityTablePage × List Nat)
  | [] => some (page, tokens)
  | r :: rrest => do
    let (page', tokens') ← LoadPageRow page tokens r cols
    LoadPageCells page' tokens' cols rrest

/-- The page loop of `UAffinityTable::LoadTable`: for each stored page, find
its struct by name — a missing struct flags a loading error and aborts the
whole load (`return`) — then build a fresh page with the loaded row/column
counts and deserialize its records.  The second component reports the
abort. -/
def LoadPages (rowCount colCount : Nat) :
    UAffinityTable → List (String × Nat × List Nat) → Option (UAffinityTable × Bool)
  | T, [] => some (T, false)
  | T, (name, _footprint, tokens) :: rest =>
    match T.structures.find? (fun st => decide (st.name = name)) with
    | none => some ({ T with bHasLoadingErrors := true }, true)
    | some st => do
      let page ← FAffinityTablePage.new st rowCount colCount T.bFixedModeActive
      let (page', _leftover) ← LoadPageCells page tokens T.columns T.rows
      LoadPages rowCount colCount { T with pages := T.pages ++ [page'] } rest

/-- `TMap<FString, CellTags>::Add`: replace the value of an existing key in
place, else append. -/
def imapAdd (m : InheritanceMap) (k : String) (v : CellTags) : InheritanceMap :=
  if (m.find? (fun q => decide (q.1 = k))).isSome then
    m.map (fun q => if q.1 = k then (k, v) else q)
  else m ++ [(k, v)]

/-- `Map.Add` iterated over a loaded link list. -/
def imapAddAll (m : InheritanceMap) : List (String × CellTags) → InheritanceMap
  | [] => m
  | (k, v) :: rest => imapAddAll (imapAdd m k v) rest

/-- The inheritance-map loop of `LoadTable` (src/unnamed/part_000:1360-1384):
a struct with zero links creates no map entry; otherwise `FindOrAdd` the
map and `Add` every loaded link. -/
def LoadInheritance : UAffinityTable → List (String × InheritanceMap) → UAffinityTable
  | T, [] => T
  | T, (name, links) :: rest =>
    if links.length ≠ 0 then
      let T' :=
        if (T.inheritanceMaps.find? (fun q => decide (q.1 = name))).isSome then
          { T with inheritanceMaps :=
              T.inheritanceMaps.map (fun q => if q.1 = name then (name, imapAddAll q.2 links) else q) }
        else
          { T with inheritanceMaps := T.inheritanceMaps ++ [(name, imapAddAll [] links)] }
      LoadInheritance T' rest
    else LoadInheritance T rest

/-- The parent walk of `FindOrphans` (the `while` loop of
src/unnamed/part_000:1196-1228): true when some ancestor is in neither
`Tails` nor `Tags` (the tag is broken upstream). -/
def FindOrphanWalk (tags tails : List GameplayTag) (p : GameplayTag) : Bool :=
  if p.IsValid then
    if p ∈ tails then false
    else if p ∈ tags then FindOrphanWalk tags tails p.RequestDirectParent
    else true
  else false
termination_by p.length
decreasing_by
  rename_i hvalid _ _
  have hp : p ≠ [] := by
    intro he
    subst he
    simp [GameplayTag.IsValid] at hvalid
  have : 0 < p.length := List.length_pos.mpr hp
  simp [GameplayTag.RequestDirectParent]
  omega

/-- The tag loop of `FindOrphans`: non-orphans join `Tails`; orphans join
the (set-semantics) orphan list. -/
def FindOrphansGo (tags : List GameplayTag) :
    List GameplayTag → List GameplayTag → List GameplayTag → List GameplayTag
  | [], _tails, orphans => orphans
  | t :: rest, tails, orphans =>
    if FindOrphanWalk tags tails t.RequestDirectParent then
      FindOrphansGo tags rest tails (if t ∈ orphans then orphans else orphans ++ [t])
    else FindOrphansGo tags rest (tails ++ [t]) orphans

/-- The `FindOrphans` lambda of `UAffinityTable::EnsureTagHierarchy`. -/
def FindOrphans (tags : List GameplayTag) : List GameplayTag :=
  FindOrphansGo tags tags [] []

/-- `DeleteRow` iterated over the orphan set. -/
def DeleteRowsList : UAffinityTable → List GameplayTag → Option UAffinityTable
  | T, [] => some T
  | T, t :: rest => do
    let T' ← T.DeleteRow t
    DeleteRowsList T' rest

/-- `DeleteColumn` iterated over the orphan set. -/
def DeleteColumnsList : UAffinityTable → List GameplayTag → Option UAffinityTable
  | T, [] => some T
  | T, t :: rest => do
    let T' ← T.DeleteColumn t
    DeleteColumnsList T' rest

/-- `UAffinityTable::EnsureTagHierarchy` (src/unnamed/part_000:1192-1251):
delete every orphaned row and column tag and flag the table when any orphan
was removed. -/
def EnsureTagHierarchy (T : UAffinityTable) : Option UAffinityTable := do
  let orphanRows := FindOrphans T.rowTags
  let T1 ← DeleteRowsList T orphanRows
  let orphanColumns := FindOrphans T1.columnTags
  let T2 ← DeleteColumnsList T1 orphanColumns
  some { T2 with bHasLoadingErrors :=
           T2.bHasLoadingErrors || decide (0 < orphanRows.length) ||
             decide (0 < orphanColumns.length) }

/-- A freshly `ClearTable()`d object carrying the UPROPERTY payload of the
archive, exactly the state `LoadTable` starts from after `Super::Serialize`
(editor configuration: `FixedModeActive` is false). -/
def FreshFromArchive (ar : FTableArchive) : UAffinityTable :=
  { rows := [], columns := [], nextRowIndex := 0, nextColumnIndex := 0,
    structures := ar.structures, pages := [], rowColors := [], columnColors := [],
    inheritanceMaps := [], rowTags := ar.rowTags, columnTags := ar.columnTags,
    bHasLoadingErrors := false, bFixedModeActive := false }

/-- `UAffinityTable::LoadTable` (src/unnamed/part_000:1254-1390) in an
editor/development configuration (the `UE_BUILD_DEVELOPMENT` early-out and
the `WITH_EDITOR` `EnsureTagHierarchy` fix-up are active).  A version older
than `FileFormatVersion` dispatches to a historical loader (no claim
concerns migrations; the model leaves the cleared object as is there). -/
def LoadTable (ar : FTableArchive) : Option UAffinityTable :=
  let T0 := FreshFromArchive ar
  if ar.formatVersion < FileFormatVersion then some T0
  else do
    let T1 ← T0.GenerateRowAndColumnMaps
    if T1.bHasLoadingErrors then some T1
    else do
      let rowCount := T1.rows.length
      let colCount := T1.columns.length
      let (T2, aborted) ← LoadPages rowCount colCount T1 ar.pageData
      if aborted then some T2
      else do
        let T3 := { T2 with rowColors := ar.rowColors, columnColors := ar.columnColors }
        let T4 := LoadInheritance T3 ar.inheritance
        T4.EnsureTagHierarchy

end UAffinityTable

/-! ### Verification-side canonical forms

Closed forms for the state of a freshly constructed page and its evolution
under cell writes, used to prove the persistence round trip.  These are
specification artefacts, not part of the source embedding. -/

/-- The capacities of the datablocks `AllocateBlocks cap` creates. -/
def blockCaps (cap : Nat) : List Nat :=
  List.replicate (cap / MaxDatablockCapacity) MaxDatablockCapacity ++
    (if cap % MaxDatablockCapacity ≠ 0 then [cap % MaxDatablockCapacity] else [])

/-- The page handle encoding of global slot `n` (block `n / 512`, local
handle `n % 512`). -/
def slotHandle (n : Nat) : Nat :=
  (n / MaxDatablockCapacity) * 2 ^ 32 + n % MaxDatablockCapacity

/-- Row `i` of a canonical `R×C` page: the handles of slots
`i*C … i*C+C-1`. -/
def canonRow (C i : Nat) : List Nat :=
  (List.range C).map (fun j => slotHandle (i * C + j))

/-- Fully-issued datablock number `k` (capacity `c`) of a canonical page
whose slot contents are described by `f`. -/
def canonBlock (s : Schema) (c base : Nat) (f : Nat → Nat) : FStructDatablock :=
  ⟨c, some ((List.range c).map (fun j => f (base + j))), c, [], s.size⟩

/-- All datablocks of a canonical page of `cap` fully-issued slots. -/
def canonBlocks (s : Schema) (cap : Nat) (f : Nat → Nat) : List FStructDatablock :=
  (blockCaps cap).enum.map (fun kc => canonBlock s kc.2 (MaxDatablockCapacity * kc.1) f)

/-- The canonical state of a dynamic `R×C` page whose `R*C` slots were all
issued in construction order and whose slot `n` holds `f n`. -/
def canonPage (st : UScriptStructRef) (R C : Nat) (f : Nat → Nat) : FAffinityTablePage :=
  ⟨st, (List.range R).map (fun i => some (canonRow C i)), canonBlocks st.schema (R * C) f,
   [], C, false, if R * C = 0 then 0 else (R * C - 1) / MaxDatablockCapacity⟩

/-- Pointwise update of a slot-content description. -/
def updSlot (f : Nat → Nat) (n v : Nat) : Nat → Nat :=
  fun m => if m = n then v else f m

/-- Datablock number `k` (capacity `c`, base slot `base = 512*k`) of a page
under construction from which `n` global slots have been issued so far. -/
def midBlock (s : Schema) (c base n : Nat) : FStructDatablock :=
  ⟨c, some (List.replicate c s.defaultVal), min c (n - base), [], s.size⟩

/-- All datablocks of a `cap`-slot pool after `n` issues. -/
def midBlocks (s : Schema) (cap n : Nat) : List FStructDatablock :=
  (blockCaps cap).enum.map (fun kc => midBlock s kc.2 (MaxDatablockCapacity * kc.1) n)

/-- A page under construction: `n` of its `cap` slots issued, rows built so
far as given. -/
def midPage (st : UScriptStructRef) (rows : List (Option (List Nat))) (C cap n : Nat) :
    FAffinityTablePage :=
  ⟨st, rows, midBlocks st.schema cap n, [], C, false,
   if n = 0 then 0 else (n - 1) / MaxDatablockCapacity⟩

/-- The content of cell `(i, j)` of a page, as read through
`GetDatablockPtr(Row, Column)` (0 for a cell without a record). -/
def cellVal (p : FAffinityTablePage) (i j : Nat) : Nat :=
  match p.GetDatablockPtr i j with
  | some (some v) => v
  | _ => 0

/-- Write a consecutive run of slot values starting at slot `base`. -/
def writeSeq (f : Nat → Nat) (base : Nat) : List Nat → (Nat → Nat)
  | [] => f
  | v :: rest => writeSeq (updSlot f base v) (base + 1) rest

/-- The row-major record stream `SerializePage` writes for rows
`i … i+r-1` of a `C`-column page. -/
def streamTokens (p : FAffinityTablePage) (C i r : Nat) : List Nat :=
  ((List.range' i r).map (fun ii => (List.range C).map (fun j => cellVal p ii j))).flatten

/-- The row map in the order `PreSaveTable` persists it. -/
def sortedRows (T : UAffinityTable) : TagMap :=
  List.insertionSort (fun a b => a.2 ≤ b.2) T.rows

/-- The column map in the order `PreSaveTable` persists it. -/
def sortedCols (T : UAffinityTable) : TagMap :=
  List.insertionSort (fun a b => a.2 ≤ b.2) T.columns

/-- The page registered for a structure (a dummy page when there is none). -/
def pageOf (T : UAffinityTable) (st : UScriptStructRef) : FAffinityTablePage :=
  (T.GetPageForStruct st).getD ⟨st, [], [], [], 0, false, 0⟩

/-- The structures `SaveTable` persists: those with a page. -/
def structsToSave (T : UAffinityTable) : List UScriptStructRef :=
  T.structures.filter (fun st => (T.GetPageForStruct st).isSome)

/-- The inheritance links `SaveTable` writes for one structure. -/
def savedLinks (T : UAffinityTable) (st : UScriptStructRef) : InheritanceMap :=
  match T.inheritanceMaps.find? (fun q => decide (q.1 = st.name)) with
  | some q => q.2
  | none => []

/-- The archive `Serialize` produces for a well-formed table. -/
def archOf (T : UAffinityTable) : FTableArchive :=
  { formatVersion := FileFormatVersion
    rowTags := (sortedRows T).map Prod.fst
    columnTags := (sortedCols T).map Prod.fst
    structures := T.structures
    pageData := (structsToSave T).map (fun st => (st.name, (pageOf T st).GetStructSize,
        streamTokens (pageOf T st) T.columns.length 0 T.rows.length))
    rowColors := T.rowColors
    columnColors := T.columnColors
    inheritance := (structsToSave T).map (fun st => (st.name, savedLinks T st)) }

/-- The table `LoadTable` rebuilds from `archOf T`. -/
def loadedOf (T : UAffinityTable) : UAffinityTable :=
  { rows := sortedRows T, columns := sortedCols T,
    nextRowIndex := T.rows.length, nextColumnIndex := T.columns.length,
    structures := T.structures,
    pages := (structsToSave T).map (fun s => canonPage s T.rows.length T.columns.length
        (writeSeq (fun _ => s.schema.defaultVal) 0
          (streamTokens (pageOf T s) T.columns.length 0 T.rows.length))),
    rowColors := T.rowColors, columnColors := T.columnColors,
    inheritanceMaps := (structsToSave T).filterMap (fun s =>
      if (savedLinks T s).length ≠ 0 then
        some (s.name, UAffinityTable.imapAddAll [] (savedLinks T s)) else none),
    rowTags := (sortedRows T).map Prod.fst, columnTags := (sortedCols T).map Prod.fst,
    bHasLoadingErrors := false, bFixedModeActive := false }

/-- Specification-side mirror of the orphan walk: the whole ancestor chain
of `p` (from `p` itself upward) is present in `tags`. -/
def ChainPresent (tags : List GameplayTag) (p : GameplayTag) : Bool :=
  if p.IsValid then decide (p ∈ tags) && ChainPresent tags p.RequestDirectParent
  else true
termination_by p.length
decreasing_by
  rename_i hvalid
  have hp : p ≠ [] := by
    intro he
    subst he
    simp [GameplayTag.IsValid] at hvalid
  have : 0 < p.length := List.length_pos.mpr hp
  simp [GameplayTag.RequestDirectParent]
  omega

/-- The orphan set of a tag array: tags whose chain above them is broken. -/
def orphansIn (tags : List GameplayTag) : List GameplayTag :=
  tags.filter (fun t => !(ChainPresent tags t.RequestDirectParent))

/-- Well-formedness of one (possibly deleted) row of a loaded page over `d`
datablocks and `C` columns: a live row has the grid width and every handle
in it is either retired or resolvable. -/
def OKRow (d C : Nat) (r : Option (List Nat)) : Prop :=
  ∀ row, r = some row → row.length = C ∧ ∀ h ∈ row,
    h = InvalidDataHandle ∨
      (h / 2 ^ 32 % 2 ^ 32 < d ∧ h % 2 ^ 32 ≠ InvalidHandle)

/-- Well-formedness of a loaded page that delete operations preserve: a
fixed grid width, and every live handle either retired or resolvable. -/
def OKPage (p : FAffinityTablePage) (R C : Nat) : Prop :=
  p.rows.length = R ∧ p.columns = C ∧
  ∀ r ∈ p.rows, OKRow p.datablocks.length C r

/-- The table state right after `GenerateRowAndColumnMaps` during a load of
`archOf T`. -/
def genLoaded (T : UAffinityTable) : UAffinityTable :=
  ⟨sortedRows T, sortedCols T, T.rows.length, T.columns.length, T.structures,
   [], [], [], [], (sortedRows T).map Prod.fst, (sortedCols T).map Prod.fst,
   false, false⟩

/-- The table state right after `GenerateRowAndColumnMaps` during a load of
an arbitrary archive `ar` with duplicate-free tag arrays. -/
def genFresh (ar : FTableArchive) : UAffinityTable :=
  ⟨ar.rowTags.zip (List.range' 0 ar.rowTags.length),
   ar.columnTags.zip (List.range' 0 ar.columnTags.length),
   ar.rowTags.length, ar.columnTags.length, ar.structures, [], [], [], [],
   ar.rowTags, ar.columnTags, false, false⟩

/-- The pages `LoadPages` creates for an archive whose page streams are
`tk s` for each saved struct `s`. -/
def loadedPages (ar : FTableArchive) (ss : List UScriptStructRef)
    (tk : UScriptStructRef → List Nat) : List FAffinityTablePage :=
  ss.map (fun s => canonPage s ar.rowTags.length ar.columnTags.length
    (writeSeq (fun _ => s.schema.defaultVal) 0 (tk s)))

/-- The table state a load of `ar` reaches right before `EnsureTagHierarchy`
(inheritance maps `im` as `LoadInheritance` produced them). -/
def preEnsure (ar : FTableArchive) (ss : List UScriptStructRef)
    (tk : UScriptStructRef → List Nat) (im : List (String × InheritanceMap)) :
    UAffinityTable :=
  ⟨ar.rowTags.zip (List.range' 0 ar.rowTags.length),
   ar.columnTags.zip (List.range' 0 ar.columnTags.length),
   ar.rowTags.length, ar.columnTags.length, ar.structures,
   loadedPages ar ss tk, ar.rowColors, ar.columnColors, im,
   ar.rowTags, ar.columnTags, false, false⟩

/-- `TMap::ValueSort`'s comparator (`A < B` on indices) admits a unique
sorted order on maps with pairwise-distinct values; the model's insertion
sort needs the relation total and transitive. -/
instance : IsTotal (GameplayTag × Nat) (fun a b => a.2 ≤ b.2) :=
  ⟨fun a b => Nat.le_total a.2 b.2⟩

instance : IsTrans (GameplayTag × Nat) (fun a b => a.2 ≤ b.2) :=
  ⟨fun _ _ _ hab hbc => Nat.le_trans hab hbc⟩

/-! ### Editor inheritance links (`FAffinityTableEditor`,
src/Source/AffinityTableEditor/Private/AffinityTableEditor.cpp)

The editor keeps one `Cell` object per (row node, column node) pair; a cell
that inherits carries its source in `Cell::InheritedCell`.  The model
identifies row and column nodes with `Nat` and keeps the editor's link
state as an association list from a cell to its `InheritedCell` (a cell
absent from the list does not inherit, `InheritedCell.Reset()` state).  The
row/column tag-tree parent relations (`FAffinityTableNode::GetParent`,
`HasValidParent`) are parameters `rowParent`/`colParent`. -/

namespace FAffinityTableEditor

/-- An editor cell: (row node, column node). -/
abbrev ECell := Nat × Nat

/-- `Cell::InheritedCell` for every cell of the grid. -/
abbrev LinkState := List (ECell × ECell)

/-- Read a cell's `InheritedCell` (first entry wins, `TMap::Find` style). -/
def findLink : LinkState → ECell → Option ECell
  | [], _ => none
  | q :: rest, c => if q.1 = c then some q.2 else findLink rest c

/-- `Cell::InheritsData`: `InheritedCell.IsValid()`. -/
def InheritsData (st : LinkState) (c : ECell) : Bool := (findLink st c).isSome

/-- `FAffinityTableEditor::UnlinkCell` (AffinityTableEditor.cpp:1722-1732):
`InheritedCell.Reset()` plus `RemoveInheritanceLink` on the asset. -/
def UnlinkCell (st : LinkState) (c : ECell) : LinkState :=
  st.filter (fun q => decide (q.1 ≠ c))

/-- `FAffinityTableEditor::LinkCells` (AffinityTableEditor.cpp:1709-1720):
`Child->InheritedCell = Parent` plus `SetInheritanceLink` on the asset. -/
def LinkCells (st : LinkState) (child parent : ECell) : LinkState :=
  st.filter (fun q => decide (q.1 ≠ child)) ++ [(child, parent)]

/-- The ancestor-cell selection of `AssignInheritance`
(AffinityTableEditor.cpp:1660-1700): the cell above in the requested
stream; if that stream has no parent, the other stream; with no ancestors
at all, `none` (the cell is unlinked). -/
def assignTarget (rowParent colParent : Nat → Option Nat) (c : ECell)
    (columnStream : Bool) : Option ECell :=
  if columnStream then
    match colParent c.2 with
    | some pc => some (c.1, pc)
    | none =>
      match rowParent c.1 with
      | some pr => some (pr, c.2)
      | none => none
  else
    match rowParent c.1 with
    | some pr => some (pr, c.2)
    | none =>
      match colParent c.2 with
      | some pc => some (c.1, pc)
      | none => none

/-- `FAffinityTableEditor::AssignInheritance` (editing path,
`RestoreFromAsset = false`; AffinityTableEditor.cpp:1613-1707): pick the
ancestor cell; if it inherits itself, link to its `InheritedCell` instead
(`ParentCellPtr->InheritsData() ? ParentCellPtr->InheritedCell :
ParentCell`); with no ancestor, unlink. -/
def AssignInheritance (rowParent colParent : Nat → Option Nat) (st : LinkState)
    (c : ECell) (columnStream : Bool) : LinkState :=
  match assignTarget rowParent colParent c columnStream with
  | none => UnlinkCell st c
  | some p =>
    match findLink st p with
    | some gp => LinkCells st c gp
    | none => LinkCells st c p

/-- `FAffinityTableEditor::PropagateInheritance`
(AffinityTableEditor.cpp:1477-1491): link every gathered cell to `InCell`.
`GatherInheritedCells` returns nothing when `InCell` itself inherits (the
`!StartCell.Pin()->InheritsData()` guard); the gathered set itself is kept
abstract as `children` — the claim's invariant holds for every choice that
satisfies the region hypotheses of the theorem below. -/
def PropagateInheritance (st : LinkState) (c : ECell) (children : List ECell) :
    LinkState :=
  if InheritsData st c then st
  else children.foldl (fun s ch => LinkCells s ch c) st

/-- The child-relink loop of `AcquireInheritance`
(AffinityTableEditor.cpp:1466-1469): `LinkCells(ChildCell,
InCell.Pin()->InheritedCell)` per gathered cell; `LinkCells` `check`s the
parent is valid, so an unlinked `InCell` asserts on the first child. -/
def AcquireLoop (st : LinkState) (c : ECell) : List ECell → Option LinkState
  | [] => some st
  | ch :: rest =>
    match findLink st c with
    | none => none
    | some p => AcquireLoop (LinkCells st ch p) c rest

/-- `FAffinityTableEditor::AcquireInheritance`
(AffinityTableEditor.cpp:1452-1475): a no-op on an inheriting cell;
otherwise gather the currently inherited cells, `AssignInheritance`, and
relink every gathered cell to the new `InheritedCell`. -/
def AcquireInheritance (rowParent colParent : Nat → Option Nat) (st : LinkState)
    (c : ECell) (columnStream : Bool) (children : List ECell) : Option LinkState :=
  if InheritsData st c then some st
  else AcquireLoop (AssignInheritance rowParent colParent st c columnStream) c children

/-- The one-hop invariant of the claim: no recorded `InheritedCell` itself
inherits. -/
def OneHop (st : LinkState) : Prop := ∀ q ∈ st, findLink st q.2 = none

instance (st : LinkState) : Decidable (OneHop st) := by
  unfold OneHop; infer_instance

end FAffinityTableEditor

/-! ### Concrete fixtures

Small concrete tables used by witnesses and counterexamples (reducible so
that `decide` can evaluate them). -/

abbrev sampleSchema : Schema := ⟨0, 4⟩

abbrev sampleStructA : UScriptStructRef := ⟨"SA", sampleSchema⟩

abbrev sampleStructB : UScriptStructRef := ⟨"SB", sampleSchema⟩

/-- A full one-slot datablock whose record holds `42`. -/
abbrev sampleBlock : FStructDatablock := ⟨1, some [42], 1, [], 4⟩

/-- A 1×1 page for `sampleStructA` over `sampleBlock`. -/
abbrev samplePageA : FAffinityTablePage := ⟨sampleStructA, [some [0]], [sampleBlock], [], 1, false, 0⟩

/-- A 1×1 table: row tag `R`, column tag `C`, one structure with data `42`. -/
abbrev sampleTable : UAffinityTable :=
  ⟨[(["R"], 0)], [(["C"], 0)], 1, 1, [sampleStructA], [samplePageA], [], [], [], [], [], false, false⟩

/-- Like `sampleTable` but with a second registered structure that has no
page (so a query for it yields no data). -/
abbrev sampleTable2 : UAffinityTable :=
  ⟨[(["R"], 0)], [(["C"], 0)], 1, 1, [sampleStructA, sampleStructB], [samplePageA],
   [], [], [], [], [], false, false⟩

/-- A pages-free table (row `R`, column `C`), small enough that recursive
table operations evaluate to literal tables. -/
abbrev sampleTable3 : UAffinityTable :=
  ⟨[(["R"], 0)], [(["C"], 0)], 1, 1, [], [], [], [], [], [], [], false, false⟩

/-- `sampleTable3` after `AddRow R.S`. -/
abbrev sampleTable3R : UAffinityTable :=
  ⟨[(["R"], 0), (["R", "S"], 1)], [(["C"], 0)], 2, 1, [], [], [], [], [], [], [], false, false⟩

/-- A pages-free table whose columns are `C` and `C.D`. -/
abbrev sampleTableC8 : UAffinityTable :=
  ⟨[], [(["C"], 0), (["C", "D"], 1)], 0, 2, [], [], [], [], [], [], [], false, false⟩

/-- `sampleTableC8` after `DeleteColumn C.D`. -/
abbrev sampleTableC8D : UAffinityTable :=
  ⟨[], [(["C"], 0)], 0, 2, [], [], [], [], [], [], [], false, false⟩

/-- A table whose row indices have a gap (index 1 was deleted some time
before saving): rows `A ↦ 0`, `C ↦ 2`. -/
abbrev sampleGapTable : UAffinityTable :=
  ⟨[(["A"], 0), (["C"], 2)], [(["B"], 0)], 3, 1, [], [], [], [], [], [], [], false, false⟩

/-- `sampleTable` after `DeleteColumn C`: the column map is empty, and the
page carries the retired index 0 with the invalid-handle marker. -/
abbrev sampleTableDel : UAffinityTable :=
  ⟨[(["R"], 0)], [], 1, 1, [sampleStructA],
   [⟨sampleStructA, [some [InvalidDataHandle]], [⟨1, some [42], 1, [0], 4⟩], [0], 1, false, 0⟩],
   [], [], [], [], [], false, false⟩

/-! ## Theorems

Helper lemmas first, then one theorem per claim (with its witness or
counterexample where required).
-/

namespace GameplayTag

@[simp] theorem isValid_nil : IsValid [] = false := rfl

theorem isValid_iff {t : GameplayTag} : IsValid t = true ↔ t ≠ [] := by
  cases t <;> simp [IsValid]

end GameplayTag

namespace TagMap

@[simp] theorem find?_nil (t : GameplayTag) : find? [] t = none := rfl

@[simp] theorem find?_cons (p : GameplayTag × Nat) (rest : TagMap) (t : GameplayTag) :
    find? (p :: rest) t = if p.1 = t then some p.2 else find? rest t := rfl

theorem find?_empty_of_validKeys {m : TagMap} (h : ValidKeys m) :
    m.find? [] = none := by
  induction m with
  | nil => rfl
  | cons p rest ih =>
    have hp := h p (by simp)
    simp only [find?_cons]
    rw [if_neg hp, ih (fun q hq => h q (by simp [hq]))]

end TagMap

namespace UAffinityTable

theorem getIndex_invalid (m : TagMap) (e : Bool) : GetIndex m [] e = InvalidIndex := by
  rw [GetIndex]; rfl

theorem getIndex_found {m : TagMap} {t : GameplayTag} {i : Nat} (ht : t ≠ [])
    (h : m.find? t = some i) (e : Bool) : GetIndex m t e = i := by
  rw [GetIndex, if_pos (GameplayTag.isValid_iff.mpr ht), h]

theorem getIndex_exact_miss {m : TagMap} {t : GameplayTag}
    (h : m.find? t = none) : GetIndex m t true = InvalidIndex := by
  by_cases ht : t = []
  · subst ht; exact getIndex_invalid m true
  · rw [GetIndex, if_pos (GameplayTag.isValid_iff.mpr ht), h]; rfl

theorem getIndex_closest_miss {m : TagMap} {t : GameplayTag} (ht : t ≠ [])
    (h : m.find? t = none) :
    GetIndex m t false = GetIndex m t.RequestDirectParent false := by
  rw [GetIndex, if_pos (GameplayTag.isValid_iff.mpr ht), h]; rfl

end UAffinityTable

@[simp] theorem ancestorChain_nil : ancestorChain [] = [] := rfl

theorem ancestorChain_cons {t : GameplayTag} (ht : t ≠ []) :
    ancestorChain t = t :: ancestorChain t.dropLast := by
  have hlen : 0 < t.length := List.length_pos.mpr ht
  obtain ⟨n, hn⟩ : ∃ n, t.length = n + 1 := ⟨t.length - 1, by omega⟩
  unfold ancestorChain
  rw [hn, List.range_succ, List.reverse_append]
  simp only [List.reverse_cons, List.reverse_nil, List.nil_append, List.cons_append,
    List.map_cons, List.nil_append]
  rw [List.cons.injEq]
  refine ⟨?_, ?_⟩
  · rw [← hn]; exact List.take_length t
  · have hdl : t.dropLast.length = n := by
      simp [List.length_dropLast, hn]
    rw [hdl]
    apply List.map_congr_left
    intro k hk
    have hk' : k + 1 ≤ n := by
      have := List.mem_range.mp (List.mem_reverse.mp hk); omega
    rw [List.dropLast_eq_take, List.take_take]
    congr 1
    omega

theorem closestIndexedAncestor_nil (m : TagMap) : closestIndexedAncestor m [] = none := rfl

theorem closestIndexedAncestor_cons {m : TagMap} {t : GameplayTag} (ht : t ≠ []) :
    closestIndexedAncestor m t =
      (m.find? t).orElse (fun _ => closestIndexedAncestor m t.dropLast) := by
  unfold closestIndexedAncestor
  rw [ancestorChain_cons ht, List.findSome?_cons]
  cases m.find? t <;> simp [Option.orElse]

/-- Closest-match characterisation: `GetIndex m t false` finds exactly the
first indexed entry of the ancestor chain. -/
theorem getIndex_closest_eq (m : TagMap) (t : GameplayTag) :
    UAffinityTable.GetIndex m t false = (closestIndexedAncestor m t).getD InvalidIndex := by
  suffices H : ∀ (n : Nat) (u : GameplayTag), u.length = n →
      UAffinityTable.GetIndex m u false = (closestIndexedAncestor m u).getD InvalidIndex from
    H t.length t rfl
  intro n
  induction n with
  | zero =>
    intro u hu
    have ht : u = [] := List.length_eq_zero.mp hu
    subst ht
    simp [UAffinityTable.getIndex_invalid, closestIndexedAncestor_nil]
  | succ n ih =>
    intro u hu
    have ht : u ≠ [] := by
      intro h; subst h; simp at hu
    rw [closestIndexedAncestor_cons ht]
    cases hf : m.find? u with
    | some i =>
      rw [UAffinityTable.getIndex_found ht hf]
      simp [Option.orElse]
    | none =>
      rw [UAffinityTable.getIndex_closest_miss ht hf]
      have hdl : u.dropLast.length = n := by
        simp [List.length_dropLast, hu]
      show UAffinityTable.GetIndex m u.dropLast false = _
      rw [ih u.dropLast hdl]
      simp [Option.orElse]

/-- Claim C2: for every tag `t` and every axis map, a lookup with
`ExactMatch = true` returns `t`'s mapped index when `t` is indexed and
`InvalidIndex` otherwise; a lookup with `ExactMatch = false` strips the last
segment on each miss and returns the index of the closest indexed ancestor
(including `t` itself), or `InvalidIndex` when no ancestor is indexed. -/
theorem C2_getIndex_exact_and_closest (m : TagMap) (t : GameplayTag)
    (hm : TagMap.ValidKeys m) :
    UAffinityTable.GetIndex m t true = (m.find? t).getD InvalidIndex ∧
    UAffinityTable.GetIndex m t false = (closestIndexedAncestor m t).getD InvalidIndex := by
  refine ⟨?_, getIndex_closest_eq m t⟩
  by_cases ht : t = []
  · subst ht
    rw [UAffinityTable.getIndex_invalid, TagMap.find?_empty_of_validKeys hm]
    rfl
  · cases hf : m.find? t with
    | some i => rw [UAffinityTable.getIndex_found ht hf]; rfl
    | none => rw [UAffinityTable.getIndex_exact_miss hf]; rfl

/-- Witness for C2, at the spec's own example: only `A` is indexed and the
queried tag is `A.B.C` (closest match yields `A`'s index, exact match yields
`InvalidIndex`). -/
theorem C2_getIndex_exact_and_closest_witness :
    TagMap.ValidKeys [((["A"] : GameplayTag), 0)] ∧
    (UAffinityTable.GetIndex [((["A"] : GameplayTag), 0)] ["A", "B", "C"] true =
        (TagMap.find? [((["A"] : GameplayTag), 0)] ["A", "B", "C"]).getD InvalidIndex ∧
     UAffinityTable.GetIndex [((["A"] : GameplayTag), 0)] ["A", "B", "C"] false =
        (closestIndexedAncestor [((["A"] : GameplayTag), 0)] ["A", "B", "C"]).getD InvalidIndex) :=
  ⟨by decide, C2_getIndex_exact_and_closest _ _ (by decide)⟩

/-! ### C7: pool release / reacquire -/

/-- Counterexample to claim C7 as stated: `RecycleHandle` ("release") does
*not* reset the slot's content to the schema default.  A capacity-1 pool
whose single record was overwritten with `5` still reads `5` through
`GetMemoryBlock` after the handle has been released (the schema default is
`0`). -/
theorem C7_release_leaves_content_counterexample :
    (do
      let s : Schema := ⟨0, 4⟩
      let b0 := FStructDatablock.new s 1 true
      let (b1, h) := b0.NewHandle s
      let b2 := b1.writeBlock h 5
      let b3 ← b2.RecycleHandle h
      pure (b3.GetMemoryBlock h)) = some (some 5) ∧ (5 : Nat) ≠ (Schema.mk 0 4).defaultVal := by
  exact ⟨by decide, by decide⟩

/-- Claim C7 (amended): `RecycleHandle` adds the slot to the free list and
the content is reset to the schema default when the slot is next acquired
(`ClearScriptStruct` in `NewHandle`), so reuse never observes stale data: on
a pool at full capacity, releasing a handle and then acquiring again returns
that same handle with its record content equal to the schema default. -/
theorem C7_release_then_acquire_resets (s : Schema) (b : FStructDatablock)
    (buf : List Nat) (h : Nat)
    (hbuf : b.datablock = some buf)
    (hlen : buf.length = b.capacity)
    (hfull : ¬ b.nextHandle < b.capacity)
    (hfree : b.freeHandles = [])
    (hcap : b.capacity ≤ MaxDatablockCapacity)
    (hh : h < b.capacity) :
    ∃ b' b'' : FStructDatablock,
      b.RecycleHandle h = some b' ∧
      b'.freeHandles = b.freeHandles ++ [h] ∧
      b'.NewHandle s = (b'', h) ∧
      b''.GetMemoryBlock h = some s.defaultVal := by
  obtain ⟨cap, db, nh, fh, ss⟩ := b
  dsimp only at hbuf hlen hfull hfree hcap hh ⊢
  subst hbuf
  subst hfree
  have h512 : MaxDatablockCapacity < InvalidHandle := by
    unfold MaxDatablockCapacity InvalidHandle
    norm_num
  have hinv : h ≠ InvalidHandle := by omega
  refine ⟨⟨cap, some buf, nh, [h], ss⟩,
          ⟨cap, some (buf.set h s.defaultVal), nh, [], ss⟩, ?_, rfl, ?_, ?_⟩
  · unfold FStructDatablock.RecycleHandle
    rw [if_neg hinv]
    rfl
  · unfold FStructDatablock.NewHandle
    simp only [Option.isNone_some, Bool.false_eq_true, if_false, if_neg hfull,
      Option.map_some']
  · unfold FStructDatablock.GetMemoryBlock
    rw [if_neg hinv]
    dsimp only
    rw [List.get?_eq_getElem?]
    exact List.getElem?_set_eq_of_lt s.defaultVal (by omega)

/-- Witness for the amended C7 theorem: a full capacity-2 pool holding stale
contents `[5, 6]` with schema default `7`. -/
theorem C7_release_then_acquire_resets_witness :
    ((⟨2, some [5, 6], 2, [], 4⟩ : FStructDatablock).datablock = some [5, 6] ∧
     ([5, 6] : List Nat).length = 2 ∧ ¬ (2 : Nat) < 2 ∧ (2 : Nat) ≤ MaxDatablockCapacity ∧ (1 : Nat) < 2) ∧
    (∃ b' b'' : FStructDatablock,
      (⟨2, some [5, 6], 2, [], 4⟩ : FStructDatablock).RecycleHandle 1 = some b' ∧
      b'.freeHandles = (⟨2, some [5, 6], 2, [], 4⟩ : FStructDatablock).freeHandles ++ [1] ∧
      b'.NewHandle ⟨7, 4⟩ = (b'', 1) ∧
      b''.GetMemoryBlock 1 = some (Schema.mk 7 4).defaultVal) :=
  ⟨⟨by decide, by decide, by decide, by decide, by decide⟩,
    C7_release_then_acquire_resets ⟨7, 4⟩ _ [5, 6] 1 rfl (by decide) (by decide) rfl
      (by decide) (by decide)⟩

/-! ### C4: handle exhaustion -/

/-- Claim C4 evaluation at the failing input (code bug): a fixed-mode page
pre-sized 1×1 has its whole capacity consumed by construction; the next
`NewHandle` request returns `InvalidDataHandle` with *no* assertion firing
(the final `check` compares the 64-bit handle against the 32-bit sentinel
`FStructDatablock::InvalidHandle`, so it passes), and no chunk is allocated.
In dynamic mode the same exhausted page transparently allocates one new
chunk and yields a valid handle. -/
theorem C4_fixed_mode_exhaustion_is_silent :
    ((FAffinityTablePage.new ⟨"S", ⟨0, 4⟩⟩ 1 1 true).bind (fun p => p.NewHandle)).map
        (fun r => (r.2, r.1.datablocks.length)) = some (InvalidDataHandle, 1) ∧
    ((FAffinityTablePage.new ⟨"S", ⟨0, 4⟩⟩ 1 1 false).bind (fun p => p.NewHandle)).map
        (fun r => (decide (r.2 ≠ InvalidDataHandle), r.1.datablocks.length)) = some (true, 2) := by
  exact ⟨by decide, by decide⟩

/-! ### C1 / C10: Query -/

/-- What a successful run of the structure loop of `Query` guarantees: the
in-out array only grows, by at most one entry per requested structure, and
it grows by exactly one entry per structure iff every requested structure
yielded a non-null record pointer. -/
theorem queryLoop_spec (T : UAffinityTable) (cell : Cell) :
    ∀ (structs : List UScriptStructRef) (out out' : List Nat),
      UAffinityTable.QueryLoop T cell structs out = some out' →
      (∃ extra, out' = out ++ extra) ∧
      out'.length ≤ out.length + structs.length ∧
      (out'.length = out.length + structs.length ↔
        ∀ st ∈ structs, ∃ d, T.GetCellData cell st = some (some d)) := by
  intro structs
  induction structs with
  | nil =>
    intro out out' h
    unfold UAffinityTable.QueryLoop at h
    rw [Option.some.injEq] at h
    subst h
    exact ⟨⟨[], by simp⟩, by simp, by simp⟩
  | cons st rest ih =>
    intro out out' h
    unfold UAffinityTable.QueryLoop at h
    cases hg : T.GetCellData cell st with
    | none =>
      rw [hg] at h
      exact Option.noConfusion h
    | some inner =>
      rw [hg] at h
      replace h : UAffinityTable.QueryLoop T cell rest
          (match inner with | some d => out ++ [d] | none => out) = some out' := by
        cases inner <;> exact h
      cases inner with
      | some d =>
        obtain ⟨⟨extra, he⟩, hle, hiff⟩ := ih (out ++ [d]) out' h
        have hlen : (out ++ [d]).length = out.length + 1 := by simp
        rw [hlen] at hiff hle
        refine ⟨⟨d :: extra, by simpa using he⟩,
          by simp only [List.length_cons]; omega, ?_⟩
        simp only [List.length_cons]
        constructor
        · intro hl
          intro u hu
          rcases List.mem_cons.mp hu with rfl | hu'
          · exact ⟨d, hg⟩
          · exact (hiff.mp (by omega)) u hu'
        · intro hall
          have := hiff.mpr (fun u hu => hall u (List.mem_cons_of_mem st hu))
          omega
      | none =>
        obtain ⟨⟨extra, he⟩, hle, hiff⟩ := ih out out' h
        refine ⟨⟨extra, he⟩, by simp only [List.length_cons]; omega, ?_⟩
        simp only [List.length_cons]
        constructor
        · intro hl
          exfalso
          omega
        · intro hall
          exfalso
          obtain ⟨d, hd⟩ := hall st (List.mem_cons_self st rest)
          rw [hg] at hd
          simp at hd

/-- Claim C1: on a table with at least one registered structure, a run of
`Query` that fires no internal assertion returns true iff both the row and
the column tag resolve to a valid index and every requested structure yields
a non-null record pointer — if either index is `InvalidIndex`, or any
requested structure is unregistered or has no data, the whole query fails
(all-or-nothing). -/
theorem C1_query_all_or_nothing (T : UAffinityTable) (ct : CellTags)
    (exactMatch : Bool) (structureTypes : List UScriptStructRef)
    (result : Bool × List Nat)
    (hstructs : T.structures ≠ [])
    (hq : T.Query ct exactMatch structureTypes [] = some result) :
    result.1 = true ↔
      (T.GetRowIndex ct.row exactMatch ≠ InvalidIndex ∧
       T.GetColumnIndex ct.column exactMatch ≠ InvalidIndex ∧
       ∀ st ∈ structureTypes, ∃ d,
         T.GetCellData ⟨T.GetRowIndex ct.row exactMatch,
                        T.GetColumnIndex ct.column exactMatch⟩ st = some (some d)) := by
  have hlen : T.structures.length ≠ 0 := by
    simpa [List.length_eq_zero] using hstructs
  unfold UAffinityTable.Query at hq
  rw [if_pos hlen] at hq
  dsimp only at hq
  by_cases hval : T.GetRowIndex ct.row exactMatch ≠ InvalidIndex ∧
      T.GetColumnIndex ct.column exactMatch ≠ InvalidIndex
  · rw [if_pos hval] at hq
    cases hql : UAffinityTable.QueryLoop T
        ⟨T.GetRowIndex ct.row exactMatch, T.GetColumnIndex ct.column exactMatch⟩
        structureTypes [] with
    | none =>
      rw [hql] at hq
      exact Option.noConfusion hq
    | some out =>
      rw [hql] at hq
      replace hq : some (decide (out.length = structureTypes.length), out) = some result := hq
      rw [Option.some.injEq] at hq
      subst hq
      obtain ⟨_, _, hiff⟩ := queryLoop_spec T _ structureTypes [] out hql
      simp only [List.length_nil, Nat.zero_add] at hiff
      simp only [decide_eq_true_eq]
      constructor
      · intro hl
        exact ⟨hval.1, hval.2, hiff.mp hl⟩
      · intro hr
        exact hiff.mpr hr.2.2
  · rw [if_neg hval] at hq
    replace hq : some ((false, ([] : List Nat))) = some result := hq
    rw [Option.some.injEq] at hq
    subst hq
    simp only [Bool.false_eq_true, false_iff]
    intro hr
    exact hval ⟨hr.1, hr.2.1⟩

/-- Witness for C1: `sampleTable` (one structure, one cell holding `42`)
answers an exact query successfully. -/
theorem C1_query_all_or_nothing_witness :
    (sampleTable.structures ≠ [] ∧
     sampleTable.Query ⟨["R"], ["C"]⟩ true [sampleStructA] [] = some (true, [42])) ∧
    ((true : Bool) = true ↔
      (sampleTable.GetRowIndex ["R"] true ≠ InvalidIndex ∧
       sampleTable.GetColumnIndex ["C"] true ≠ InvalidIndex ∧
       ∀ st ∈ [sampleStructA], ∃ d,
         sampleTable.GetCellData ⟨sampleTable.GetRowIndex ["R"] true,
                                  sampleTable.GetColumnIndex ["C"] true⟩ st = some (some d))) := by
  have hr : UAffinityTable.GetIndex [((["R"] : GameplayTag), 0)] ["R"] true = 0 := by
    simp [UAffinityTable.GetIndex, GameplayTag.IsValid, TagMap.find?]
  have hc : UAffinityTable.GetIndex [((["C"] : GameplayTag), 0)] ["C"] true = 0 := by
    simp [UAffinityTable.GetIndex, GameplayTag.IsValid, TagMap.find?]
  have hq : sampleTable.Query ⟨["R"], ["C"]⟩ true [sampleStructA] [] = some (true, [42]) := by
    unfold UAffinityTable.Query UAffinityTable.GetRowIndex UAffinityTable.GetColumnIndex
    rw [show sampleTable.rows = [((["R"] : GameplayTag), 0)] from rfl,
        show sampleTable.columns = [((["C"] : GameplayTag), 0)] from rfl, hr, hc]
    decide
  exact ⟨⟨by decide, hq⟩,
    C1_query_all_or_nothing sampleTable ⟨["R"], ["C"]⟩ true [sampleStructA] (true, [42])
      (by decide) hq⟩

/-- Claim C10: `Query`'s failure is not atomic in its out-parameter.  First:
on any run that fires no assertion, the incoming `OutMemoryPtrs` prefix is
preserved — the array is never cleared or rolled back.  Second, concretely:
on `sampleTable2`, requesting `[sampleStructA, sampleStructB]` where only
the first yields data returns `false` *and* leaves the resolved pointer of
`sampleStructA` appended to the out array. -/
theorem C10_query_failure_leaves_partial_output :
    (∀ (T : UAffinityTable) (ct : CellTags) (e : Bool)
       (ss : List UScriptStructRef) (out : List Nat) (r : Bool × List Nat),
       T.Query ct e ss out = some r → ∃ extra, r.2 = out ++ extra) ∧
    sampleTable2.Query ⟨["R"], ["C"]⟩ true [sampleStructA, sampleStructB] [] =
      some (false, [42]) := by
  constructor
  · intro T ct e ss out r hq
    unfold UAffinityTable.Query at hq
    by_cases hlen : T.structures.length ≠ 0
    · rw [if_pos hlen] at hq
      dsimp only at hq
      by_cases hval : T.GetRowIndex ct.row e ≠ InvalidIndex ∧
          T.GetColumnIndex ct.column e ≠ InvalidIndex
      · rw [if_pos hval] at hq
        cases hql : UAffinityTable.QueryLoop T
            ⟨T.GetRowIndex ct.row e, T.GetColumnIndex ct.column e⟩ ss out with
        | none =>
          rw [hql] at hq
          exact Option.noConfusion hq
        | some out' =>
          rw [hql] at hq
          replace hq : some (decide (out'.length = ss.length), out') = some r := hq
          rw [Option.some.injEq] at hq
          subst hq
          obtain ⟨⟨extra, he⟩, _, _⟩ := queryLoop_spec T _ ss out out' hql
          exact ⟨extra, he⟩
      · rw [if_neg hval] at hq
        replace hq : some ((false, out)) = some r := hq
        rw [Option.some.injEq] at hq
        subst hq
        exact ⟨[], by simp⟩
    · rw [if_neg hlen] at hq
      replace hq : some ((false, out)) = some r := hq
      rw [Option.some.injEq] at hq
      subst hq
      exact ⟨[], by simp⟩
  · have hr : UAffinityTable.GetIndex [((["R"] : GameplayTag), 0)] ["R"] true = 0 := by
      simp [UAffinityTable.GetIndex, GameplayTag.IsValid, TagMap.find?]
    have hc : UAffinityTable.GetIndex [((["C"] : GameplayTag), 0)] ["C"] true = 0 := by
      simp [UAffinityTable.GetIndex, GameplayTag.IsValid, TagMap.find?]
    unfold UAffinityTable.Query UAffinityTable.GetRowIndex UAffinityTable.GetColumnIndex
    rw [show sampleTable2.rows = [((["R"] : GameplayTag), 0)] from rfl,
        show sampleTable2.columns = [((["C"] : GameplayTag), 0)] from rfl, hr, hc]
    decide

/-- Witness for C10: its universally quantified half applied at the concrete
failing query of its second half. -/
theorem C10_query_failure_leaves_partial_output_witness :
    sampleTable2.Query ⟨["R"], ["C"]⟩ true [sampleStructA, sampleStructB] [] =
      some (false, [42]) ∧
    ∃ extra, ((false, [42]) : Bool × List Nat).2 = [] ++ extra := by
  have h := C10_query_failure_leaves_partial_output
  exact ⟨h.2, h.1 sampleTable2 ⟨["R"], ["C"]⟩ true [sampleStructA, sampleStructB] []
    (false, [42]) h.2⟩

/-! ### C5: AddRow / AddColumn -/

namespace TagMap

theorem find?_append_left {m1 : TagMap} (m2 : TagMap) {u : GameplayTag} {i : Nat}
    (h : m1.find? u = some i) : TagMap.find? (m1 ++ m2) u = some i := by
  induction m1 with
  | nil => simp at h
  | cons p rest ih =>
    simp only [find?_cons] at h
    by_cases hp : p.1 = u
    · rw [if_pos hp] at h
      simpa [find?, hp] using h
    · rw [if_neg hp] at h
      simpa [find?, hp] using ih h

theorem find?_append_right {m1 : TagMap} (m2 : TagMap) {u : GameplayTag}
    (h : m1.find? u = none) : TagMap.find? (m1 ++ m2) u = m2.find? u := by
  induction m1 with
  | nil => simp
  | cons p rest ih =>
    simp only [find?_cons] at h
    by_cases hp : p.1 = u
    · rw [if_pos hp] at h
      simp at h
    · rw [if_neg hp] at h
      simpa [find?, hp] using ih h

theorem contains_of_find? {m : TagMap} {u : GameplayTag} {i : Nat}
    (h : m.find? u = some i) : Contains m u = true := by
  simp [Contains, h]

theorem find?_isSome_of_contains {m : TagMap} {u : GameplayTag}
    (h : Contains m u = true) : ∃ i, m.find? u = some i := by
  simpa [Contains, Option.isSome_iff_exists] using h

theorem not_contains_find? {m : TagMap} {u : GameplayTag}
    (h : Contains m u = false) : m.find? u = none := by
  unfold Contains at h
  cases hf : m.find? u with
  | none => rfl
  | some i =>
    rw [hf] at h
    simp at h

theorem mem_of_find? {m : TagMap} {u : GameplayTag} {i : Nat}
    (h : m.find? u = some i) : (u, i) ∈ m := by
  induction m with
  | nil => simp at h
  | cons p rest ih =>
    obtain ⟨pt, pi⟩ := p
    rw [find?_cons] at h
    dsimp only at h
    by_cases hp : pt = u
    · rw [if_pos hp, Option.some.injEq] at h
      subst hp
      subst h
      exact List.mem_cons_self _ _
    · rw [if_neg hp] at h
      exact List.mem_cons_of_mem _ (ih h)

end TagMap

/-- A closed map contains the whole ancestor chain of each of its keys. -/
theorem chain_contained_of_closed {m : TagMap} (hcl : HierarchyClosed m) :
    ∀ (t : GameplayTag), TagMap.Contains m t = true →
      ∀ a ∈ ancestorChain t, TagMap.Contains m a = true := by
  suffices H : ∀ (n : Nat) (t : GameplayTag), t.length = n →
      TagMap.Contains m t = true → ∀ a ∈ ancestorChain t, TagMap.Contains m a = true by
    intro t
    exact H t.length t rfl
  intro n
  induction n with
  | zero =>
    intro t hlen _ a ha
    have : t = [] := List.length_eq_zero.mp hlen
    subst this
    simp at ha
  | succ k ih =>
    intro t hlen hc a ha
    have ht : t ≠ [] := by
      intro he; subst he; simp at hlen
    rw [ancestorChain_cons ht] at ha
    rcases List.mem_cons.mp ha with rfl | ha'
    · exact hc
    · by_cases hv : GameplayTag.IsValid t.dropLast = true
      · obtain ⟨i, hi⟩ := TagMap.find?_isSome_of_contains hc
        have hparent := hcl (t, i) (TagMap.mem_of_find? hi) hv
        have hdl : t.dropLast.length = k := by
          simp [List.length_dropLast, hlen]
        exact ih t.dropLast hdl hparent a ha'
      · have : t.dropLast = [] := by
          by_contra hne
          exact hv (GameplayTag.isValid_iff.mpr hne)
        rw [this] at ha'
        simp at ha'

/-- Exception-tolerant closure: every key's parent is indexed or equals the
tag currently being inserted. -/
def ClosedExcept (m : TagMap) (t : GameplayTag) : Prop :=
  ∀ q ∈ m, q.1.RequestDirectParent.IsValid = true →
    TagMap.Contains m q.1.RequestDirectParent = true ∨ q.1.RequestDirectParent = t

theorem closedExcept_of_closed {m : TagMap} {t : GameplayTag} (h : HierarchyClosed m) :
    ClosedExcept m t :=
  fun q hq hv => Or.inl (h q hq hv)

/-- The inductive content of `UAffinityTable::AddRow`: starting from a map
that is closed except possibly at `t`, a successful run preserves every
existing entry, restores full hierarchy closure, indexes `t` (when valid),
and on a genuinely new tag returns true and maps `t` to the old
`NextRowIndex`. -/
theorem addRow_go (t : GameplayTag) :
    ∀ (T T' : UAffinityTable) (res : Bool),
      ClosedExcept T.rows t →
      T.AddRow t = some (T', res) →
      (∀ u i, T.rows.find? u = some i → T'.rows.find? u = some i) ∧
      HierarchyClosed T'.rows ∧
      (t.IsValid = true → TagMap.Contains T'.rows t = true) ∧
      (t.IsValid = true → TagMap.Contains T.rows t = false →
        res = true ∧ T'.rows.find? t = some T.nextRowIndex) := by
  suffices H : ∀ (n : Nat) (u : GameplayTag), u.length = n →
      ∀ (T T' : UAffinityTable) (res : Bool),
        ClosedExcept T.rows u →
        T.AddRow u = some (T', res) →
        (∀ v i, T.rows.find? v = some i → T'.rows.find? v = some i) ∧
        HierarchyClosed T'.rows ∧
        (u.IsValid = true → TagMap.Contains T'.rows u = true) ∧
        (u.IsValid = true → TagMap.Contains T.rows u = false →
          res = true ∧ T'.rows.find? u = some T.nextRowIndex) by
    intro T T' res hce h
    exact H t.length t rfl T T' res hce h
  intro n
  induction n with
  | zero =>
    intro u hlen T T' res hce h
    have hu : u = [] := List.length_eq_zero.mp hlen
    subst hu
    rw [UAffinityTable.AddRow] at h
    rw [if_neg (by simp [GameplayTag.IsValid])] at h
    rw [Option.some.injEq] at h
    rw [Prod.mk.injEq] at h
    obtain ⟨h1, h2⟩ := h
    subst h1
    refine ⟨fun v i hv => hv, ?_, by simp [GameplayTag.IsValid], by simp [GameplayTag.IsValid]⟩
    intro q hq hv
    rcases hce q hq hv with hc | he
    · exact hc
    · rw [he] at hv
      simp [GameplayTag.IsValid] at hv
  | succ k ih =>
    intro u hlen T T' res hce h
    have hu : u ≠ [] := by
      intro he; subst he; simp at hlen
    have huv : u.IsValid = true := GameplayTag.isValid_iff.mpr hu
    rw [UAffinityTable.AddRow] at h
    by_cases hcond : u.IsValid = true ∧ ¬ TagMap.Contains T.rows u = true
    · rw [if_pos hcond] at h
      cases hpg : UAffinityTable.mapPages (fun pg => pg.AddRow) T.pages with
      | none =>
        rw [hpg] at h
        exact Option.noConfusion h
      | some pages' =>
        rw [hpg] at h
        replace h :
            (UAffinityTable.AddRow
                { T with pages := pages', rows := T.rows ++ [(u, T.nextRowIndex)],
                         nextRowIndex := T.nextRowIndex + 1 } u.RequestDirectParent).bind
              (fun r => some (r.1, true)) = some (T', res) := h
        cases hrec : UAffinityTable.AddRow
            { T with pages := pages', rows := T.rows ++ [(u, T.nextRowIndex)],
                     nextRowIndex := T.nextRowIndex + 1 } u.RequestDirectParent with
        | none =>
          rw [hrec] at h
          exact Option.noConfusion h
        | some r =>
          rw [hrec] at h
          replace h : some (r.1, true) = some (T', res) := h
          rw [Option.some.injEq, Prod.mk.injEq] at h
          obtain ⟨hT', hres⟩ := h
          subst hT'
          have hfind : TagMap.find? T.rows u = none :=
            TagMap.not_contains_find? (by simpa using hcond.2)
          have hfind1 : TagMap.find? (T.rows ++ [(u, T.nextRowIndex)]) u
              = some T.nextRowIndex := by
            rw [TagMap.find?_append_right _ hfind]
            simp [TagMap.find?]
          have hce1 : ClosedExcept (T.rows ++ [(u, T.nextRowIndex)]) u.RequestDirectParent := by
            intro q hq hv
            rcases List.mem_append.mp hq with hq1 | hq2
            · rcases hce q hq1 hv with hc | he
              · left
                obtain ⟨i, hi⟩ := TagMap.find?_isSome_of_contains hc
                exact TagMap.contains_of_find? (TagMap.find?_append_left _ hi)
              · left
                rw [he]
                exact TagMap.contains_of_find? hfind1
            · right
              have : q = (u, T.nextRowIndex) := by simpa using hq2
              rw [this]
          have hdl : u.RequestDirectParent.length = k := by
            simp [GameplayTag.RequestDirectParent, List.length_dropLast, hlen]
          obtain ⟨ihA, ihC, ihB, _⟩ :=
            ih u.RequestDirectParent hdl _ r.1 r.2 hce1 hrec
          refine ⟨?_, ihC, ?_, ?_⟩
          · intro v i hv
            exact ihA v i (TagMap.find?_append_left _ hv)
          · intro _
            exact TagMap.contains_of_find? (ihA u T.nextRowIndex hfind1)
          · intro _ _
            exact ⟨hres.symm, ihA u T.nextRowIndex hfind1⟩
    · rw [if_neg hcond] at h
      rw [Option.some.injEq, Prod.mk.injEq] at h
      obtain ⟨h1, h2⟩ := h
      subst h1
      have hcont : TagMap.Contains T.rows u = true := by
        by_contra hc
        exact hcond ⟨huv, by simpa using hc⟩
      refine ⟨fun v i hv => hv, ?_, fun _ => hcont, ?_⟩
      · intro q hq hv
        rcases hce q hq hv with hc | he
        · exact hc
        · rw [he]
          exact hcont
      · intro _ hfalse
        rw [hcont] at hfalse
        exact Bool.noConfusion hfalse

/-- The inductive content of `UAffinityTable::AddColumn`: starting from a column map
that is closed except possibly at `t`, a successful run preserves every
existing entry, restores full hierarchy closure, indexes `t` (when valid),
and on a genuinely new tag returns true and maps `t` to the old
`NextColumnIndex`. -/
theorem addColumn_go (t : GameplayTag) :
    ∀ (T T' : UAffinityTable) (res : Bool),
      ClosedExcept T.columns t →
      T.AddColumn t = some (T', res) →
      (∀ u i, T.columns.find? u = some i → T'.columns.find? u = some i) ∧
      HierarchyClosed T'.columns ∧
      (t.IsValid = true → TagMap.Contains T'.columns t = true) ∧
      (t.IsValid = true → TagMap.Contains T.columns t = false →
        res = true ∧ T'.columns.find? t = some T.nextColumnIndex) := by
  suffices H : ∀ (n : Nat) (u : GameplayTag), u.length = n →
      ∀ (T T' : UAffinityTable) (res : Bool),
        ClosedExcept T.columns u →
        T.AddColumn u = some (T', res) →
        (∀ v i, T.columns.find? v = some i → T'.columns.find? v = some i) ∧
        HierarchyClosed T'.columns ∧
        (u.IsValid = true → TagMap.Contains T'.columns u = true) ∧
        (u.IsValid = true → TagMap.Contains T.columns u = false →
          res = true ∧ T'.columns.find? u = some T.nextColumnIndex) by
    intro T T' res hce h
    exact H t.length t rfl T T' res hce h
  intro n
  induction n with
  | zero =>
    intro u hlen T T' res hce h
    have hu : u = [] := List.length_eq_zero.mp hlen
    subst hu
    rw [UAffinityTable.AddColumn] at h
    rw [if_neg (by simp [GameplayTag.IsValid])] at h
    rw [Option.some.injEq] at h
    rw [Prod.mk.injEq] at h
    obtain ⟨h1, h2⟩ := h
    subst h1
    refine ⟨fun v i hv => hv, ?_, by simp [GameplayTag.IsValid], by simp [GameplayTag.IsValid]⟩
    intro q hq hv
    rcases hce q hq hv with hc | he
    · exact hc
    · rw [he] at hv
      simp [GameplayTag.IsValid] at hv
  | succ k ih =>
    intro u hlen T T' res hce h
    have hu : u ≠ [] := by
      intro he; subst he; simp at hlen
    have huv : u.IsValid = true := GameplayTag.isValid_iff.mpr hu
    rw [UAffinityTable.AddColumn] at h
    by_cases hcond : u.IsValid = true ∧ ¬ TagMap.Contains T.columns u = true
    · rw [if_pos hcond] at h
      cases hpg : UAffinityTable.mapPages (fun pg => pg.AddColumn) T.pages with
      | none =>
        rw [hpg] at h
        exact Option.noConfusion h
      | some pages' =>
        rw [hpg] at h
        replace h :
            (UAffinityTable.AddColumn
                { T with pages := pages', columns := T.columns ++ [(u, T.nextColumnIndex)],
                         nextColumnIndex := T.nextColumnIndex + 1 } u.RequestDirectParent).bind
              (fun r => some (r.1, true)) = some (T', res) := h
        cases hrec : UAffinityTable.AddColumn
            { T with pages := pages', columns := T.columns ++ [(u, T.nextColumnIndex)],
                     nextColumnIndex := T.nextColumnIndex + 1 } u.RequestDirectParent with
        | none =>
          rw [hrec] at h
          exact Option.noConfusion h
        | some r =>
          rw [hrec] at h
          replace h : some (r.1, true) = some (T', res) := h
          rw [Option.some.injEq, Prod.mk.injEq] at h
          obtain ⟨hT', hres⟩ := h
          subst hT'
          have hfind : TagMap.find? T.columns u = none :=
            TagMap.not_contains_find? (by simpa using hcond.2)
          have hfind1 : TagMap.find? (T.columns ++ [(u, T.nextColumnIndex)]) u
              = some T.nextColumnIndex := by
            rw [TagMap.find?_append_right _ hfind]
            simp [TagMap.find?]
          have hce1 : ClosedExcept (T.columns ++ [(u, T.nextColumnIndex)]) u.RequestDirectParent := by
            intro q hq hv
            rcases List.mem_append.mp hq with hq1 | hq2
            · rcases hce q hq1 hv with hc | he
              · left
                obtain ⟨i, hi⟩ := TagMap.find?_isSome_of_contains hc
                exact TagMap.contains_of_find? (TagMap.find?_append_left _ hi)
              · left
                rw [he]
                exact TagMap.contains_of_find? hfind1
            · right
              have : q = (u, T.nextColumnIndex) := by simpa using hq2
              rw [this]
          have hdl : u.RequestDirectParent.length = k := by
            simp [GameplayTag.RequestDirectParent, List.length_dropLast, hlen]
          obtain ⟨ihA, ihC, ihB, _⟩ :=
            ih u.RequestDirectParent hdl _ r.1 r.2 hce1 hrec
          refine ⟨?_, ihC, ?_, ?_⟩
          · intro v i hv
            exact ihA v i (TagMap.find?_append_left _ hv)
          · intro _
            exact TagMap.contains_of_find? (ihA u T.nextColumnIndex hfind1)
          · intro _ _
            exact ⟨hres.symm, ihA u T.nextColumnIndex hfind1⟩
    · rw [if_neg hcond] at h
      rw [Option.some.injEq, Prod.mk.injEq] at h
      obtain ⟨h1, h2⟩ := h
      subst h1
      have hcont : TagMap.Contains T.columns u = true := by
        by_contra hc
        exact hcond ⟨huv, by simpa using hc⟩
      refine ⟨fun v i hv => hv, ?_, fun _ => hcont, ?_⟩
      · intro q hq hv
        rcases hce q hq hv with hc | he
        · exact hc
        · rw [he]
          exact hcont
      · intro _ hfalse
        rw [hcont] at hfalse
        exact Bool.noConfusion hfalse


/-- Claim C5: on a hierarchy-closed table, `AddRow` (and symmetrically
`AddColumn`) on an invalid or already-indexed tag returns false and leaves
the whole table unchanged; on a new valid tag a successful run returns true,
maps the tag to the next sequential index, and recursively indexes the
parent, so afterwards the tag's full ancestor chain is indexed. -/
theorem C5_addRow_addColumn (T : UAffinityTable) (t : GameplayTag)
    (hclr : HierarchyClosed T.rows) (hclc : HierarchyClosed T.columns) :
    (¬ (t.IsValid = true ∧ ¬ TagMap.Contains T.rows t = true) →
        T.AddRow t = some (T, false)) ∧
    (∀ T' res, T.AddRow t = some (T', res) →
        t.IsValid = true → TagMap.Contains T.rows t = false →
        res = true ∧ T'.rows.find? t = some T.nextRowIndex ∧
        ∀ a ∈ ancestorChain t, TagMap.Contains T'.rows a = true) ∧
    (¬ (t.IsValid = true ∧ ¬ TagMap.Contains T.columns t = true) →
        T.AddColumn t = some (T, false)) ∧
    (∀ T' res, T.AddColumn t = some (T', res) →
        t.IsValid = true → TagMap.Contains T.columns t = false →
        res = true ∧ T'.columns.find? t = some T.nextColumnIndex ∧
        ∀ a ∈ ancestorChain t, TagMap.Contains T'.columns a = true) := by
  refine ⟨?_, ?_, ?_, ?_⟩
  · intro hcond
    rw [UAffinityTable.AddRow, if_neg hcond]
  · intro T' res h hv hnc
    obtain ⟨_, hC, hB, hD⟩ := addRow_go t T T' res (closedExcept_of_closed hclr) h
    obtain ⟨hres, hfind⟩ := hD hv hnc
    exact ⟨hres, hfind, chain_contained_of_closed hC t (hB hv)⟩
  · intro hcond
    rw [UAffinityTable.AddColumn, if_neg hcond]
  · intro T' res h hv hnc
    obtain ⟨_, hC, hB, hD⟩ := addColumn_go t T T' res (closedExcept_of_closed hclc) h
    obtain ⟨hres, hfind⟩ := hD hv hnc
    exact ⟨hres, hfind, chain_contained_of_closed hC t (hB hv)⟩

/-- Witness for C5: adding the new row tag `R.S` to the pages-free
`sampleTable3` succeeds, returns true, assigns index 1, and leaves the full
chain `[R.S, R]` indexed. -/
theorem C5_addRow_addColumn_witness :
    (HierarchyClosed sampleTable3.rows ∧ HierarchyClosed sampleTable3.columns ∧
     sampleTable3.AddRow ["R", "S"] = some (sampleTable3R, true) ∧
     GameplayTag.IsValid ["R", "S"] = true ∧
     TagMap.Contains sampleTable3.rows ["R", "S"] = false) ∧
    (true = true ∧ sampleTable3R.rows.find? ["R", "S"] = some sampleTable3.nextRowIndex ∧
     ∀ a ∈ ancestorChain ["R", "S"], TagMap.Contains sampleTable3R.rows a = true) := by
  have heval : sampleTable3.AddRow ["R", "S"] = some (sampleTable3R, true) := by
    rw [UAffinityTable.AddRow]
    rw [if_pos (by decide)]
    show (UAffinityTable.AddRow _ ["R"]).bind _ = _
    rw [UAffinityTable.AddRow]
    rw [if_neg (by decide)]
    rfl
  refine ⟨⟨by decide, by decide, heval, by decide, by decide⟩, ?_⟩
  exact (C5_addRow_addColumn sampleTable3 ["R", "S"] (by decide) (by decide)).2.1
    sampleTable3R true heval (by decide) (by decide)

/-! ### Page-operation lemmas -/

namespace FAffinityTablePage

/-- The grid-shape fields that handle allocation never touches. -/
structure GridShape where
  rows : List (Option (List Nat))
  columns : Nat
  deletedColumns : List Nat
  fixedMode : Bool
  struct : UScriptStructRef

/-- Read off the grid-shape fields of a page. -/
def shape (p : FAffinityTablePage) : GridShape :=
  ⟨p.rows, p.columns, p.deletedColumns, p.fixedMode, p.struct⟩

theorem shape_allocateBlocks {p p' : FAffinityTablePage} {cap : Nat}
    (h : p.AllocateBlocks cap = some p') : p'.shape = p.shape := by
  unfold AllocateBlocks at h
  by_cases hc : cap = 0
  · rw [if_pos hc] at h
    exact Option.noConfusion h
  · rw [if_neg hc, Option.some.injEq] at h
    subst h
    rfl

theorem shape_scanBlocks :
    ∀ (fuel : Nat) (p : FAffinityTablePage) (i : Nat) (p' : FAffinityTablePage) (h : Nat),
      p.ScanBlocks i fuel = some (p', h) → p'.shape = p.shape := by
  intro fuel
  induction fuel with
  | zero =>
    intro p i p' h hs
    unfold ScanBlocks at hs
    rw [Option.some.injEq, Prod.mk.injEq] at hs
    rw [← hs.1]
  | succ k ih =>
    intro p i p' h hs
    unfold ScanBlocks at hs
    cases hdb : p.datablocks.get? i with
    | none =>
      rw [hdb] at hs
      exact Option.noConfusion hs
    | some db =>
      rw [hdb] at hs
      dsimp only at hs
      by_cases hh : (db.NewHandle p.struct.schema).2 ≠ InvalidHandle
      · rw [if_pos hh] at hs
        simp only [Option.bind_eq_bind, Option.bind_eq_some] at hs
        obtain ⟨handle, _, hs⟩ := hs
        rw [Option.some.injEq, Prod.mk.injEq] at hs
        rw [← hs.1]
        rfl
      · rw [if_neg hh] at hs
        have := ih _ _ _ _ hs
        rw [this]
        rfl

theorem shape_findAvailableHandle {p p' : FAffinityTablePage} {h : Nat}
    (hs : p.FindAvailableHandle = some (p', h)) : p'.shape = p.shape := by
  unfold FindAvailableHandle at hs
  by_cases hz : p.datablocks.length = 0
  · rw [if_pos hz, Option.some.injEq, Prod.mk.injEq] at hs
    rw [← hs.1]
  · rw [if_neg hz] at hs
    simp only [Option.bind_eq_bind, Option.bind_eq_some] at hs
    obtain ⟨db, hdb, hs⟩ := hs
    by_cases hh : (db.NewHandle p.struct.schema).2 = InvalidHandle
    · rw [if_pos hh] at hs
      have := shape_scanBlocks _ _ _ _ _ hs
      rw [this]
      rfl
    · rw [if_neg hh] at hs
      simp only [Option.bind_eq_bind, Option.bind_eq_some] at hs
      obtain ⟨handle, _, hs⟩ := hs
      rw [Option.some.injEq, Prod.mk.injEq] at hs
      rw [← hs.1]
      rfl

theorem shape_newHandle {p p' : FAffinityTablePage} {h : Nat}
    (hs : p.NewHandle = some (p', h)) : p'.shape = p.shape := by
  unfold NewHandle at hs
  simp only [Option.bind_eq_bind, Option.bind_eq_some] at hs
  obtain ⟨⟨p1, h1⟩, hfa, hs⟩ := hs
  have hsh1 : p1.shape = p.shape := shape_findAvailableHandle hfa
  by_cases hc : h1 = InvalidDataHandle ∧ ¬ p1.fixedMode = true
  · rw [if_pos hc] at hs
    simp only [Option.bind_eq_bind, Option.bind_eq_some] at hs
    obtain ⟨pa, hal, hs⟩ := hs
    obtain ⟨⟨pb, hb⟩, hfb, hs⟩ := hs
    dsimp only at hs
    split at hs
    · exact Option.noConfusion hs
    · replace hs : (if hb = InvalidHandle then none else some (pb, hb)) = some (p', h) := hs
      split at hs
      · exact Option.noConfusion hs
      · rw [Option.some.injEq, Prod.mk.injEq] at hs
        rw [← hs.1, shape_findAvailableHandle hfb, shape_allocateBlocks hal, hsh1]
  · rw [if_neg hc] at hs
    replace hs : (if h1 = InvalidHandle then none else some (p1, h1)) = some (p', h) := hs
    split at hs
    · exact Option.noConfusion hs
    · rw [Option.some.injEq, Prod.mk.injEq] at hs
      rw [← hs.1, hsh1]

theorem shape_rows {p q : FAffinityTablePage} (h : p.shape = q.shape) : p.rows = q.rows :=
  congrArg GridShape.rows h

theorem shape_columns {p q : FAffinityTablePage} (h : p.shape = q.shape) : p.columns = q.columns :=
  congrArg GridShape.columns h

theorem shape_deletedColumns {p q : FAffinityTablePage} (h : p.shape = q.shape) :
    p.deletedColumns = q.deletedColumns :=
  congrArg GridShape.deletedColumns h

theorem appendCount_spec :
    ∀ (n : Nat) (p : FAffinityTablePage) (row : List Nat) (p' : FAffinityTablePage)
      (row' : List Nat), p.AppendCount row n = some (p', row') →
      p'.shape = p.shape ∧ row'.length = row.length + n := by
  intro n
  induction n with
  | zero =>
    intro p row p' row' h
    unfold AppendCount at h
    rw [Option.some.injEq, Prod.mk.injEq] at h
    rw [← h.1, ← h.2]
    exact ⟨rfl, rfl⟩
  | succ k ih =>
    intro p row p' row' h
    unfold AppendCount at h
    simp only [Option.bind_eq_bind, Option.bind_eq_some] at h
    obtain ⟨⟨p1, h1⟩, hnh, h⟩ := h
    obtain ⟨hsh, hlen⟩ := ih p1 (row ++ [h1]) p' row' h
    refine ⟨hsh.trans (shape_newHandle hnh), ?_⟩
    rw [hlen]
    simp
    omega

theorem appendPerColumn_spec :
    ∀ (idxs : List Nat) (p : FAffinityTablePage) (row : List Nat)
      (p' : FAffinityTablePage) (row' : List Nat),
      p.AppendPerColumn row idxs = some (p', row') →
      p'.shape = p.shape ∧
      ∃ vals, row' = row ++ vals ∧ vals.length = idxs.length ∧
        ∀ k j, idxs.get? k = some j → j ∈ p.deletedColumns →
          vals.get? k = some InvalidDataHandle := by
  intro idxs
  induction idxs with
  | nil =>
    intro p row p' row' h
    unfold AppendPerColumn at h
    rw [Option.some.injEq, Prod.mk.injEq] at h
    rw [← h.1, ← h.2]
    exact ⟨rfl, [], by simp, by simp, by intro k j hk; simp at hk⟩
  | cons i rest ih =>
    intro p row p' row' h
    unfold AppendPerColumn at h
    by_cases hdel : i ∈ p.deletedColumns
    · rw [if_pos hdel] at h
      obtain ⟨hsh, vals2, hrow, hlen, hval⟩ := ih p (row ++ [InvalidDataHandle]) p' row' h
      refine ⟨hsh, InvalidDataHandle :: vals2, by simp [hrow], by simp [hlen], ?_⟩
      intro k j hk hj
      cases k with
      | zero => rfl
      | succ k' =>
        rw [List.get?_cons_succ] at hk ⊢
        exact hval k' j hk hj
    · rw [if_neg hdel] at h
      simp only [Option.bind_eq_bind, Option.bind_eq_some] at h
      obtain ⟨⟨p1, h1⟩, hnh, h⟩ := h
      have hsh1 : p1.shape = p.shape := shape_newHandle hnh
      obtain ⟨hsh, vals2, hrow, hlen, hval⟩ := ih p1 (row ++ [h1]) p' row' h
      refine ⟨hsh.trans hsh1, h1 :: vals2, by simp [hrow], by simp [hlen], ?_⟩
      intro k j hk hj
      cases k with
      | zero =>
        rw [List.get?_cons_zero, Option.some.injEq] at hk
        subst hk
        exact absurd hj hdel
      | succ k' =>
        rw [List.get?_cons_succ] at hk ⊢
        exact hval k' j hk (by rw [shape_deletedColumns hsh1]; exact hj)

/-- `AddRow` on a page with retired columns: the new row is appended with an
`InvalidDataHandle` marker at every retired position; the retired set is
untouched. -/
theorem addRow_skips_retired {p p' : FAffinityTablePage}
    (hne : p.deletedColumns ≠ []) (hadd : p.AddRow = some p') :
    p'.columns = p.columns ∧ p'.deletedColumns = p.deletedColumns ∧
    p'.rows.length = p.rows.length + 1 ∧
    ∃ r, p'.rows.get? p.rows.length = some (some r) ∧ r.length = p.columns ∧
      ∀ i, i ∈ p.deletedColumns → i < p.columns → r.get? i = some InvalidDataHandle := by
  unfold AddRow at hadd
  simp only [Option.bind_eq_bind, Option.bind_eq_some] at hadd
  obtain ⟨⟨p1, row⟩, hap, hadd⟩ := hadd
  rw [Option.some.injEq] at hadd
  subst hadd
  unfold AppendHandles at hap
  rw [if_neg (by simp [hne])] at hap
  obtain ⟨hsh, vals, hrow, hlen, hval⟩ := appendPerColumn_spec _ _ _ _ _ hap
  have hrows1 : p1.rows = p.rows := shape_rows hsh
  dsimp only
  refine ⟨shape_columns hsh, shape_deletedColumns hsh, by simp [hrows1], row, ?_, ?_, ?_⟩
  · dsimp only
    rw [hrows1, List.get?_append_right (by omega)]
    simp
  · rw [hrow]
    simp [hlen]
  · intro i hi hic
    rw [hrow]
    simp only [List.nil_append]
    exact hval i i (by simp [hic]) hi

theorem addColumnRows_spec :
    ∀ (rows : List (Option (List Nat))) (p p' : FAffinityTablePage)
      (rows' : List (Option (List Nat))),
      p.AddColumnRows rows = some (p', rows') →
      p'.shape = p.shape ∧ rows'.length = rows.length := by
  intro rows
  induction rows with
  | nil =>
    intro p p' rows' h
    unfold AddColumnRows at h
    rw [Option.some.injEq, Prod.mk.injEq] at h
    rw [← h.1, ← h.2]
    exact ⟨rfl, rfl⟩
  | cons r rest ih =>
    intro p p' rows' h
    cases r with
    | none =>
      unfold AddColumnRows at h
      simp only [Option.bind_eq_bind, Option.bind_eq_some] at h
      obtain ⟨⟨p1, rest'⟩, hrec, h⟩ := h
      rw [Option.some.injEq, Prod.mk.injEq] at h
      obtain ⟨h1, h2⟩ := h
      subst h1
      subst h2
      obtain ⟨hsh, hlen⟩ := ih p p1 rest' hrec
      exact ⟨hsh, by simp [hlen]⟩
    | some row =>
      unfold AddColumnRows at h
      simp only [Option.bind_eq_bind, Option.bind_eq_some] at h
      obtain ⟨⟨p1, row'⟩, hap, h⟩ := h
      obtain ⟨⟨p2, rest'⟩, hrec, h⟩ := h
      rw [Option.some.injEq, Prod.mk.injEq] at h
      obtain ⟨h1, h2⟩ := h
      subst h1
      subst h2
      obtain ⟨hsh2, hlen⟩ := ih p1 p2 rest' hrec
      have hsh1 : p1.shape = p.shape := by
        replace hap : p.AppendCount row 1 = some (p1, row') := hap
        exact (appendCount_spec _ _ _ _ _ hap).1
      exact ⟨hsh2.trans hsh1, by simp [hlen]⟩

/-- `AddColumn` permanently increments the column count and never touches
the retired set, so a retired index is never reused as a column position. -/
theorem addColumn_spec {p p' : FAffinityTablePage} (h : p.AddColumn = some p') :
    p'.columns = p.columns + 1 ∧ p'.deletedColumns = p.deletedColumns ∧
    p'.rows.length = p.rows.length := by
  unfold AddColumn at h
  simp only [Option.bind_eq_bind, Option.bind_eq_some] at h
  obtain ⟨⟨p1, rows'⟩, hrec, h⟩ := h
  rw [Option.some.injEq] at h
  subst h
  obtain ⟨hsh, hlen⟩ := addColumnRows_spec _ _ _ _ hrec
  exact ⟨by dsimp only; rw [shape_columns hsh], by dsimp only; rw [shape_deletedColumns hsh],
    by dsimp only; rw [hlen]⟩

theorem recycleRowHandles_fields :
    ∀ (hl : List Nat) (p p' : FAffinityTablePage), p.RecycleRowHandles hl = some p' →
      p'.shape = p.shape := by
  intro hl
  induction hl with
  | nil =>
    intro p p' h
    unfold RecycleRowHandles at h
    rw [Option.some.injEq] at h
    rw [← h]
  | cons hd rest ih =>
    intro p p' h
    unfold RecycleRowHandles at h
    simp only [Option.bind_eq_bind, Option.bind_eq_some] at h
    obtain ⟨inner, hg, h⟩ := h
    cases inner with
    | some pair =>
      obtain ⟨bi, bh⟩ := pair
      simp only [Option.bind_eq_bind, Option.bind_eq_some] at h
      obtain ⟨db, _, h⟩ := h
      obtain ⟨db', _, h⟩ := h
      have hi := ih _ p' h
      exact hi.trans rfl
    | none => exact ih _ _ h

/-- `GetHandleData` answers `some none` only on `InvalidDataHandle`. -/
theorem getHandleData_none {p : FAffinityTablePage} {h : Nat}
    (hg : p.GetHandleData h = some none) : h = InvalidDataHandle := by
  unfold GetHandleData at hg
  by_cases hh : h = InvalidDataHandle
  · exact hh
  · rw [if_neg hh] at hg
    dsimp only at hg
    split at hg
    · rw [Option.some.injEq] at hg
      exact Option.noConfusion hg
    · exact Option.noConfusion hg

theorem deleteColumnRows_spec :
    ∀ (rows : List (Option (List Nat))) (p : FAffinityTablePage) (colIndex : Nat)
      (p' : FAffinityTablePage) (rows' : List (Option (List Nat))),
      p.DeleteColumnRows colIndex rows = some (p', rows') →
      p'.shape = p.shape ∧ rows'.length = rows.length ∧
      ∀ k r', rows'.get? k = some (some r') → r'.get? colIndex = some InvalidDataHandle := by
  intro rows
  induction rows with
  | nil =>
    intro p colIndex p' rows' h
    unfold DeleteColumnRows at h
    rw [Option.some.injEq, Prod.mk.injEq] at h
    rw [← h.1, ← h.2]
    exact ⟨rfl, rfl, by intro k r' hk; simp at hk⟩
  | cons r rest ih =>
    intro p colIndex p' rows' h
    cases r with
    | none =>
      unfold DeleteColumnRows at h
      simp only [Option.bind_eq_bind, Option.bind_eq_some] at h
      obtain ⟨⟨p1, rest'⟩, hrec, h⟩ := h
      rw [Option.some.injEq, Prod.mk.injEq] at h
      obtain ⟨h1, h2⟩ := h
      subst h1
      subst h2
      obtain ⟨hsh, hlen, hmark⟩ := ih p colIndex p1 rest' hrec
      refine ⟨hsh, by simp [hlen], ?_⟩
      intro k r' hk
      cases k with
      | zero => simp at hk
      | succ k' =>
        rw [List.get?_cons_succ] at hk
        exact hmark k' r' hk
    | some row =>
      unfold DeleteColumnRows at h
      by_cases hc : colIndex < row.length
      · rw [dif_pos hc] at h
        cases hg : p.GetHandleData (row.get ⟨colIndex, hc⟩) with
        | none =>
          rw [hg] at h
          exact Option.noConfusion h
        | some inner =>
          rw [hg] at h
          cases inner with
          | some pair =>
            obtain ⟨bi, bh⟩ := pair
            simp only [Option.bind_eq_bind, Option.bind_eq_some] at h
            obtain ⟨db, hdb, h⟩ := h
            obtain ⟨db', hdb', h⟩ := h
            obtain ⟨⟨p2, rest'⟩, hrec, h⟩ := h
            rw [Option.some.injEq, Prod.mk.injEq] at h
            obtain ⟨h1, h2⟩ := h
            subst h1
            subst h2
            obtain ⟨hsh, hlen, hmark⟩ := ih _ colIndex p2 rest' hrec
            refine ⟨hsh, by simp [hlen], ?_⟩
            intro k r' hk
            cases k with
            | zero =>
              rw [List.get?_cons_zero, Option.some.injEq, Option.some.injEq] at hk
              subst hk
              rw [List.get?_eq_getElem?]
              exact List.getElem?_set_eq_of_lt _ hc
            | succ k' =>
              rw [List.get?_cons_succ] at hk
              exact hmark k' r' hk
          | none =>
            simp only [Option.bind_eq_bind, Option.bind_eq_some] at h
            obtain ⟨⟨p2, rest'⟩, hrec, h⟩ := h
            rw [Option.some.injEq, Prod.mk.injEq] at h
            obtain ⟨h1, h2⟩ := h
            subst h1
            subst h2
            obtain ⟨hsh, hlen, hmark⟩ := ih p colIndex p2 rest' hrec
            refine ⟨hsh, by simp [hlen], ?_⟩
            intro k r' hk
            cases k with
            | zero =>
              rw [List.get?_cons_zero, Option.some.injEq, Option.some.injEq] at hk
              subst hk
              have hinv : row.get ⟨colIndex, hc⟩ = InvalidDataHandle := getHandleData_none hg
              rw [List.get?_eq_get hc, hinv]
            | succ k' =>
              rw [List.get?_cons_succ] at hk
              exact hmark k' r' hk
      · rw [dif_neg hc] at h
        exact Option.noConfusion h

/-- `FAffinityTablePage::DeleteColumn`: the column count is unchanged, the
index joins the retired set, and every surviving live row carries the
`InvalidDataHandle` marker at the retired position. -/
theorem deleteColumn_spec {p p' : FAffinityTablePage} {i : Nat}
    (h : p.DeleteColumn i = some p') :
    p'.columns = p.columns ∧ p'.deletedColumns = p.deletedColumns ++ [i] ∧
    p'.rows.length = p.rows.length ∧
    ∀ k r', p'.rows.get? k = some (some r') → r'.get? i = some InvalidDataHandle := by
  unfold DeleteColumn at h
  split at h
  · simp only [Option.bind_eq_bind, Option.bind_eq_some] at h
    obtain ⟨⟨p1, rows'⟩, hrec, h⟩ := h
    rw [Option.some.injEq] at h
    subst h
    obtain ⟨hsh, hlen, hmark⟩ := deleteColumnRows_spec _ _ _ _ _ hrec
    exact ⟨by dsimp only; rw [shape_columns hsh],
      by dsimp only; rw [shape_deletedColumns hsh],
      by dsimp only; rw [hlen],
      fun k r' hk => hmark k r' hk⟩
  · exact Option.noConfusion h

end FAffinityTablePage

/-! ### C8: DeleteColumn -/

namespace TagMap

theorem find?_filter_ne {m : TagMap} {t u : GameplayTag} (hne : u ≠ t) :
    find? (m.filter (fun p => decide (p.1 ≠ t))) u = find? m u := by
  induction m with
  | nil => rfl
  | cons p rest ih =>
    by_cases hp : p.1 = t
    · rw [List.filter_cons_of_neg (by simp [hp])]
      rw [find?_cons, if_neg (by rw [hp]; exact fun he => hne he.symm)]
      exact ih
    · rw [List.filter_cons_of_pos (by simp [hp])]
      rw [find?_cons, find?_cons]
      by_cases hu : p.1 = u
      · rw [if_pos hu, if_pos hu]
      · rw [if_neg hu, if_neg hu]
        exact ih

theorem find?_filter_self {m : TagMap} {t : GameplayTag} :
    find? (m.filter (fun p => decide (p.1 ≠ t))) t = none := by
  induction m with
  | nil => rfl
  | cons p rest ih =>
    by_cases hp : p.1 = t
    · rw [List.filter_cons_of_neg (by simp [hp])]
      exact ih
    · rw [List.filter_cons_of_pos (by simp [hp])]
      rw [find?_cons, if_neg hp]
      exact ih

end TagMap

namespace UAffinityTable

theorem mapPages_mem {f : FAffinityTablePage → Option FAffinityTablePage} :
    ∀ {l l' : List FAffinityTablePage}, mapPages f l = some l' →
      ∀ pg' ∈ l', ∃ pg ∈ l, f pg = some pg' := by
  intro l
  induction l with
  | nil =>
    intro l' h pg' hpg'
    unfold mapPages at h
    rw [Option.some.injEq] at h
    subst h
    simp at hpg'
  | cons pg rest ih =>
    intro l' h pg' hpg'
    unfold mapPages at h
    simp only [Option.bind_eq_bind, Option.bind_eq_some] at h
    obtain ⟨pgh, hpg, h⟩ := h
    obtain ⟨rest', hrest, h⟩ := h
    rw [Option.some.injEq] at h
    subst h
    rcases List.mem_cons.mp hpg' with rfl | hmem
    · exact ⟨pg, List.mem_cons_self _ _, hpg⟩
    · obtain ⟨pga, hpga, hfa⟩ := ih hrest pg' hmem
      exact ⟨pga, List.mem_cons_of_mem _ hpga, hfa⟩

end UAffinityTable

/-- Claim C8 (amended): deleting a column never changes the TagIndex of any
surviving row or column; afterwards *exact-match* queries against the
deleted tag — or any descendant that was never separately indexed — return
`InvalidIndex` until redefined, while a closest-match query falls back to
the nearest surviving indexed ancestor; in every page the retired position
keeps an invalid-handle marker in every live row, later `AddRow` growth
writes the invalid-handle marker at the retired position, and `AddColumn`
growth appends at the fresh index `Columns` (which only ever grows) without
touching the retired set, so a retired index is never reused. -/
theorem C8_deleteColumn_effects (T T' : UAffinityTable) (t : GameplayTag) (i : Nat)
    (hv : t.IsValid = true) (hfind : T.columns.find? t = some i)
    (hdel : T.DeleteColumn t = some T') :
    T'.rows = T.rows ∧
    (∀ u, u ≠ t → T'.columns.find? u = T.columns.find? u) ∧
    T'.GetColumnIndex t true = InvalidIndex ∧
    (∀ d, TagMap.Contains T.columns d = false → T'.GetColumnIndex d true = InvalidIndex) ∧
    (∀ pg' ∈ T'.pages, ∃ pg ∈ T.pages,
      pg.DeleteColumn i = some pg' ∧
      i ∈ pg'.deletedColumns ∧
      pg'.columns = pg.columns ∧
      (∀ k r', pg'.rows.get? k = some (some r') → r'.get? i = some InvalidDataHandle) ∧
      (∀ pg'', pg'.AddRow = some pg'' → i < pg'.columns →
        ∃ r, pg''.rows.get? pg'.rows.length = some (some r) ∧
          r.get? i = some InvalidDataHandle) ∧
      (∀ pg'', pg'.AddColumn = some pg'' →
        pg''.columns = pg'.columns + 1 ∧ pg''.deletedColumns = pg'.deletedColumns)) := by
  unfold UAffinityTable.DeleteColumn at hdel
  rw [if_pos ⟨hv, TagMap.contains_of_find? hfind⟩] at hdel
  simp only [Option.bind_eq_bind, Option.bind_eq_some] at hdel
  obtain ⟨iF, hiF, hdel⟩ := hdel
  rw [hfind, Option.some.injEq] at hiF
  subst hiF
  obtain ⟨pages', hpg, hdel⟩ := hdel
  rw [Option.some.injEq] at hdel
  subst hdel
  refine ⟨rfl, ?_, ?_, ?_, ?_⟩
  · intro u hu
    exact TagMap.find?_filter_ne hu
  · exact UAffinityTable.getIndex_exact_miss TagMap.find?_filter_self
  · intro d hd
    by_cases hdt : d = t
    · subst hdt
      exact UAffinityTable.getIndex_exact_miss TagMap.find?_filter_self
    · exact UAffinityTable.getIndex_exact_miss
        (by rw [TagMap.find?_filter_ne hdt]; exact TagMap.not_contains_find? hd)
  · intro pg' hpg'
    obtain ⟨pg, hmem, hdc⟩ := UAffinityTable.mapPages_mem hpg pg' hpg'
    obtain ⟨hcols, hdels, hlen, hmark⟩ := FAffinityTablePage.deleteColumn_spec hdc
    have hidel : i ∈ pg'.deletedColumns := by
      rw [hdels]
      simp
    refine ⟨pg, hmem, hdc, hidel, hcols, hmark, ?_, ?_⟩
    · intro pg'' hadd hic
      have hne : pg'.deletedColumns ≠ [] := by
        rw [hdels]
        simp
      obtain ⟨_, _, _, r, hr, _, hrmark⟩ :=
        FAffinityTablePage.addRow_skips_retired hne hadd
      exact ⟨r, hr, hrmark i hidel hic⟩
    · intro pg'' hadd
      obtain ⟨h1, h2, _⟩ := FAffinityTablePage.addColumn_spec hadd
      exact ⟨h1, h2⟩

/-- Counterexample to claim C8 as stated: after deleting column `C.D` (with
`C` still indexed), a *closest-match* query against the deleted tag does
not return `InvalidIndex` — it falls back to `C`'s index 0. -/
theorem C8_closest_match_counterexample :
    sampleTableC8.DeleteColumn ["C", "D"] = some sampleTableC8D ∧
    sampleTableC8D.GetColumnIndex ["C", "D"] false = 0 ∧
    (0 : Nat) ≠ InvalidIndex := by
  refine ⟨by decide, ?_, by decide⟩
  show UAffinityTable.GetIndex [((["C"] : GameplayTag), 0)] ["C", "D"] false = 0
  simp [UAffinityTable.GetIndex, GameplayTag.IsValid, GameplayTag.RequestDirectParent,
    TagMap.find?]

/-- Witness for the amended C8 theorem: deleting the only column `C` of
`sampleTable` (which has one 1×1 page). -/
theorem C8_deleteColumn_effects_witness :
    (GameplayTag.IsValid ["C"] = true ∧
     sampleTable.columns.find? ["C"] = some 0 ∧
     sampleTable.DeleteColumn ["C"] = some sampleTableDel) ∧
    (sampleTableDel.rows = sampleTable.rows ∧
     (∀ u, u ≠ ["C"] → sampleTableDel.columns.find? u = sampleTable.columns.find? u) ∧
     sampleTableDel.GetColumnIndex ["C"] true = InvalidIndex ∧
     (∀ d, TagMap.Contains sampleTable.columns d = false →
       sampleTableDel.GetColumnIndex d true = InvalidIndex) ∧
     (∀ pg' ∈ sampleTableDel.pages, ∃ pg ∈ sampleTable.pages,
       pg.DeleteColumn 0 = some pg' ∧
       0 ∈ pg'.deletedColumns ∧
       pg'.columns = pg.columns ∧
       (∀ k r', pg'.rows.get? k = some (some r') → r'.get? 0 = some InvalidDataHandle) ∧
       (∀ pg'', pg'.AddRow = some pg'' → 0 < pg'.columns →
         ∃ r, pg''.rows.get? pg'.rows.length = some (some r) ∧
           r.get? 0 = some InvalidDataHandle) ∧
       (∀ pg'', pg'.AddColumn = some pg'' →
         pg''.columns = pg'.columns + 1 ∧ pg''.deletedColumns = pg'.deletedColumns))) := by
  have hdel : sampleTable.DeleteColumn ["C"] = some sampleTableDel := by decide
  exact ⟨⟨by decide, by decide, hdel⟩,
    C8_deleteColumn_effects sampleTable sampleTableDel ["C"] 0 (by decide) (by decide) hdel⟩

/-! ### C3: fresh-page allocator lemmas -/

theorem max512 : MaxDatablockCapacity = 512 := rfl

theorem blockCaps_length (cap : Nat) :
    (blockCaps cap).length = cap / 512 + (if cap % 512 ≠ 0 then 1 else 0) := by
  unfold blockCaps
  rw [max512]
  by_cases h : cap % 512 ≠ 0 <;> simp [h]

theorem blockCaps_get?_full {cap k : Nat} (hk : k < cap / 512) :
    (blockCaps cap).get? k = some 512 := by
  unfold blockCaps
  rw [max512, List.get?_eq_getElem?, List.getElem?_append_left (by simpa using hk)]
  simp [hk]

theorem blockCaps_get?_rem {cap : Nat} (hr : cap % 512 ≠ 0) :
    (blockCaps cap).get? (cap / 512) = some (cap % 512) := by
  unfold blockCaps
  rw [max512, List.get?_eq_getElem?, List.getElem?_append_right (by simp)]
  simp [hr]

/-- For each block of the pool, its base plus capacity stays within `cap`,
and its capacity is positive. -/
theorem blockCaps_get?_bounds {cap k c : Nat} (h : (blockCaps cap).get? k = some c) :
    0 < c ∧ 512 * k + c ≤ cap := by
  unfold blockCaps at h
  rw [max512, List.get?_eq_getElem?] at h
  by_cases hk : k < cap / 512
  · rw [List.getElem?_append_left (by simpa using hk)] at h
    rw [List.getElem?_replicate] at h
    rw [if_pos hk] at h
    rw [Option.some.injEq] at h
    subst h
    constructor
    · omega
    · have := Nat.div_mul_le_self cap 512
      have hk' : 512 * (k + 1) ≤ 512 * (cap / 512) := by omega
      have := Nat.div_add_mod cap 512
      omega
  · rw [List.getElem?_append_right (by simpa using hk)] at h
    rw [List.length_replicate] at h
    by_cases hr : cap % 512 ≠ 0
    · rw [if_pos hr] at h
      rw [List.getElem?_cons] at h
      by_cases hke : k - cap / 512 = 0
      · rw [if_pos hke] at h
        rw [Option.some.injEq] at h
        subst h
        have hkeq : k = cap / 512 := by omega
        subst hkeq
        have := Nat.div_add_mod cap 512
        omega
      · rw [if_neg hke] at h
        simp at h
    · rw [if_neg hr] at h
      simp at h

theorem blockCaps_get?_none {cap k : Nat}
    (hk : cap / 512 + (if cap % 512 ≠ 0 then 1 else 0) ≤ k) :
    (blockCaps cap).get? k = none := by
  rw [List.get?_eq_getElem?, List.getElem?_eq_none]
  rw [blockCaps_length]
  exact hk

theorem midBlocks_length (s : Schema) (cap n : Nat) :
    (midBlocks s cap n).length = (blockCaps cap).length := by
  unfold midBlocks
  rw [List.length_map, List.enum_length]

theorem midBlocks_get? (s : Schema) (cap n k : Nat) :
    (midBlocks s cap n).get? k =
      ((blockCaps cap).get? k).map (fun c => midBlock s c (512 * k) n) := by
  unfold midBlocks
  rw [max512, List.get?_eq_getElem?, List.getElem?_map, List.getElem?_enum,
    List.get?_eq_getElem?]
  cases (blockCaps cap)[k]? <;> rfl

theorem list_set_same {α : Type} : ∀ (l : List α) (i : Nat) (a : α),
    l.get? i = some a → l.set i a = l := by
  intro l
  induction l with
  | nil =>
    intro i a h
    simp at h
  | cons x rest ih =>
    intro i a h
    cases i with
    | zero =>
      rw [List.get?_cons_zero, Option.some.injEq] at h
      rw [List.set_cons_zero, h]
    | succ j =>
      rw [List.get?_cons_succ] at h
      rw [List.set_cons_succ, ih j a h]

/-- Not-full criterion for the active block. -/
theorem active_block_not_full {cap n c : Nat} (hn : n < cap)
    (hc : (blockCaps cap).get? (n / 512) = some c) : n - 512 * (n / 512) < c := by
  by_cases hkf : n / 512 < cap / 512
  · rw [blockCaps_get?_full hkf, Option.some.injEq] at hc
    have := Nat.div_add_mod n 512
    have : n % 512 < 512 := Nat.mod_lt _ (by omega)
    omega
  · have hle : n / 512 ≤ cap / 512 := Nat.div_le_div_right (le_of_lt hn)
    have hke : n / 512 = cap / 512 := by omega
    by_cases hr : cap % 512 ≠ 0
    · rw [hke, blockCaps_get?_rem hr, Option.some.injEq] at hc
      have h1 := Nat.div_add_mod cap 512
      omega
    · exfalso
      have h1 := Nat.div_add_mod cap 512
      have h2 : cap % 512 = 0 := by omega
      have h3 : n < 512 * (cap / 512) := by omega
      have h4 : n / 512 < cap / 512 := Nat.div_lt_of_lt_mul (by omega)
      omega

/-- Issuing slot `n` bumps the active block's `NextHandle`, turning the
`n`-issued pool into the `n+1`-issued pool. -/
theorem midBlocks_set_issue {s : Schema} {cap n : Nat} {c : Nat}
    (hn : n < cap) (hc : (blockCaps cap).get? (n / 512) = some c) :
    (midBlocks s cap n).set (n / 512)
        { midBlock s c (512 * (n / 512)) n with
            nextHandle := (midBlock s c (512 * (n / 512)) n).nextHandle + 1 }
      = midBlocks s cap (n + 1) := by
  have hnf : n - 512 * (n / 512) < c := active_block_not_full hn hc
  have hbase : 512 * (n / 512) ≤ n := by
    have := Nat.div_add_mod n 512
    omega
  have hupd : ({ midBlock s c (512 * (n / 512)) n with
      nextHandle := (midBlock s c (512 * (n / 512)) n).nextHandle + 1 } : FStructDatablock)
      = midBlock s c (512 * (n / 512)) (n + 1) := by
    unfold midBlock
    dsimp only
    rw [FStructDatablock.mk.injEq]
    refine ⟨rfl, rfl, ?_, rfl, rfl⟩
    rw [Nat.min_eq_right (by omega), Nat.min_eq_right (by omega)]
    omega
  rw [hupd]
  apply List.ext_get?
  intro k
  by_cases hk : k = n / 512
  · subst hk
    rw [List.get?_set_eq]
    rw [midBlocks_get?, midBlocks_get?, hc]
    simp only [Option.map_some', Option.map_eq_map]
  · rw [List.get?_set_ne _ _ (fun he => hk he.symm)]
    rw [midBlocks_get?, midBlocks_get?]
    cases hck : (blockCaps cap).get? k with
    | none => rfl
    | some ck =>
      simp only [Option.map_some']
      obtain ⟨hcpos, hbound⟩ := blockCaps_get?_bounds hck
      unfold midBlock
      rw [Option.some.injEq, FStructDatablock.mk.injEq]
      refine ⟨rfl, rfl, ?_, rfl, rfl⟩
      rcases Nat.lt_or_ge k (n / 512) with hlt | hge
      · have h1 : 512 * (k + 1) ≤ 512 * (n / 512) := by omega
        have h2 : 512 * k + ck ≤ n := by
          have hck512 : ck ≤ 512 := by
            by_cases hkf : k < cap / 512
            · rw [blockCaps_get?_full hkf, Option.some.injEq] at hck
              omega
            · by_cases hr : cap % 512 ≠ 0
              · have hke : k = cap / 512 := by
                  by_contra hne
                  rw [blockCaps_get?_none (by rw [if_pos hr]; omega)] at hck
                  exact Option.noConfusion hck
                rw [hke, blockCaps_get?_rem hr, Option.some.injEq] at hck
                have := Nat.div_add_mod cap 512
                have : cap % 512 < 512 := Nat.mod_lt _ (by omega)
                omega
              · rw [blockCaps_get?_none (by rw [if_neg hr]; omega)] at hck
                exact Option.noConfusion hck
          omega
        omega
      · have hgt : n / 512 < k := by omega
        have h1 : 512 * (n / 512 + 1) ≤ 512 * k := by omega
        have h2 := Nat.div_add_mod n 512
        have h3 : n % 512 < 512 := Nat.mod_lt _ (by omega)
        omega

theorem blockCaps_le512 {cap k c : Nat} (h : (blockCaps cap).get? k = some c) : c ≤ 512 := by
  by_cases hk : k < cap / 512
  · rw [blockCaps_get?_full hk, Option.some.injEq] at h
    omega
  · by_cases hr : cap % 512 ≠ 0
    · by_cases hke : k = cap / 512
      · subst hke
        rw [blockCaps_get?_rem hr, Option.some.injEq] at h
        have : cap % 512 < 512 := Nat.mod_lt _ (by omega)
        omega
      · rw [blockCaps_get?_none (by rw [if_pos hr]; omega)] at h
        exact Option.noConfusion h
    · rw [blockCaps_get?_none (by rw [if_neg hr]; omega)] at h
      exact Option.noConfusion h

theorem blockCaps_length_lt {cap n : Nat} (hn : n < cap) :
    n / 512 < (blockCaps cap).length := by
  rw [blockCaps_length]
  have hle : n / 512 ≤ cap / 512 := Nat.div_le_div_right (le_of_lt hn)
  by_cases hk : n / 512 < cap / 512
  · omega
  · have hke : n / 512 = cap / 512 := by omega
    have h1 := Nat.div_add_mod cap 512
    have h2 := Nat.div_add_mod n 512
    have h3 : n % 512 < 512 := Nat.mod_lt _ (by omega)
    by_cases hr : cap % 512 ≠ 0
    · rw [if_pos hr]
      omega
    · exfalso
      omega

theorem blockCaps_length_pos {cap : Nat} (h : 0 < cap) : 0 < (blockCaps cap).length := by
  have h0 : (0 : Nat) / 512 < (blockCaps cap).length := blockCaps_length_lt h
  simpa using h0

theorem slotHandle_mod (n : Nat) : slotHandle n % 2 ^ 32 = n % 512 := by
  unfold slotHandle
  rw [max512, Nat.mul_comm, Nat.mul_add_mod, Nat.mod_eq_of_lt]
  exact lt_of_lt_of_le (Nat.mod_lt _ (by omega)) (by norm_num)

theorem slotHandle_div (n : Nat) : slotHandle n / 2 ^ 32 = n / 512 := by
  unfold slotHandle
  rw [max512, Nat.mul_comm, Nat.mul_add_div (by norm_num)]
  have h0 : n % 512 / 2 ^ 32 = 0 :=
    Nat.div_eq_of_lt (lt_of_lt_of_le (Nat.mod_lt _ (by omega)) (by norm_num))
  omega

theorem slotHandle_ne_invalidData (n : Nat) : slotHandle n ≠ InvalidDataHandle := by
  intro h
  have h1 := slotHandle_mod n
  rw [h] at h1
  have h2 : InvalidDataHandle % 2 ^ 32 = 4294967295 := by decide
  have h3 : n % 512 < 512 := Nat.mod_lt _ (by omega)
  omega

theorem slotHandle_ne_invalid32 (n : Nat) : slotHandle n ≠ InvalidHandle := by
  intro h
  have h1 := slotHandle_mod n
  rw [h] at h1
  have h2 : InvalidHandle % 2 ^ 32 = 4294967295 := by decide
  have h3 : n % 512 < 512 := Nat.mod_lt _ (by omega)
  omega

theorem get?_map_range {α : Type} (g : Nat → α) (c k : Nat) :
    ((List.range c).map g).get? k = if k < c then some (g k) else none := by
  rw [List.get?_eq_getElem?, List.getElem?_map]
  by_cases hk : k < c
  · rw [List.getElem?_range hk, if_pos hk]
    rfl
  · rw [List.getElem?_eq_none (by simpa using Nat.le_of_not_lt hk), if_neg hk]
    rfl

theorem map_range_set {α : Type} {c m : Nat} {v : α} {g : Nat → α} (hm : m < c) :
    ((List.range c).map g).set m v =
      (List.range c).map (fun j => if j = m then v else g j) := by
  apply List.ext_get?
  intro k
  by_cases hk : k = m
  · subst hk
    rw [List.get?_set_eq, get?_map_range, get?_map_range, if_pos hm, if_pos hm]
    simp
  · rw [List.get?_set_ne _ _ (fun he => hk he.symm), get?_map_range, get?_map_range]
    by_cases hkc : k < c
    · rw [if_pos hkc, if_pos hkc, if_neg hk]
    · rw [if_neg hkc, if_neg hkc]

theorem canonBlocks_length (s : Schema) (cap : Nat) (f : Nat → Nat) :
    (canonBlocks s cap f).length = (blockCaps cap).length := by
  unfold canonBlocks
  rw [List.length_map, List.enum_length]

theorem canonBlocks_get? (s : Schema) (cap : Nat) (f : Nat → Nat) (k : Nat) :
    (canonBlocks s cap f).get? k =
      ((blockCaps cap).get? k).map (fun c => canonBlock s c (512 * k) f) := by
  unfold canonBlocks
  rw [max512, List.get?_eq_getElem?, List.getElem?_map, List.getElem?_enum,
    List.get?_eq_getElem?]
  cases (blockCaps cap)[k]? <;> rfl

theorem canonRow_length (C i : Nat) : (canonRow C i).length = C := by
  unfold canonRow
  rw [List.length_map, List.length_range]

theorem canonRow_get? {C j : Nat} (i : Nat) (hj : j < C) :
    (canonRow C i).get? j = some (slotHandle (i * C + j)) := by
  unfold canonRow
  rw [get?_map_range, if_pos hj]

theorem canonPage_rows (st : UScriptStructRef) (R C : Nat) (f : Nat → Nat) :
    (canonPage st R C f).rows = (List.range R).map (fun i => some (canonRow C i)) := rfl

theorem canonPage_datablocks (st : UScriptStructRef) (R C : Nat) (f : Nat → Nat) :
    (canonPage st R C f).datablocks = canonBlocks st.schema (R * C) f := rfl

theorem cell_slot_lt {R C i j : Nat} (hi : i < R) (hj : j < C) : i * C + j < R * C := by
  have h1 : (i + 1) * C = i * C + C := by ring
  have h2 : (i + 1) * C ≤ R * C := Nat.mul_le_mul_right C hi
  omega

theorem canonPage_getRow {R C i : Nat} (st : UScriptStructRef) (f : Nat → Nat) (hi : i < R) :
    (canonPage st R C f).GetRow i = some (some (canonRow C i)) := by
  have hlen : (canonPage st R C f).rows.length = R := by
    rw [canonPage_rows, List.length_map, List.length_range]
  have hget : (canonPage st R C f).rows.get? i = some (some (canonRow C i)) := by
    rw [canonPage_rows, get?_map_range, if_pos hi]
  unfold FAffinityTablePage.GetRow
  rw [dif_pos (show i < (canonPage st R C f).rows.length by omega)]
  rw [List.get?_eq_get (show i < (canonPage st R C f).rows.length by omega)] at hget
  rw [Option.some.injEq] at hget
  rw [hget]

theorem canonPage_getHandleData {R C n : Nat} (st : UScriptStructRef) (f : Nat → Nat)
    (hn : n < R * C) (hb : n / 512 < 2 ^ 32) :
    (canonPage st R C f).GetHandleData (slotHandle n) = some (some (n / 512, n % 512)) := by
  have h1 : n / 512 < (canonPage st R C f).datablocks.length := by
    rw [canonPage_datablocks, canonBlocks_length]
    exact blockCaps_length_lt hn
  have h2 : n % 512 ≠ InvalidHandle := by
    intro he
    have h3 : n % 512 < 512 := Nat.mod_lt _ (by omega)
    have h4 : InvalidHandle = 4294967295 := by decide
    omega
  unfold FAffinityTablePage.GetHandleData
  rw [if_neg (slotHandle_ne_invalidData n)]
  dsimp only
  rw [slotHandle_div, slotHandle_mod, Nat.mod_eq_of_lt hb]
  rw [if_pos ⟨h1, h2⟩]

theorem canonPage_getPtrHandle {R C n : Nat} (st : UScriptStructRef) (f : Nat → Nat)
    (hn : n < R * C) (hb : n / 512 < 2 ^ 32) :
    (canonPage st R C f).GetDatablockPtrHandle (slotHandle n) = some (some (f n)) := by
  rcases hq : (blockCaps (R * C)).get? (n / 512) with _ | c
  · exfalso
    rw [List.get?_eq_none] at hq
    have := blockCaps_length_lt hn
    omega
  · have hmod : n % 512 < c := by
      have h0 := active_block_not_full hn hq
      have h1 := Nat.div_add_mod n 512
      omega
    have h2 : n % 512 ≠ InvalidHandle := by
      intro he
      have h3 : n % 512 < 512 := Nat.mod_lt _ (by omega)
      have h4 : InvalidHandle = 4294967295 := by decide
      omega
    unfold FAffinityTablePage.GetDatablockPtrHandle
    rw [canonPage_getHandleData st f hn hb]
    simp only [Option.bind_eq_bind, Option.some_bind]
    rw [canonPage_datablocks, canonBlocks_get?, hq]
    simp only [Option.map_some', Option.some_bind]
    rw [Option.some.injEq]
    unfold canonBlock FStructDatablock.GetMemoryBlock
    dsimp only
    rw [if_neg h2, get?_map_range, if_pos hmod, Nat.div_add_mod]

theorem canonPage_getDatablockPtr {R C i j : Nat} (st : UScriptStructRef) (f : Nat → Nat)
    (hi : i < R) (hj : j < C) (hb : (i * C + j) / 512 < 2 ^ 32) :
    (canonPage st R C f).GetDatablockPtr i j = some (some (f (i * C + j))) := by
  have hn : i * C + j < R * C := cell_slot_lt hi hj
  have hjr : j < (canonRow C i).length := by rw [canonRow_length]; exact hj
  have hrow : (canonRow C i).get ⟨j, hjr⟩ = slotHandle (i * C + j) := by
    have h0 := canonRow_get? (C := C) (j := j) i hj
    rw [List.get?_eq_get hjr, Option.some.injEq] at h0
    exact h0
  unfold FAffinityTablePage.GetDatablockPtr
  rw [canonPage_getRow st f hi]
  simp only [Option.bind_eq_bind, Option.some_bind]
  rw [dif_pos hjr, hrow]
  exact canonPage_getPtrHandle st f hn hb

theorem canonBlocks_set_write {s : Schema} {cap n c v : Nat} {f : Nat → Nat}
    (hn : n < cap) (hc : (blockCaps cap).get? (n / 512) = some c) :
    (canonBlocks s cap f).set (n / 512)
        ((canonBlock s c (512 * (n / 512)) f).writeBlock (n % 512) v)
      = canonBlocks s cap (updSlot f n v) := by
  have hnf : n - 512 * (n / 512) < c := active_block_not_full hn hc
  have hdm := Nat.div_add_mod n 512
  have hmod : n % 512 < c := by omega
  have hc512 : c ≤ 512 := blockCaps_le512 hc
  have hupd : (canonBlock s c (512 * (n / 512)) f).writeBlock (n % 512) v
      = canonBlock s c (512 * (n / 512)) (updSlot f n v) := by
    unfold canonBlock FStructDatablock.writeBlock
    dsimp only
    rw [FStructDatablock.mk.injEq]
    refine ⟨rfl, ?_, rfl, rfl, rfl⟩
    simp only [Option.map_some']
    rw [map_range_set hmod, Option.some.injEq]
    apply List.map_congr_left
    intro j hj
    rw [List.mem_range] at hj
    unfold updSlot
    by_cases hj' : j = n % 512
    · subst hj'
      rw [if_pos rfl, if_pos (by omega)]
    · rw [if_neg hj', if_neg (by intro he; apply hj'; omega)]
  rw [hupd]
  apply List.ext_get?
  intro k
  by_cases hk : k = n / 512
  · subst hk
    rw [List.get?_set_eq, canonBlocks_get?, canonBlocks_get?, hc]
    simp only [Option.map_some', Option.map_eq_map]
  · rw [List.get?_set_ne _ _ (fun he => hk he.symm), canonBlocks_get?, canonBlocks_get?]
    cases hck : (blockCaps cap).get? k with
    | none => rfl
    | some ck =>
      simp only [Option.map_some']
      rw [Option.some.injEq]
      have hck512 : ck ≤ 512 := blockCaps_le512 hck
      unfold canonBlock
      rw [FStructDatablock.mk.injEq]
      refine ⟨rfl, ?_, rfl, rfl, rfl⟩
      rw [Option.some.injEq]
      apply List.map_congr_left
      intro j hj
      rw [List.mem_range] at hj
      unfold updSlot
      rw [if_neg]
      intro he
      apply hk
      have hj512 : j < 512 := by omega
      have hdiv : (512 * k + j) / 512 = k := by
        rw [Nat.mul_add_div (by omega : (0:Nat) < 512)]
        have h0 : j / 512 = 0 := Nat.div_eq_of_lt hj512
        omega
      rw [← he, hdiv]

theorem canonPage_writeCell {R C i j v : Nat} (st : UScriptStructRef) (f : Nat → Nat)
    (hi : i < R) (hj : j < C) (hb : (i * C + j) / 512 < 2 ^ 32) :
    (canonPage st R C f).WriteCell i j v =
      some (canonPage st R C (updSlot f (i * C + j) v)) := by
  have hn : i * C + j < R * C := cell_slot_lt hi hj
  have hjr : j < (canonRow C i).length := by rw [canonRow_length]; exact hj
  have hrow : (canonRow C i).get ⟨j, hjr⟩ = slotHandle (i * C + j) := by
    have h0 := canonRow_get? (C := C) (j := j) i hj
    rw [List.get?_eq_get hjr, Option.some.injEq] at h0
    exact h0
  rcases hq : (blockCaps (R * C)).get? ((i * C + j) / 512) with _ | c
  · exfalso
    rw [List.get?_eq_none] at hq
    have := blockCaps_length_lt hn
    omega
  unfold FAffinityTablePage.WriteCell
  rw [canonPage_getRow st f hi]
  simp only [Option.bind_eq_bind, Option.some_bind]
  rw [dif_pos hjr, hrow]
  rw [canonPage_getHandleData st f hn hb]
  simp only [Option.some_bind]
  rw [canonPage_datablocks, canonBlocks_get?, hq]
  simp only [Option.map_some', Option.some_bind]
  rw [Option.some.injEq]
  unfold canonPage
  dsimp only
  rw [FAffinityTablePage.mk.injEq]
  refine ⟨rfl, rfl, ?_, rfl, rfl, rfl, rfl⟩
  exact canonBlocks_set_write hn hq

theorem writeSeq_lt : ∀ (vals : List Nat) (base n : Nat) (f : Nat → Nat), n < base →
    writeSeq f base vals n = f n := by
  intro vals
  induction vals with
  | nil => intro base n f h; rfl
  | cons v rest ih =>
    intro base n f h
    show writeSeq (updSlot f base v) (base + 1) rest n = f n
    rw [ih (base + 1) n _ (by omega)]
    unfold updSlot
    rw [if_neg (by omega)]

theorem writeSeq_get : ∀ (vals : List Nat) (base j : Nat) (f : Nat → Nat) (hj : j < vals.length),
    writeSeq f base vals (base + j) = vals.get ⟨j, hj⟩ := by
  intro vals
  induction vals with
  | nil => intro base j f hj; exact absurd hj (by simp)
  | cons v rest ih =>
    intro base j f hj
    cases j with
    | zero =>
      show writeSeq (updSlot f base v) (base + 1) rest (base + 0) = v
      rw [writeSeq_lt rest (base + 1) (base + 0) _ (by omega)]
      unfold updSlot
      rw [if_pos (by omega)]
    | succ k =>
      show writeSeq (updSlot f base v) (base + 1) rest (base + (k + 1)) = _
      rw [show base + (k + 1) = (base + 1) + k by omega,
        ih (base + 1) k _ (by simpa using Nat.lt_of_succ_lt_succ hj)]
      rfl

theorem writeSeq_append : ∀ (v1 v2 : List Nat) (f : Nat → Nat) (base : Nat),
    writeSeq f base (v1 ++ v2) = writeSeq (writeSeq f base v1) (base + v1.length) v2 := by
  intro v1
  induction v1 with
  | nil => intro v2 f base; rfl
  | cons v rest ih =>
    intro v2 f base
    show writeSeq (updSlot f base v) (base + 1) (rest ++ v2) = _
    rw [ih v2 (updSlot f base v) (base + 1)]
    rw [show base + 1 + rest.length = base + (v :: rest).length by simp; omega]
    rfl

theorem newHandle_midBlock_active {s : Schema} {c base n : Nat}
    (hfull : n - base < c) :
    (midBlock s c base n).NewHandle s =
      ({ midBlock s c base n with nextHandle := (midBlock s c base n).nextHandle + 1 },
        n - base) := by
  have hmin : min c (n - base) = n - base := Nat.min_eq_right (by omega)
  unfold FStructDatablock.NewHandle
  dsimp only [midBlock]
  simp only [Option.isNone_some, Bool.false_eq_true, if_false]
  rw [hmin, if_pos (by omega : n - base < c)]

theorem newHandle_midBlock_full {s : Schema} {c base n : Nat}
    (hc : c ≤ n - base) :
    (midBlock s c base n).NewHandle s = (midBlock s c base n, InvalidHandle) := by
  have hmin : min c (n - base) = c := Nat.min_eq_left hc
  unfold FStructDatablock.NewHandle
  dsimp only [midBlock]
  simp only [Option.isNone_some, Bool.false_eq_true, if_false]
  rw [hmin, if_neg (by omega : ¬ c < c)]

theorem mod512_ne_invalid (n : Nat) : n % 512 ≠ InvalidHandle := by
  intro he
  have h1 : n % 512 < 512 := Nat.mod_lt _ (by omega)
  have h2 : InvalidHandle = 4294967295 := by decide
  omega

theorem scanBlocks_mid (st : UScriptStructRef) (rows : List (Option (List Nat)))
    (C cap n : Nat) (hn : n < cap) (hb : n / 512 < 2 ^ 32) :
    ∀ (d jj : Nat), jj + d = n / 512 →
      (midPage st rows C cap n).ScanBlocks jj ((midBlocks st.schema cap n).length - jj)
        = some ({ midPage st rows C cap n with
                    datablocks := midBlocks st.schema cap (n + 1),
                    currentDatablock := n / 512 }, slotHandle n) := by
  have hdm := Nat.div_add_mod n 512
  intro d
  induction d with
  | zero =>
    intro jj hjj
    have hk : jj = n / 512 := by omega
    subst hk
    rcases hc : (blockCaps cap).get? (n / 512) with _ | c
    · exfalso
      rw [List.get?_eq_none] at hc
      have := blockCaps_length_lt hn
      omega
    have hnf : n - 512 * (n / 512) < c := active_block_not_full hn hc
    have hlen : n / 512 < (midBlocks st.schema cap n).length := by
      rw [midBlocks_length]
      exact blockCaps_length_lt hn
    obtain ⟨fu, hfu⟩ : ∃ fu, (midBlocks st.schema cap n).length - n / 512 = fu + 1 :=
      ⟨(midBlocks st.schema cap n).length - n / 512 - 1, by omega⟩
    rw [hfu, FAffinityTablePage.ScanBlocks]
    rw [show (midPage st rows C cap n).datablocks = midBlocks st.schema cap n from rfl]
    rw [midBlocks_get?, hc]
    simp only [Option.map_some']
    rw [show (midPage st rows C cap n).struct = st from rfl]
    rw [newHandle_midBlock_active hnf]
    dsimp only
    rw [if_pos (show n - 512 * (n / 512) ≠ InvalidHandle from by
      rw [show n - 512 * (n / 512) = n % 512 by omega]
      exact mod512_ne_invalid n)]
    unfold FAffinityTablePage.MakeHandle
    rw [if_pos ⟨by rw [List.length_set]; exact hlen, by
      rw [show n - 512 * (n / 512) = n % 512 by omega]
      exact mod512_ne_invalid n⟩]
    simp only [Option.bind_eq_bind, Option.some_bind]
    rw [Option.some.injEq, Prod.mk.injEq]
    constructor
    · rw [FAffinityTablePage.mk.injEq]
      refine ⟨rfl, rfl, ?_, rfl, rfl, rfl, rfl⟩
      exact midBlocks_set_issue hn hc
    · show n / 512 * 2 ^ 32 + (n - 512 * (n / 512)) = slotHandle n
      unfold slotHandle
      rw [max512]
      omega
  | succ d ih =>
    intro jj hjj
    have hjk : jj < n / 512 := by omega
    have hjlen : jj < (midBlocks st.schema cap n).length := by
      rw [midBlocks_length]
      have := blockCaps_length_lt hn
      omega
    rcases hc : (blockCaps cap).get? jj with _ | c
    · exfalso
      rw [List.get?_eq_none, ← midBlocks_length st.schema cap n] at hc
      omega
    have hc512 : c ≤ 512 := blockCaps_le512 hc
    obtain ⟨fu, hfu⟩ : ∃ fu, (midBlocks st.schema cap n).length - jj = fu + 1 :=
      ⟨(midBlocks st.schema cap n).length - jj - 1, by omega⟩
    rw [hfu, FAffinityTablePage.ScanBlocks]
    rw [show (midPage st rows C cap n).datablocks = midBlocks st.schema cap n from rfl]
    rw [midBlocks_get?, hc]
    simp only [Option.map_some']
    rw [show (midPage st rows C cap n).struct = st from rfl]
    rw [newHandle_midBlock_full (show c ≤ n - 512 * jj from by
      have h1 : 512 * (jj + 1) ≤ 512 * (n / 512) := by omega
      omega)]
    dsimp only
    rw [if_neg (by simp)]
    rw [list_set_same _ _ _ (by rw [midBlocks_get?, hc]; rfl)]
    have hrec := ih (jj + 1) (by omega)
    rw [show fu = (midBlocks st.schema cap n).length - (jj + 1) by omega]
    exact hrec

theorem midPage_bump (st : UScriptStructRef) (rows : List (Option (List Nat)))
    (C cap n : Nat) :
    ({ midPage st rows C cap n with
        datablocks := midBlocks st.schema cap (n + 1),
        currentDatablock := n / 512 } : FAffinityTablePage)
      = midPage st rows C cap (n + 1) := by
  unfold midPage
  dsimp only
  rw [FAffinityTablePage.mk.injEq]
  refine ⟨rfl, rfl, rfl, rfl, rfl, rfl, ?_⟩
  rw [if_neg (by omega : ¬ n + 1 = 0), max512]
  omega

theorem findAvailable_mid (st : UScriptStructRef) (rows : List (Option (List Nat)))
    (C cap n : Nat) (hn : n < cap) (hb : n / 512 < 2 ^ 32) :
    (midPage st rows C cap n).FindAvailableHandle
      = some (midPage st rows C cap (n + 1), slotHandle n) := by
  have hdm := Nat.div_add_mod n 512
  rcases hck : (blockCaps cap).get? (n / 512) with _ | c
  · exfalso
    rw [List.get?_eq_none] at hck
    have := blockCaps_length_lt hn
    omega
  have hnf : n - 512 * (n / 512) < c := active_block_not_full hn hck
  have hklen : n / 512 < (midBlocks st.schema cap n).length := by
    rw [midBlocks_length]
    exact blockCaps_length_lt hn
  unfold FAffinityTablePage.FindAvailableHandle
  rw [if_neg (show ¬ (midPage st rows C cap n).datablocks.length = 0 from by
    show ¬ (midBlocks st.schema cap n).length = 0
    omega)]
  by_cases hcase : n = 0 ∨ n % 512 ≠ 0
  · -- the current datablock is the active block
    have hcur : (midPage st rows C cap n).currentDatablock = n / 512 := by
      show (if n = 0 then 0 else (n - 1) / 512) = n / 512
      rcases hcase with h | h
      · subst h
        rw [if_pos rfl]
      · rw [if_neg (by omega)]
        omega
    rw [hcur]
    rw [show (midPage st rows C cap n).datablocks = midBlocks st.schema cap n from rfl]
    rw [midBlocks_get?, hck]
    simp only [Option.map_some', Option.bind_eq_bind, Option.some_bind]
    rw [show (midPage st rows C cap n).struct = st from rfl]
    rw [newHandle_midBlock_active hnf]
    dsimp only
    rw [if_neg (show ¬ n - 512 * (n / 512) = InvalidHandle from by
      rw [show n - 512 * (n / 512) = n % 512 by omega]
      exact mod512_ne_invalid n)]
    unfold FAffinityTablePage.MakeHandle
    rw [if_pos ⟨by rw [List.length_set]; exact hklen, by
      rw [show n - 512 * (n / 512) = n % 512 by omega]
      exact mod512_ne_invalid n⟩]
    simp only [Option.bind_eq_bind, Option.some_bind]
    rw [Option.some.injEq, Prod.mk.injEq]
    constructor
    · rw [FAffinityTablePage.mk.injEq]
      refine ⟨rfl, rfl, midBlocks_set_issue hn hck, rfl, rfl, rfl, ?_⟩
      show n / 512 = if n + 1 = 0 then 0 else (n + 1 - 1) / MaxDatablockCapacity
      rw [if_neg (by omega : ¬ n + 1 = 0), max512]
      omega
    · show n / 512 * 2 ^ 32 + (n - 512 * (n / 512)) = slotHandle n
      unfold slotHandle
      rw [max512]
      omega
  · -- the current datablock is the previous, full block: fall through to the scan
    have hn0 : n ≠ 0 := by tauto
    have hm0 : n % 512 = 0 := by tauto
    have hk1 : 1 ≤ n / 512 := by omega
    have hcur : (midPage st rows C cap n).currentDatablock = n / 512 - 1 := by
      show (if n = 0 then 0 else (n - 1) / 512) = n / 512 - 1
      rw [if_neg hn0]
      omega
    have hprev : (blockCaps cap).get? (n / 512 - 1) = some 512 := by
      apply blockCaps_get?_full
      have : n / 512 ≤ cap / 512 := Nat.div_le_div_right (le_of_lt hn)
      omega
    have hget : (midPage st rows C cap n).datablocks.get?
          ((midPage st rows C cap n).currentDatablock)
        = some (midBlock st.schema 512 (512 * (n / 512 - 1)) n) := by
      rw [hcur]
      rw [show (midPage st rows C cap n).datablocks = midBlocks st.schema cap n from rfl]
      rw [midBlocks_get?, hprev]
      rfl
    rw [hget]
    simp only [Option.bind_eq_bind, Option.some_bind]
    rw [show (midPage st rows C cap n).struct = st from rfl]
    rw [newHandle_midBlock_full (show (512 : Nat) ≤ n - 512 * (n / 512 - 1) from by omega)]
    dsimp only
    rw [if_pos rfl]
    rw [list_set_same _ _ _ hget]
    have hscan := scanBlocks_mid st rows C cap n hn hb (n / 512) 0 (by omega)
    rw [midPage_bump] at hscan
    exact hscan

theorem newHandle_mid (st : UScriptStructRef) (rows : List (Option (List Nat)))
    (C cap n : Nat) (hn : n < cap) (hb : n / 512 < 2 ^ 32) :
    (midPage st rows C cap n).NewHandle
      = some (midPage st rows C cap (n + 1), slotHandle n) := by
  unfold FAffinityTablePage.NewHandle
  rw [findAvailable_mid st rows C cap n hn hb]
  simp only [Option.bind_eq_bind, Option.some_bind]
  rw [if_neg (show ¬ (slotHandle n = InvalidDataHandle ∧
      ¬ (midPage st rows C cap (n + 1)).fixedMode = true) from by
    intro hcon
    exact slotHandle_ne_invalidData n hcon.1)]
  rw [if_neg (slotHandle_ne_invalid32 n)]

theorem div_bound_of_lt {m cap : Nat} (hm : m < cap) (hcap : cap ≤ 2 ^ 41) :
    m / 512 < 2 ^ 32 := by
  have h1 : (2 : Nat) ^ 41 = 512 * 2 ^ 32 := by norm_num
  omega

theorem appendCount_mid : ∀ (cnt : Nat) (st : UScriptStructRef)
    (rows : List (Option (List Nat))) (C cap n : Nat) (row : List Nat),
    n + cnt ≤ cap → cap ≤ 2 ^ 41 →
    (midPage st rows C cap n).AppendCount row cnt
      = some (midPage st rows C cap (n + cnt), row ++ (List.range' n cnt).map slotHandle) := by
  intro cnt
  induction cnt with
  | zero =>
    intro st rows C cap n row h hcap
    unfold FAffinityTablePage.AppendCount
    simp
  | succ k ih =>
    intro st rows C cap n row h hcap
    unfold FAffinityTablePage.AppendCount
    rw [newHandle_mid st rows C cap n (by omega) (div_bound_of_lt (by omega) hcap)]
    simp only [Option.bind_eq_bind, Option.some_bind]
    rw [ih st rows C cap (n + 1) (row ++ [slotHandle n]) (by omega) hcap]
    rw [Option.some.injEq, Prod.mk.injEq]
    constructor
    · rw [show n + 1 + k = n + (k + 1) by omega]
    · have hr : (List.range' n (k + 1)).map slotHandle
          = [slotHandle n] ++ (List.range' (n + 1) k).map slotHandle := by
        rw [List.range'_succ]
        rfl
      rw [hr, List.append_assoc]

theorem addRow_mid (st : UScriptStructRef) (rows : List (Option (List Nat)))
    (C cap n : Nat) (hC : 0 < C) (h : n + C ≤ cap) (hcap : cap ≤ 2 ^ 41) :
    (midPage st rows C cap n).AddRow
      = some (midPage st (rows ++ [some ((List.range' n C).map slotHandle)]) C cap (n + C)) := by
  unfold FAffinityTablePage.AddRow FAffinityTablePage.AppendHandles
  rw [if_pos (⟨rfl, rfl⟩ : 0 = 0 ∧ (midPage st rows C cap n).deletedColumns = [])]
  rw [show (midPage st rows C cap n).columns = C from rfl]
  rw [if_pos (show C ≠ 0 by omega)]
  rw [appendCount_mid C st rows C cap n [] h hcap]
  simp only [Option.bind_eq_bind, Option.some_bind]
  rfl

theorem addRows_mid : ∀ (r i : Nat) (st : UScriptStructRef) (C cap : Nat),
    0 < C → (i + r) * C ≤ cap → cap ≤ 2 ^ 41 →
    (midPage st ((List.range i).map (fun ii => some (canonRow C ii))) C cap (i * C)).AddRows r
      = some (midPage st ((List.range (i + r)).map (fun ii => some (canonRow C ii))) C cap
          ((i + r) * C)) := by
  intro r
  induction r with
  | zero =>
    intro i st C cap hC h hcap
    unfold FAffinityTablePage.AddRows
    rw [Nat.add_zero]
  | succ k ih =>
    intro i st C cap hC h hcap
    unfold FAffinityTablePage.AddRows
    have hstep : i * C + C ≤ cap := by
      have h1 : (i + 1) * C ≤ (i + (k + 1)) * C := Nat.mul_le_mul_right C (by omega)
      have h2 : (i + 1) * C = i * C + C := by ring
      omega
    rw [addRow_mid st ((List.range i).map (fun ii => some (canonRow C ii))) C cap (i * C)
      hC hstep hcap]
    simp only [Option.bind_eq_bind, Option.some_bind]
    have hsing : (List.range' (i * C) C).map slotHandle = canonRow C i := by
      unfold canonRow
      rw [List.range'_eq_map_range, List.map_map]
      rfl
    have hrow : (List.range i).map (fun ii => some (canonRow C ii))
          ++ [some ((List.range' (i * C) C).map slotHandle)]
        = (List.range (i + 1)).map (fun ii => some (canonRow C ii)) := by
      rw [hsing, List.range_succ, List.map_append]
      rfl
    rw [hrow]
    rw [show i * C + C = (i + 1) * C by ring]
    have hk := ih (i + 1) st C cap hC (by rw [show i + 1 + k = i + (k + 1) by omega]; exact h) hcap
    rw [hk, show i + 1 + k = i + (k + 1) by omega]

theorem new_block_eq (s : Schema) (c : Nat) (hc : c ≤ 512) :
    FStructDatablock.new s c true
      = ⟨c, some (List.replicate c s.defaultVal), 0, [], s.size⟩ := by
  unfold FStructDatablock.new
  by_cases h : c < MaxDatablockCapacity
  · rw [if_pos h]
    rfl
  · have hce : c = 512 := by
      rw [max512] at h
      omega
    subst hce
    rw [if_neg h]
    rfl

theorem midBlock_zero (s : Schema) (c base : Nat) :
    midBlock s c base 0 = ⟨c, some (List.replicate c s.defaultVal), 0, [], s.size⟩ := by
  unfold midBlock
  rw [Nat.zero_sub, Nat.min_zero]

theorem alloc_blocks_eq (s : Schema) (cap : Nat) :
    List.replicate (cap / MaxDatablockCapacity) (FStructDatablock.new s MaxDatablockCapacity true)
        ++ (if cap % MaxDatablockCapacity ≠ 0 then
              [FStructDatablock.new s (cap % MaxDatablockCapacity) true]
            else [])
      = midBlocks s cap 0 := by
  apply List.ext_get?
  intro k
  rw [midBlocks_get?, max512]
  by_cases hk : k < cap / 512
  · rw [blockCaps_get?_full hk]
    simp only [Option.map_some']
    rw [List.get?_eq_getElem?, List.getElem?_append_left (by
      rw [List.length_replicate]
      exact hk)]
    rw [List.getElem?_replicate, if_pos hk]
    rw [midBlock_zero, new_block_eq s 512 (by omega)]
  · rw [List.get?_eq_getElem?, List.getElem?_append_right (by
      rw [List.length_replicate]
      omega)]
    rw [List.length_replicate]
    by_cases hr : cap % 512 ≠ 0
    · rw [if_pos hr]
      by_cases hke : k = cap / 512
      · subst hke
        rw [blockCaps_get?_rem hr]
        simp only [Option.map_some']
        rw [Nat.sub_self]
        rw [show ([FStructDatablock.new s (cap % 512) true][0]? : Option FStructDatablock)
            = some (FStructDatablock.new s (cap % 512) true) from rfl]
        rw [midBlock_zero, new_block_eq s (cap % 512)
          (le_of_lt (Nat.mod_lt _ (by omega)))]
      · rw [blockCaps_get?_none (by rw [if_pos hr]; omega)]
        rw [List.getElem?_eq_none (by
          rw [List.length_singleton]
          omega)]
        rfl
    · rw [if_neg hr]
      rw [blockCaps_get?_none (by rw [if_neg hr]; omega)]
      rw [List.getElem?_eq_none (by
        rw [List.length_nil]
        omega)]
      rfl

theorem page_new_canon (st : UScriptStructRef) (R C : Nat) (hR : 0 < R) (hC : 0 < C)
    (hcap : R * C ≤ 2 ^ 41) :
    FAffinityTablePage.new st R C false
      = some (midPage st ((List.range R).map (fun i => some (canonRow C i))) C (R * C)
          (R * C)) := by
  have hRC : R * C ≠ 0 := Nat.mul_ne_zero (by omega) (by omega)
  unfold FAffinityTablePage.new
  dsimp only
  rw [if_pos hRC]
  unfold FAffinityTablePage.AllocateBlocks
  rw [if_neg (by omega : ¬ R * C = 0)]
  simp only [Option.bind_eq_bind, Option.some_bind]
  rw [List.nil_append, alloc_blocks_eq st.schema (R * C)]
  have h0 := addRows_mid R 0 st C (R * C) hC
    (by rw [Nat.zero_add] : (0 + R) * C ≤ R * C) hcap
  rw [Nat.zero_add] at h0
  rw [Nat.zero_mul] at h0
  rw [show ((List.range 0).map (fun ii => some (canonRow C ii))
      : List (Option (List Nat))) = [] from rfl] at h0
  have hmk : FAffinityTablePage.mk st [] (midBlocks st.schema (R * C) 0) [] C false
        ([] : List FStructDatablock).length
      = midPage st [] C (R * C) 0 := by
    unfold midPage
    rw [FAffinityTablePage.mk.injEq]
    refine ⟨rfl, rfl, rfl, rfl, rfl, rfl, ?_⟩
    rw [if_pos rfl]
    rfl
  rw [hmk]
  exact h0

theorem midPage_full_canon (st : UScriptStructRef) (R C : Nat) :
    midPage st ((List.range R).map (fun i => some (canonRow C i))) C (R * C) (R * C)
      = canonPage st R C (fun _ => st.schema.defaultVal) := by
  unfold midPage canonPage
  rw [FAffinityTablePage.mk.injEq]
  refine ⟨rfl, rfl, ?_, rfl, rfl, rfl, rfl⟩
  apply List.ext_get?
  intro k
  rw [midBlocks_get?, canonBlocks_get?]
  cases hck : (blockCaps (R * C)).get? k with
  | none => rfl
  | some c =>
    simp only [Option.map_some']
    obtain ⟨hcpos, hbound⟩ := blockCaps_get?_bounds hck
    rw [Option.some.injEq]
    unfold midBlock canonBlock
    rw [FStructDatablock.mk.injEq]
    refine ⟨rfl, ?_, ?_, rfl, rfl⟩
    · rw [Option.some.injEq]
      dsimp only
      rw [List.map_const', List.length_range]
    · rw [Nat.min_eq_left (by omega)]

theorem loadRow_canon : ∀ (cs : List (GameplayTag × Nat)) (j k : Nat)
    (st : UScriptStructRef) (R C i : Nat) (f : Nat → Nat) (toks : List Nat) (t : GameplayTag),
    cs.map Prod.snd = List.range' j k → j + k ≤ C → i < R → k ≤ toks.length →
    R * C ≤ 2 ^ 41 →
    UAffinityTable.LoadPageRow (canonPage st R C f) toks (t, i) cs
      = some (canonPage st R C (writeSeq f (i * C + j) (toks.take k)), toks.drop k) := by
  intro cs
  induction cs with
  | nil =>
    intro j k st R C i f toks t hsnd hjk hi hlen hcap
    have hk : k = 0 := by
      have h0 := congrArg List.length hsnd
      rw [List.length_map, List.length_range'] at h0
      simpa using h0.symm
    subst hk
    rfl
  | cons c rest ih =>
    intro j k st R C i f toks t hsnd hjk hi hlen hcap
    obtain ⟨u, j0⟩ := c
    cases k with
    | zero =>
      rw [show List.range' j 0 = ([] : List Nat) from rfl] at hsnd
      exact absurd hsnd (by simp)
    | succ kk =>
      rw [List.range'_succ] at hsnd
      rw [show ((u, j0) :: rest).map Prod.snd = j0 :: rest.map Prod.snd from rfl,
        List.cons.injEq] at hsnd
      obtain ⟨hj0, hrest⟩ := hsnd
      subst hj0
      cases toks with
      | nil => simp at hlen
      | cons v vrest =>
        unfold UAffinityTable.LoadPageRow
        rw [canonPage_getDatablockPtr st f hi (by omega : j0 < C)
          (div_bound_of_lt (cell_slot_lt hi (by omega)) hcap)]
        simp only [Option.bind_eq_bind, Option.some_bind]
        rw [canonPage_writeCell st f hi (by omega : j0 < C)
          (div_bound_of_lt (cell_slot_lt hi (by omega)) hcap)]
        simp only [Option.some_bind]
        have hrec := ih (j0 + 1) kk st R C i (updSlot f (i * C + j0) v) vrest t hrest
          (by omega) hi (by simp only [List.length_cons] at hlen; omega) hcap
        exact hrec

theorem loadCells_canon : ∀ (rs : List (GameplayTag × Nat)) (ir r : Nat)
    (st : UScriptStructRef) (R C : Nat) (cols : List (GameplayTag × Nat))
    (toks : List Nat) (f : Nat → Nat),
    rs.map Prod.snd = List.range' ir r → ir + r ≤ R →
    cols.map Prod.snd = List.range' 0 C → r * C ≤ toks.length → R * C ≤ 2 ^ 41 →
    UAffinityTable.LoadPageCells (canonPage st R C f) toks cols rs
      = some (canonPage st R C (writeSeq f (ir * C) (toks.take (r * C))),
          toks.drop (r * C)) := by
  intro rs
  induction rs with
  | nil =>
    intro ir r st R C cols toks f hsnd hir hcols hlen hcap
    have hr : r = 0 := by
      have h0 := congrArg List.length hsnd
      rw [List.length_map, List.length_range'] at h0
      simpa using h0.symm
    subst hr
    rw [Nat.zero_mul]
    rfl
  | cons rc rrest ih =>
    intro ir r st R C cols toks f hsnd hir hcols hlen hcap
    obtain ⟨t, i0⟩ := rc
    cases r with
    | zero =>
      rw [show List.range' ir 0 = ([] : List Nat) from rfl] at hsnd
      exact absurd hsnd (by simp)
    | succ rr =>
      rw [List.range'_succ] at hsnd
      rw [show ((t, i0) :: rrest).map Prod.snd = i0 :: rrest.map Prod.snd from rfl,
        List.cons.injEq] at hsnd
      obtain ⟨hi0, hrest⟩ := hsnd
      subst hi0
      have hmul : (rr + 1) * C = rr * C + C := by ring
      have hCle : C ≤ toks.length := by omega
      unfold UAffinityTable.LoadPageCells
      rw [loadRow_canon cols 0 C st R C i0 f toks t hcols (by omega) (by omega) hCle hcap]
      simp only [Option.bind_eq_bind, Option.some_bind]
      have hrec := ih (i0 + 1) rr st R C cols (toks.drop C)
        (writeSeq f (i0 * C) (toks.take C)) hrest (by omega) hcols
        (by rw [List.length_drop]; omega) hcap
      rw [Nat.add_zero]
      rw [hrec]
      have htake : toks.take ((rr + 1) * C) = toks.take C ++ (toks.drop C).take (rr * C) := by
        rw [show (rr + 1) * C = C + rr * C by ring, List.take_add]
      have hdrop : toks.drop ((rr + 1) * C) = (toks.drop C).drop (rr * C) := by
        rw [List.drop_drop, show C + rr * C = (rr + 1) * C by ring]
      have hws : writeSeq f (i0 * C) (toks.take ((rr + 1) * C))
          = writeSeq (writeSeq f (i0 * C) (toks.take C)) ((i0 + 1) * C)
              ((toks.drop C).take (rr * C)) := by
        rw [htake, writeSeq_append, List.length_take_of_le hCle,
          show i0 * C + C = (i0 + 1) * C by ring]
      rw [Option.some.injEq, Prod.mk.injEq]
      exact ⟨by rw [hws], by rw [hdrop]⟩

theorem saveRow_vals : ∀ (cs : List (GameplayTag × Nat)) (j k : Nat)
    (p : FAffinityTablePage) (C i : Nat) (t : GameplayTag),
    cs.map Prod.snd = List.range' j k → j + k ≤ C →
    (∀ jj, jj < C → ∃ v, p.GetDatablockPtr i jj = some (some v)) →
    UAffinityTable.SavePageRow p (t, i) cs
      = some ((List.range' j k).map (cellVal p i)) := by
  intro cs
  induction cs with
  | nil =>
    intro j k p C i t hsnd hjk hcell
    have hk : k = 0 := by
      have h0 := congrArg List.length hsnd
      rw [List.length_map, List.length_range'] at h0
      simpa using h0.symm
    subst hk
    rfl
  | cons c rest ih =>
    intro j k p C i t hsnd hjk hcell
    obtain ⟨u, j0⟩ := c
    cases k with
    | zero =>
      rw [show List.range' j 0 = ([] : List Nat) from rfl] at hsnd
      exact absurd hsnd (by simp)
    | succ kk =>
      rw [List.range'_succ] at hsnd
      rw [show ((u, j0) :: rest).map Prod.snd = j0 :: rest.map Prod.snd from rfl,
        List.cons.injEq] at hsnd
      obtain ⟨hj0, hrest⟩ := hsnd
      subst hj0
      obtain ⟨v, hv⟩ := hcell j0 (by omega)
      have hcv : cellVal p i j0 = v := by
        unfold cellVal
        rw [hv]
      unfold UAffinityTable.SavePageRow
      rw [hv]
      simp only [Option.bind_eq_bind, Option.some_bind]
      rw [ih (j0 + 1) kk p C i t hrest (by omega) hcell]
      simp only [Option.some_bind]
      rw [List.range'_succ]
      rw [show (j0 :: List.range' (j0 + 1) kk).map (cellVal p i)
        = cellVal p i j0 :: (List.range' (j0 + 1) kk).map (cellVal p i) from rfl]
      rw [hcv]

theorem saveCells_vals : ∀ (rs : List (GameplayTag × Nat)) (ir r : Nat)
    (p : FAffinityTablePage) (R C : Nat) (cols : List (GameplayTag × Nat)),
    rs.map Prod.snd = List.range' ir r → ir + r ≤ R →
    cols.map Prod.snd = List.range' 0 C →
    (∀ ii jj, ii < R → jj < C → ∃ v, p.GetDatablockPtr ii jj = some (some v)) →
    UAffinityTable.SavePageCells p cols rs = some (streamTokens p C ir r) := by
  intro rs
  induction rs with
  | nil =>
    intro ir r p R C cols hsnd hir hcols hcell
    have hr : r = 0 := by
      have h0 := congrArg List.length hsnd
      rw [List.length_map, List.length_range'] at h0
      simpa using h0.symm
    subst hr
    rfl
  | cons rc rrest ih =>
    intro ir r p R C cols hsnd hir hcols hcell
    obtain ⟨t, i0⟩ := rc
    cases r with
    | zero =>
      rw [show List.range' ir 0 = ([] : List Nat) from rfl] at hsnd
      exact absurd hsnd (by simp)
    | succ rr =>
      rw [List.range'_succ] at hsnd
      rw [show ((t, i0) :: rrest).map Prod.snd = i0 :: rrest.map Prod.snd from rfl,
        List.cons.injEq] at hsnd
      obtain ⟨hi0, hrest⟩ := hsnd
      subst hi0
      unfold UAffinityTable.SavePageCells
      rw [saveRow_vals cols 0 C p C i0 t hcols (by omega)
        (fun jj hjj => hcell i0 jj (by omega) hjj)]
      simp only [Option.bind_eq_bind, Option.some_bind]
      rw [ih (i0 + 1) rr p R C cols hrest (by omega) hcols hcell]
      simp only [Option.some_bind]
      rw [Option.some.injEq]
      unfold streamTokens
      rw [List.range'_succ]
      rw [show ((i0 :: List.range' (i0 + 1) rr).map
          (fun ii => (List.range C).map (fun j => cellVal p ii j)))
        = ((List.range C).map (fun j => cellVal p i0 j)
            :: (List.range' (i0 + 1) rr).map (fun ii => (List.range C).map
                (fun j => cellVal p ii j))) from rfl]
      rw [List.flatten_cons]
      rw [show (List.range' 0 C).map (cellVal p i0)
        = (List.range C).map (fun j => cellVal p i0 j) from by
          rw [List.range_eq_range']]

theorem streamTokens_length : ∀ (r ir : Nat) (p : FAffinityTablePage) (C : Nat),
    (streamTokens p C ir r).length = r * C := by
  intro r
  induction r with
  | zero =>
    intro ir p C
    rw [Nat.zero_mul]
    rfl
  | succ rr ih =>
    intro ir p C
    unfold streamTokens
    rw [List.range'_succ]
    rw [show ((ir :: List.range' (ir + 1) rr).map
        (fun ii => (List.range C).map (fun j => cellVal p ii j)))
      = ((List.range C).map (fun j => cellVal p ir j)
          :: (List.range' (ir + 1) rr).map (fun ii => (List.range C).map
              (fun j => cellVal p ii j))) from rfl]
    rw [List.flatten_cons, List.length_append, List.length_map, List.length_range]
    have h0 := ih (ir + 1) p C
    unfold streamTokens at h0
    rw [h0]
    ring

theorem streamTokens_get? : ∀ (r ir ii j : Nat) (p : FAffinityTablePage) (C : Nat),
    ir ≤ ii → ii < ir + r → j < C →
    (streamTokens p C ir r).get? ((ii - ir) * C + j) = some (cellVal p ii j) := by
  intro r
  induction r with
  | zero =>
    intro ir ii j p C h1 h2 h3
    omega
  | succ rr ih =>
    intro ir ii j p C h1 h2 h3
    have hexp : streamTokens p C ir (rr + 1)
        = (List.range C).map (fun jj => cellVal p ir jj)
            ++ streamTokens p C (ir + 1) rr := by
      unfold streamTokens
      rw [List.range'_succ]
      rfl
    rw [hexp]
    by_cases hii : ii = ir
    · subst hii
      rw [Nat.sub_self, Nat.zero_mul, Nat.zero_add]
      rw [List.get?_eq_getElem?,
        List.getElem?_append_left (by rw [List.length_map, List.length_range]; exact h3),
        List.getElem?_map, List.getElem?_range h3]
      rfl
    · have h4 : ir + 1 ≤ ii := by omega
      have h5 : C ≤ (ii - ir) * C := Nat.le_mul_of_pos_left C (by omega)
      rw [List.get?_eq_getElem?,
        List.getElem?_append_right (by rw [List.length_map, List.length_range]; omega)]
      rw [List.length_map, List.length_range]
      have h6 : (ii - ir) * C + j - C = (ii - (ir + 1)) * C + j := by
        have h7 : (ii - ir) * C = (ii - (ir + 1)) * C + C := by
          rw [show ii - ir = (ii - (ir + 1)) + 1 by omega, Nat.succ_mul]
        omega
      rw [h6, ← List.get?_eq_getElem?]
      exact ih (ir + 1) ii j p C h4 (by omega) h3

namespace TagMap

theorem contains_eq_false {m : TagMap} {u : GameplayTag} (h : m.find? u = none) :
    Contains m u = false := by
  unfold Contains
  rw [h]
  rfl

theorem find?_perm : ∀ {m1 m2 : TagMap}, List.Perm m1 m2 →
    (m1.map Prod.fst).Nodup → ∀ u, find? m1 u = find? m2 u := by
  intro m1 m2 hp
  induction hp with
  | nil => intro _ u; rfl
  | cons p hp ih =>
    intro hnd u
    rw [find?_cons, find?_cons]
    by_cases hpu : p.1 = u
    · rw [if_pos hpu, if_pos hpu]
    · rw [if_neg hpu, if_neg hpu]
      exact ih (by
        rw [List.map_cons, List.nodup_cons] at hnd
        exact hnd.2) u
  | swap x y l =>
    intro hnd u
    rw [List.map_cons, List.map_cons, List.nodup_cons, List.nodup_cons] at hnd
    have hyx : y.1 ≠ x.1 := by
      intro he
      exact hnd.1 (by rw [he]; exact List.mem_cons_self _ _)
    rw [find?_cons, find?_cons, find?_cons, find?_cons]
    by_cases hy : y.1 = u
    · rw [if_pos hy, if_neg (by rw [← hy]; exact fun he => hyx he.symm), if_pos hy]
    · by_cases hx : x.1 = u
      · rw [if_neg hy, if_pos hx, if_pos hx]
      · rw [if_neg hy, if_neg hx, if_neg hx, if_neg hy]
  | trans h1 h2 ih1 ih2 =>
    intro hnd u
    rw [ih1 hnd u, ih2 (((h1.map Prod.fst).nodup_iff).mp hnd) u]

end TagMap

theorem zip_fst_snd_range' : ∀ (m : TagMap) (n : Nat),
    m.map Prod.snd = List.range' n m.length →
    (m.map Prod.fst).zip (List.range' n m.length) = m := by
  intro m
  induction m with
  | nil => intro n _; rfl
  | cons p rest ih =>
    intro n h
    obtain ⟨pt, pi⟩ := p
    rw [show ((pt, pi) :: rest).length = rest.length + 1 from rfl] at h ⊢
    rw [List.range'_succ] at h ⊢
    rw [show ((pt, pi) :: rest).map Prod.snd = pi :: rest.map Prod.snd from rfl,
      List.cons.injEq] at h
    obtain ⟨hpi, hrest⟩ := h
    rw [show ((pt, pi) :: rest).map Prod.fst = pt :: rest.map Prod.fst from rfl]
    rw [show (pt :: rest.map Prod.fst).zip (n :: List.range' (n + 1) rest.length)
      = (pt, n) :: (rest.map Prod.fst).zip (List.range' (n + 1) rest.length) from rfl]
    rw [ih (n + 1) hrest, ← hpi]

theorem sorted_dense_snd (m : TagMap)
    (hperm : (m.map Prod.snd).Perm (List.range m.length)) :
    (List.insertionSort (fun a b => a.2 ≤ b.2) m).map Prod.snd
      = List.range m.length := by
  have hp : (List.insertionSort (fun a b => a.2 ≤ b.2) m).Perm m :=
    List.perm_insertionSort _ m
  have hs : List.Sorted (fun a b : GameplayTag × Nat => a.2 ≤ b.2)
      (List.insertionSort (fun a b => a.2 ≤ b.2) m) :=
    List.sorted_insertionSort _ m
  have hsnd : List.Sorted (· ≤ ·)
      ((List.insertionSort (fun a b => a.2 ≤ b.2) m).map Prod.snd) :=
    List.pairwise_map.mpr hs
  have hperm2 : ((List.insertionSort (fun a b => a.2 ≤ b.2) m).map Prod.snd).Perm
      (List.range m.length) := (hp.map Prod.snd).trans hperm
  have hr : List.Sorted (· ≤ ·) (List.range m.length) := List.pairwise_le_range m.length
  exact List.eq_of_perm_of_sorted hperm2 hsnd hr

theorem genMaps_clean : ∀ (tags : List GameplayTag) (m : TagMap) (n : Nat),
    (∀ t ∈ tags, TagMap.Contains m t = false) → tags.Nodup →
    UAffinityTable.GenMaps tags m n
      = (m ++ tags.zip (List.range' n tags.length), n + tags.length, false) := by
  intro tags
  induction tags with
  | nil =>
    intro m n _ _
    unfold UAffinityTable.GenMaps
    rw [Prod.mk.injEq]
    refine ⟨by simp, rfl⟩
  | cons t rest ih =>
    intro m n hfree hnd
    unfold UAffinityTable.GenMaps
    rw [hfree t (List.mem_cons_self _ _)]
    rw [if_neg (by exact Bool.false_ne_true)]
    rw [List.nodup_cons] at hnd
    have hfree' : ∀ u ∈ rest, TagMap.Contains (m ++ [(t, n)]) u = false := by
      intro u hu
      apply TagMap.contains_eq_false
      rw [TagMap.find?_append_right _ (TagMap.not_contains_find? (hfree u (List.mem_cons_of_mem _ hu)))]
      rw [TagMap.find?_cons]
      rw [if_neg (by
        intro he
        apply hnd.1
        show t ∈ rest
        have he' : t = u := he
        rw [he']
        exact hu)]
      rfl
    rw [ih (m ++ [(t, n)]) (n + 1) hfree' hnd.2]
    rw [show ((t :: rest) : List GameplayTag).length = rest.length + 1 from rfl,
      List.range'_succ]
    rw [Prod.mk.injEq]
    constructor
    · rw [List.append_assoc]
      rfl
    · rw [Prod.mk.injEq]
      refine ⟨by omega, rfl⟩

theorem find?_name_nodup : ∀ (sts : List UScriptStructRef) (st : UScriptStructRef),
    st ∈ sts → (sts.map (fun s => s.name)).Nodup →
    sts.find? (fun s => decide (s.name = st.name)) = some st := by
  intro sts
  induction sts with
  | nil => intro st h _; simp at h
  | cons s0 rest ih =>
    intro st hmem hnd
    rw [List.map_cons, List.nodup_cons] at hnd
    by_cases h : s0.name = st.name
    · rw [List.find?_cons_of_pos _ (by simpa using h)]
      rcases List.mem_cons.mp hmem with he | hr
      · rw [he]
      · exact absurd (h ▸ List.mem_map_of_mem (fun s => s.name) hr) hnd.1
    · rw [List.find?_cons_of_neg _ (by simpa using h)]
      rcases List.mem_cons.mp hmem with he | hr
      · exact absurd (congrArg (fun s => s.name) he.symm) h
      · exact ih st hr hnd.2

theorem find?_loadedPage (L : UScriptStructRef → FAffinityTablePage)
    (hL : ∀ s, (L s).struct = s) :
    ∀ (ss : List UScriptStructRef) (st : UScriptStructRef),
    st ∈ ss → (ss.map (fun s => s.name)).Nodup →
    (ss.map L).find? (fun pg => decide (pg.struct = st)) = some (L st) := by
  intro ss
  induction ss with
  | nil => intro st h _; simp at h
  | cons s0 rest ih =>
    intro st hmem hnd
    rw [List.map_cons, List.nodup_cons] at hnd
    rw [List.map_cons]
    by_cases h : s0 = st
    · subst h
      rw [List.find?_cons_of_pos _ (by rw [hL]; simp)]
    · rw [List.find?_cons_of_neg _ (by rw [hL]; simpa using h)]
      rcases List.mem_cons.mp hmem with he | hr
      · exact absurd he.symm h
      · exact ih st hr hnd.2

theorem mapM_some {α β : Type} (F : α → Option β) (G : α → β) :
    ∀ (l : List α), (∀ a ∈ l, F a = some (G a)) → l.mapM F = some (l.map G) := by
  intro l
  induction l with
  | nil => intro _; rfl
  | cons a rest ih =>
    intro h
    rw [List.mapM_cons, h a (List.mem_cons_self _ _),
      ih (fun b hb => h b (List.mem_cons_of_mem _ hb))]
    rfl

theorem list_find?_append_none {α : Type} {p : α → Bool} {l1 : List α} (l2 : List α)
    (h : l1.find? p = none) : (l1 ++ l2).find? p = l2.find? p := by
  induction l1 with
  | nil => rfl
  | cons a rest ih =>
    by_cases ha : p a = true
    · rw [List.find?_cons_of_pos _ ha] at h
      exact Option.noConfusion h
    · rw [List.find?_cons_of_neg _ (by simpa using ha)] at h
      rw [List.cons_append, List.find?_cons_of_neg _ (by simpa using ha)]
      exact ih h

theorem imapAddAll_disjoint : ∀ (links : List (String × CellTags)) (m : InheritanceMap),
    (∀ q ∈ links, m.find? (fun q' => decide (q'.1 = q.1)) = none) →
    (links.map Prod.fst).Nodup →
    UAffinityTable.imapAddAll m links = m ++ links := by
  intro links
  induction links with
  | nil =>
    intro m _ _
    rw [List.append_nil]
    rfl
  | cons e rest ih =>
    intro m hfree hnd
    obtain ⟨k, v⟩ := e
    rw [List.map_cons, List.nodup_cons] at hnd
    unfold UAffinityTable.imapAddAll UAffinityTable.imapAdd
    rw [if_neg (by
      rw [hfree (k, v) (List.mem_cons_self _ _)]
      simp)]
    have hfree' : ∀ q ∈ rest, (m ++ [(k, v)]).find? (fun q' => decide (q'.1 = q.1)) = none := by
      intro q hq
      rw [list_find?_append_none _ (hfree q (List.mem_cons_of_mem _ hq))]
      rw [List.find?_cons_of_neg _ (by
        simp only [decide_eq_true_eq]
        intro he
        exact hnd.1 (by
          show k ∈ List.map Prod.fst rest
          rw [he]
          exact List.mem_map_of_mem Prod.fst hq))]
      rfl
    rw [ih (m ++ [(k, v)]) hfree' hnd.2]
    rw [List.append_assoc]
    rfl

theorem imapAddAll_nil_id (links : List (String × CellTags))
    (hnd : (links.map Prod.fst).Nodup) : UAffinityTable.imapAddAll [] links = links := by
  have h := imapAddAll_disjoint links [] (fun q _ => rfl) hnd
  rw [h]
  rfl

theorem loadInheritance_append : ∀ (entries : List (String × InheritanceMap))
    (T : UAffinityTable),
    (∀ e ∈ entries,
      T.inheritanceMaps.find? (fun q => decide (q.1 = e.1)) = none) →
    (entries.map Prod.fst).Nodup →
    UAffinityTable.LoadInheritance T entries
      = { T with inheritanceMaps := T.inheritanceMaps
            ++ entries.filterMap (fun e =>
                if e.2.length ≠ 0 then some (e.1, UAffinityTable.imapAddAll [] e.2) else none) } := by
  intro entries
  induction entries with
  | nil =>
    intro T _ _
    rw [List.filterMap_nil, List.append_nil]
    rfl
  | cons e rest ih =>
    intro T hfree hnd
    obtain ⟨name, links⟩ := e
    rw [List.map_cons, List.nodup_cons] at hnd
    unfold UAffinityTable.LoadInheritance
    by_cases hl : links.length ≠ 0
    · rw [if_pos hl]
      rw [if_neg (by
        rw [hfree (name, links) (List.mem_cons_self _ _)]
        simp)]
      have hfree' : ∀ q ∈ rest,
          (T.inheritanceMaps ++ [(name, UAffinityTable.imapAddAll [] links)]).find?
            (fun q' => decide (q'.1 = q.1)) = none := by
        intro q hq
        rw [list_find?_append_none _ (hfree q (List.mem_cons_of_mem _ hq))]
        rw [List.find?_cons_of_neg _ (by
          simp only [decide_eq_true_eq]
          intro he
          exact hnd.1 (by
            show name ∈ List.map Prod.fst rest
            rw [he]
            exact List.mem_map_of_mem Prod.fst hq))]
        rfl
      have hrec := ih { T with inheritanceMaps :=
          T.inheritanceMaps ++ [(name, UAffinityTable.imapAddAll [] links)] } hfree' hnd.2
      rw [hrec]
      rw [List.filterMap_cons_some
        (f := fun e => if e.2.length ≠ 0 then some (e.1, UAffinityTable.imapAddAll [] e.2) else none)
        (a := (name, links)) (l := rest)
        (b := (name, UAffinityTable.imapAddAll [] links)) (by simp [hl])]
      dsimp only
      rw [List.append_assoc]
      rfl
    · rw [if_neg hl]
      rw [ih T (fun q hq => hfree q (List.mem_cons_of_mem _ hq)) hnd.2]
      rw [List.filterMap_cons_none
        (f := fun e => if e.2.length ≠ 0 then some (e.1, UAffinityTable.imapAddAll [] e.2) else none)
        (a := (name, links)) (l := rest) (by simp [hl])]

theorem findOrphanWalk_false (tags : List GameplayTag)
    (hcl : ∀ u ∈ tags, u.RequestDirectParent.IsValid = true → u.RequestDirectParent ∈ tags) :
    ∀ (p : GameplayTag), (p ∈ tags ∨ p.IsValid = false) → ∀ tails,
      UAffinityTable.FindOrphanWalk tags tails p = false := by
  suffices H : ∀ (N : Nat) (p : GameplayTag), p.length ≤ N →
      (p ∈ tags ∨ p.IsValid = false) → ∀ tails,
      UAffinityTable.FindOrphanWalk tags tails p = false by
    intro p hp tails
    exact H p.length p (le_refl _) hp tails
  intro N
  induction N with
  | zero =>
    intro p hlen hp tails
    have hpnil : p = [] := List.eq_nil_of_length_eq_zero (by omega)
    subst hpnil
    rw [UAffinityTable.FindOrphanWalk]
    rfl
  | succ N ihN =>
    intro p hlen hp tails
    rw [UAffinityTable.FindOrphanWalk]
    by_cases hv : p.IsValid = true
    · rw [if_pos hv]
      rcases hp with hmem | hinv
      · by_cases ht : p ∈ tails
        · rw [if_pos ht]
        · rw [if_neg ht, if_pos hmem]
          apply ihN
          · have hpne : p ≠ [] := by
              intro he
              rw [he] at hv
              simp [GameplayTag.IsValid] at hv
            have h0 : p.length ≠ 0 := fun h0 => hpne (List.eq_nil_of_length_eq_zero h0)
            rw [show p.RequestDirectParent = p.dropLast from rfl, List.length_dropLast]
            omega
          · by_cases hpv : p.RequestDirectParent.IsValid = true
            · exact Or.inl (hcl p hmem hpv)
            · refine Or.inr ?_
              cases hb : p.RequestDirectParent.IsValid
              · rfl
              · exact absurd hb hpv
      · rw [hv] at hinv
        exact absurd hinv (by simp)
    · rw [if_neg hv]

theorem findOrphansGo_nil : ∀ (rest : List GameplayTag) (tags tails : List GameplayTag),
    (∀ u ∈ tags, u.RequestDirectParent.IsValid = true → u.RequestDirectParent ∈ tags) →
    (∀ t ∈ rest, t ∈ tags) →
    UAffinityTable.FindOrphansGo tags rest tails [] = [] := by
  intro rest
  induction rest with
  | nil => intro tags tails _ _; rfl
  | cons t rest' ih =>
    intro tags tails hcl hsub
    unfold UAffinityTable.FindOrphansGo
    have ht : t ∈ tags := hsub t (List.mem_cons_self _ _)
    have hwalk : UAffinityTable.FindOrphanWalk tags tails t.RequestDirectParent = false := by
      apply findOrphanWalk_false tags hcl
      by_cases hpv : t.RequestDirectParent.IsValid = true
      · exact Or.inl (hcl t ht hpv)
      · refine Or.inr ?_
        cases hb : t.RequestDirectParent.IsValid
        · rfl
        · exact absurd hb hpv
    rw [hwalk]
    rw [if_neg Bool.false_ne_true]
    exact ih tags (tails ++ [t]) hcl (fun u hu => hsub u (List.mem_cons_of_mem _ hu))

theorem findOrphans_nil (tags : List GameplayTag)
    (hcl : ∀ u ∈ tags, u.RequestDirectParent.IsValid = true → u.RequestDirectParent ∈ tags) :
    UAffinityTable.FindOrphans tags = [] :=
  findOrphansGo_nil tags tags [] hcl (fun _ h => h)

theorem ensure_no_orphans (T : UAffinityTable)
    (hr : ∀ u ∈ T.rowTags, u.RequestDirectParent.IsValid = true →
      u.RequestDirectParent ∈ T.rowTags)
    (hc : ∀ u ∈ T.columnTags, u.RequestDirectParent.IsValid = true →
      u.RequestDirectParent ∈ T.columnTags) :
    UAffinityTable.EnsureTagHierarchy T = some T := by
  unfold UAffinityTable.EnsureTagHierarchy
  rw [findOrphans_nil _ hr]
  simp only [UAffinityTable.DeleteRowsList, Option.bind_eq_bind, Option.some_bind]
  rw [findOrphans_nil _ hc]
  simp only [UAffinityTable.DeleteColumnsList, Option.some_bind]
  rw [Option.some.injEq]
  rw [show (decide (0 < List.length ([] : List GameplayTag))) = false from rfl]
  rw [Bool.or_false, Bool.or_false]

theorem loadPages_canon (R C : Nat) (sz : UScriptStructRef → Nat)
    (tk : UScriptStructRef → List Nat) :
    ∀ (ss : List UScriptStructRef) (T : UAffinityTable),
    (∀ s ∈ ss, s ∈ T.structures) →
    (T.structures.map (fun s => s.name)).Nodup →
    T.bFixedModeActive = false →
    T.rows.map Prod.snd = List.range' 0 R →
    T.columns.map Prod.snd = List.range' 0 C →
    0 < R → 0 < C → R * C ≤ 2 ^ 41 →
    (∀ s ∈ ss, (tk s).length = R * C) →
    UAffinityTable.LoadPages R C T (ss.map (fun s => (s.name, sz s, tk s)))
      = some ({ T with pages := T.pages ++ ss.map (fun s =>
          canonPage s R C (writeSeq (fun _ => s.schema.defaultVal) 0 (tk s))) }, false) := by
  intro ss
  induction ss with
  | nil =>
    intro T _ _ _ _ _ _ _ _ _
    simp only [List.map_nil, List.append_nil]
    rfl
  | cons s rest ih =>
    intro T hmem hnames hfixed hrows hcols hR hC hcap htk
    rw [List.map_cons]
    unfold UAffinityTable.LoadPages
    rw [find?_name_nodup T.structures s (hmem s (List.mem_cons_self _ _)) hnames]
    dsimp only
    rw [show FAffinityTablePage.new s R C T.bFixedModeActive
      = FAffinityTablePage.new s R C false from by rw [hfixed]]
    rw [page_new_canon s R C hR hC hcap]
    simp only [Option.bind_eq_bind, Option.some_bind]
    rw [midPage_full_canon]
    rw [loadCells_canon T.rows 0 R s R C T.columns (tk s)
      (fun _ => s.schema.defaultVal) hrows (by omega) hcols
      (by rw [htk s (List.mem_cons_self _ _)]) hcap]
    simp only [Option.some_bind]
    rw [Nat.zero_mul]
    rw [show (tk s).take (R * C) = tk s from by
      rw [← htk s (List.mem_cons_self _ _), List.take_length]]
    have hrec := ih { T with pages := T.pages
        ++ [canonPage s R C (writeSeq (fun _ => s.schema.defaultVal) 0 (tk s))] }
      (fun u hu => hmem u (List.mem_cons_of_mem _ hu)) hnames hfixed hrows hcols
      hR hC hcap (fun u hu => htk u (List.mem_cons_of_mem _ hu))
    rw [hrec]
    rw [Option.some.injEq, Prod.mk.injEq]
    refine ⟨?_, rfl⟩
    dsimp only
    rw [List.append_assoc]
    rfl

theorem serializeSave_arch (T : UAffinityTable)
    (hrv : (T.rows.map Prod.snd).Perm (List.range T.rows.length))
    (hcv : (T.columns.map Prod.snd).Perm (List.range T.columns.length))
    (hcells : ∀ st p, T.GetPageForStruct st = some p →
      ∀ i j, i < T.rows.length → j < T.columns.length →
        ∃ v, p.GetDatablockPtr i j = some (some v)) :
    T.SerializeSave = some (archOf T) := by
  have hmr_snd : (sortedRows T).map Prod.snd = List.range T.rows.length :=
    sorted_dense_snd T.rows hrv
  have hmc_snd : (sortedCols T).map Prod.snd = List.range T.columns.length :=
    sorted_dense_snd T.columns hcv
  have hmapM : ((structsToSave T).mapM (fun st => do
      let page ← UAffinityTable.GetPageForStruct T.PreSaveTable st
      let tokens ← UAffinityTable.SavePageCells page (T.PreSaveTable).columns
        (T.PreSaveTable).rows
      some (st.name, page.GetStructSize, tokens)))
      = some ((structsToSave T).map (fun st => (st.name, (pageOf T st).GetStructSize,
          streamTokens (pageOf T st) T.columns.length 0 T.rows.length))) := by
    apply mapM_some
    intro st hst
    have hsome : (UAffinityTable.GetPageForStruct T st).isSome = true :=
      (List.mem_filter.mp hst).2
    obtain ⟨p, hp⟩ : ∃ p, UAffinityTable.GetPageForStruct T st = some p := by
      cases hq : UAffinityTable.GetPageForStruct T st
      · rw [hq] at hsome
        exact absurd hsome (by simp)
      · exact ⟨_, rfl⟩
    have hpo : pageOf T st = p := by
      unfold pageOf
      rw [hp]
      rfl
    rw [show UAffinityTable.GetPageForStruct T.PreSaveTable st
      = UAffinityTable.GetPageForStruct T st from rfl, hp]
    simp only [Option.bind_eq_bind, Option.some_bind]
    rw [show (T.PreSaveTable).columns = sortedCols T from rfl,
      show (T.PreSaveTable).rows = sortedRows T from rfl]
    rw [saveCells_vals (sortedRows T) 0 T.rows.length p T.rows.length T.columns.length
      (sortedCols T)
      (by rw [hmr_snd, List.range_eq_range'])
      (by omega)
      (by rw [hmc_snd, List.range_eq_range'])
      (fun ii jj hii hjj => hcells st p hp ii jj hii hjj)]
    simp only [Option.some_bind]
    rw [hpo]
  unfold UAffinityTable.SerializeSave UAffinityTable.SaveTable
  rw [show (T.PreSaveTable).structures.filter
      (fun st => (UAffinityTable.GetPageForStruct T.PreSaveTable st).isSome)
    = structsToSave T from rfl]
  dsimp only
  rw [hmapM]
  simp only [Option.bind_eq_bind, Option.some_bind]
  rfl

theorem loadTable_arch (T : UAffinityTable)
    (hrk : (T.rows.map Prod.fst).Nodup)
    (hrv : (T.rows.map Prod.snd).Perm (List.range T.rows.length))
    (hck : (T.columns.map Prod.fst).Nodup)
    (hcv : (T.columns.map Prod.snd).Perm (List.range T.columns.length))
    (hrc : HierarchyClosed T.rows) (hcc : HierarchyClosed T.columns)
    (hsn : (T.structures.map (fun s => s.name)).Nodup)
    (hR : 0 < T.rows.length) (hC : 0 < T.columns.length)
    (hbound : T.rows.length * T.columns.length ≤ 2 ^ 41) :
    UAffinityTable.LoadTable (archOf T) = some (loadedOf T) := by
  have hmr_perm : (sortedRows T).Perm T.rows := List.perm_insertionSort _ _
  have hmc_perm : (sortedCols T).Perm T.columns := List.perm_insertionSort _ _
  have hmr_snd : (sortedRows T).map Prod.snd = List.range T.rows.length :=
    sorted_dense_snd T.rows hrv
  have hmc_snd : (sortedCols T).map Prod.snd = List.range T.columns.length :=
    sorted_dense_snd T.columns hcv
  have hmr_len : (sortedRows T).length = T.rows.length := hmr_perm.length_eq
  have hmc_len : (sortedCols T).length = T.columns.length := hmc_perm.length_eq
  have hmr_keys : ((sortedRows T).map Prod.fst).Nodup :=
    ((hmr_perm.map Prod.fst).nodup_iff).mpr hrk
  have hmc_keys : ((sortedCols T).map Prod.fst).Nodup :=
    ((hmc_perm.map Prod.fst).nodup_iff).mpr hck
  have hgen : UAffinityTable.GenerateRowAndColumnMaps
      (UAffinityTable.FreshFromArchive (archOf T)) = some (genLoaded T) := by
    unfold UAffinityTable.GenerateRowAndColumnMaps
    rw [if_pos (⟨rfl, rfl, rfl, rfl⟩ :
      (UAffinityTable.FreshFromArchive (archOf T)).nextRowIndex = 0 ∧
      (UAffinityTable.FreshFromArchive (archOf T)).rows = [] ∧
      (UAffinityTable.FreshFromArchive (archOf T)).nextColumnIndex = 0 ∧
      (UAffinityTable.FreshFromArchive (archOf T)).columns = [])]
    rw [show (UAffinityTable.FreshFromArchive (archOf T)).rowTags
      = (sortedRows T).map Prod.fst from rfl]
    rw [show (UAffinityTable.FreshFromArchive (archOf T)).columnTags
      = (sortedCols T).map Prod.fst from rfl]
    rw [genMaps_clean ((sortedRows T).map Prod.fst) [] 0 (fun t _ => rfl) hmr_keys]
    rw [genMaps_clean ((sortedCols T).map Prod.fst) [] 0 (fun t _ => rfl) hmc_keys]
    dsimp only
    rw [Option.some.injEq]
    unfold genLoaded
    rw [UAffinityTable.mk.injEq]
    refine ⟨?_, ?_, ?_, ?_, rfl, rfl, rfl, rfl, rfl, rfl, rfl, rfl, rfl⟩
    · rw [List.nil_append, List.length_map]
      exact zip_fst_snd_range' (sortedRows T) 0 (by rw [hmr_snd, List.range_eq_range', hmr_len])
    · rw [List.nil_append, List.length_map]
      exact zip_fst_snd_range' (sortedCols T) 0 (by rw [hmc_snd, List.range_eq_range', hmc_len])
    · rw [Nat.zero_add, List.length_map, hmr_len]
    · rw [Nat.zero_add, List.length_map, hmc_len]
  have hclr : ∀ u ∈ (sortedRows T).map Prod.fst, u.RequestDirectParent.IsValid = true →
      u.RequestDirectParent ∈ (sortedRows T).map Prod.fst := by
    intro u hu hv
    obtain ⟨pair, hpmem, hpeq⟩ := List.mem_map.mp hu
    have hmemT : pair ∈ T.rows := hmr_perm.mem_iff.mp hpmem
    have hcont := hrc pair hmemT (by rw [hpeq]; exact hv)
    obtain ⟨i, hi⟩ := TagMap.find?_isSome_of_contains hcont
    have hmem3 : (pair.1.RequestDirectParent, i) ∈ sortedRows T :=
      hmr_perm.mem_iff.mpr (TagMap.mem_of_find? hi)
    rw [← hpeq]
    exact List.mem_map_of_mem Prod.fst hmem3
  have hclc : ∀ u ∈ (sortedCols T).map Prod.fst, u.RequestDirectParent.IsValid = true →
      u.RequestDirectParent ∈ (sortedCols T).map Prod.fst := by
    intro u hu hv
    obtain ⟨pair, hpmem, hpeq⟩ := List.mem_map.mp hu
    have hmemT : pair ∈ T.columns := hmc_perm.mem_iff.mp hpmem
    have hcont := hcc pair hmemT (by rw [hpeq]; exact hv)
    obtain ⟨i, hi⟩ := TagMap.find?_isSome_of_contains hcont
    have hmem3 : (pair.1.RequestDirectParent, i) ∈ sortedCols T :=
      hmc_perm.mem_iff.mpr (TagMap.mem_of_find? hi)
    rw [← hpeq]
    exact List.mem_map_of_mem Prod.fst hmem3
  have hssnodup : ((structsToSave T).map (fun s => s.name)).Nodup :=
    ((List.filter_sublist T.structures).map (fun s => s.name)).nodup hsn
  have hlp := loadPages_canon T.rows.length T.columns.length
    (fun st => (pageOf T st).GetStructSize)
    (fun st => streamTokens (pageOf T st) T.columns.length 0 T.rows.length)
    (structsToSave T) (genLoaded T)
    (fun s hs => (List.mem_filter.mp hs).1)
    hsn rfl
    (by rw [show (genLoaded T).rows = sortedRows T from rfl, hmr_snd, List.range_eq_range'])
    (by rw [show (genLoaded T).columns = sortedCols T from rfl, hmc_snd, List.range_eq_range'])
    hR hC hbound
    (fun s _ => streamTokens_length T.rows.length 0 (pageOf T s) T.columns.length)
  unfold UAffinityTable.LoadTable
  dsimp only
  rw [if_neg (show ¬ (archOf T).formatVersion < FileFormatVersion from by
    rw [show (archOf T).formatVersion = FileFormatVersion from rfl]
    omega)]
  rw [hgen]
  simp only [Option.bind_eq_bind, Option.some_bind]
  rw [if_neg (show ¬ (genLoaded T).bHasLoadingErrors = true from fun h =>
    Bool.false_ne_true h)]
  rw [show (genLoaded T).rows.length = T.rows.length from hmr_len]
  rw [show (genLoaded T).columns.length = T.columns.length from hmc_len]
  rw [show (archOf T).pageData = (structsToSave T).map (fun st =>
    (st.name, (pageOf T st).GetStructSize,
      streamTokens (pageOf T st) T.columns.length 0 T.rows.length)) from rfl]
  rw [hlp]
  simp only [Option.some_bind]
  rw [if_neg (show ¬ false = true from Bool.false_ne_true)]
  rw [show (archOf T).inheritance = (structsToSave T).map (fun st =>
    (st.name, savedLinks T st)) from rfl]
  rw [loadInheritance_append ((structsToSave T).map (fun st => (st.name, savedLinks T st)))
    ({ rows := (genLoaded T).rows, columns := (genLoaded T).columns,
       nextRowIndex := (genLoaded T).nextRowIndex,
       nextColumnIndex := (genLoaded T).nextColumnIndex,
       structures := (genLoaded T).structures,
       pages := (genLoaded T).pages ++ (structsToSave T).map (fun s =>
         canonPage s T.rows.length T.columns.length
           (writeSeq (fun x => s.schema.defaultVal) 0
             (streamTokens (pageOf T s) T.columns.length 0 T.rows.length))),
       rowColors := (archOf T).rowColors,
       columnColors := (archOf T).columnColors,
       inheritanceMaps := (genLoaded T).inheritanceMaps,
       rowTags := (genLoaded T).rowTags,
       columnTags := (genLoaded T).columnTags,
       bHasLoadingErrors := (genLoaded T).bHasLoadingErrors,
       bFixedModeActive := (genLoaded T).bFixedModeActive } : UAffinityTable)
    (fun e _ => rfl)
    (by rw [List.map_map]; exact hssnodup)]
  rw [ensure_no_orphans _ hclr hclc]
  rw [Option.some.injEq]
  unfold loadedOf genLoaded
  dsimp only
  rw [UAffinityTable.mk.injEq]
  refine ⟨rfl, rfl, rfl, rfl, rfl, ?_, rfl, rfl, ?_, rfl, rfl, rfl, rfl⟩
  · rw [List.nil_append]
  · rw [List.nil_append, List.filterMap_map]
    rfl

theorem find?_filterMap_eq (h : UScriptStructRef → Option (String × InheritanceMap))
    (hk : ∀ s e, h s = some e → e.1 = s.name) :
    ∀ (ss : List UScriptStructRef) (st : UScriptStructRef), st ∈ ss →
    (ss.map (fun s => s.name)).Nodup →
    (ss.filterMap h).find? (fun q => decide (q.1 = st.name)) = h st := by
  intro ss
  induction ss with
  | nil => intro st hmem _; simp at hmem
  | cons s0 rest ih =>
    intro st hmem hnd
    rw [List.map_cons, List.nodup_cons] at hnd
    by_cases he : s0 = st
    · subst he
      cases hh : h s0 with
      | none =>
        rw [List.filterMap_cons_none hh]
        -- no entry in the tail can carry this key
        clear hmem ih
        induction rest with
        | nil => rfl
        | cons s1 r2 ih2 =>
          rw [List.map_cons, List.nodup_cons] at hnd
          cases hh1 : h s1 with
          | none =>
            rw [List.filterMap_cons_none hh1]
            exact ih2 ⟨fun hm => hnd.1 (List.mem_cons_of_mem _ hm), hnd.2.2⟩
          | some e1 =>
            rw [List.filterMap_cons_some hh1]
            rw [List.find?_cons_of_neg _ (by
              simp only [decide_eq_true_eq]
              rw [hk s1 e1 hh1]
              intro hne
              exact hnd.1 (by rw [← hne]; exact List.mem_cons_self _ _))]
            exact ih2 ⟨fun hm => hnd.1 (List.mem_cons_of_mem _ hm), hnd.2.2⟩
      | some e =>
        rw [List.filterMap_cons_some hh]
        rw [List.find?_cons_of_pos _ (by
          simp only [decide_eq_true_eq]
          exact hk s0 e hh)]
    · have hr : st ∈ rest := by
        rcases List.mem_cons.mp hmem with h1 | h1
        · exact absurd h1.symm he
        · exact h1
      have hne : s0.name ≠ st.name := by
        intro hne
        exact hnd.1 (by rw [hne]; exact List.mem_map_of_mem (fun s => s.name) hr)
      cases hh : h s0 with
      | none =>
        rw [List.filterMap_cons_none hh]
        exact ih st hr hnd.2
      | some e =>
        rw [List.filterMap_cons_some hh]
        rw [List.find?_cons_of_neg _ (by
          simp only [decide_eq_true_eq]
          rw [hk s0 e hh]
          exact hne)]
        exact ih st hr hnd.2

theorem find?_filterMap_absent (h : UScriptStructRef → Option (String × InheritanceMap))
    (hk : ∀ s e, h s = some e → e.1 = s.name) :
    ∀ (ss : List UScriptStructRef) (name : String),
    (∀ s ∈ ss, s.name = name → h s = none) →
    (ss.filterMap h).find? (fun q => decide (q.1 = name)) = none := by
  intro ss
  induction ss with
  | nil => intro name _; rfl
  | cons s0 rest ih =>
    intro name hnone
    cases hh : h s0 with
    | none =>
      rw [List.filterMap_cons_none hh]
      exact ih name (fun s hs => hnone s (List.mem_cons_of_mem _ hs))
    | some e =>
      rw [List.filterMap_cons_some hh]
      rw [List.find?_cons_of_neg _ (by
        simp only [decide_eq_true_eq]
        rw [hk s0 e hh]
        intro heq
        have := hnone s0 (List.mem_cons_self _ _) heq
        rw [this] at hh
        exact Option.noConfusion hh)]
      exact ih name (fun s hs => hnone s (List.mem_cons_of_mem _ hs))

/-- **C3** (corrected).  For a well-formed table — distinct row/column tags
carrying a dense (gap-free) set of indices, closed tag hierarchies, uniquely
named structures whose pages belong to the `Structures` array, and every
in-range cell resolvable — `Serialize` (save direction) followed by
`LoadTable` on the produced archive succeeds and reproduces: the same
row/column tag→index maps (as lookup functions), the same cell contents for
every structure with a page, and the same inheritance link set per structure
name.  (With index gaps — after deletions — the reloaded indices are the
sequential compaction of the saved order instead; see the counterexample.) -/
theorem C3_save_load_round_trip (T : UAffinityTable)
    (hrk : (T.rows.map Prod.fst).Nodup)
    (hrv : (T.rows.map Prod.snd).Perm (List.range T.rows.length))
    (hck : (T.columns.map Prod.fst).Nodup)
    (hcv : (T.columns.map Prod.snd).Perm (List.range T.columns.length))
    (hrc : HierarchyClosed T.rows) (hcc : HierarchyClosed T.columns)
    (hsn : (T.structures.map (fun s => s.name)).Nodup)
    (hpg : ∀ pg ∈ T.pages, pg.struct ∈ T.structures)
    (hR : 0 < T.rows.length) (hC : 0 < T.columns.length)
    (hbound : T.rows.length * T.columns.length ≤ 2 ^ 41)
    (hcells : ∀ st p, T.GetPageForStruct st = some p →
      ∀ i j, i < T.rows.length → j < T.columns.length →
        ∃ v, p.GetDatablockPtr i j = some (some v))
    (himaps : ∀ q ∈ T.inheritanceMaps, q.2.length ≠ 0 ∧ (q.2.map Prod.fst).Nodup ∧
      ∃ st, st ∈ T.structures ∧ st.name = q.1 ∧
        (T.GetPageForStruct st).isSome = true) :
    ∃ ar T', T.SerializeSave = some ar ∧ UAffinityTable.LoadTable ar = some T' ∧
      (∀ u, TagMap.find? T'.rows u = TagMap.find? T.rows u) ∧
      (∀ u, TagMap.find? T'.columns u = TagMap.find? T.columns u) ∧
      (∀ st p, T.GetPageForStruct st = some p →
        ∃ p', T'.GetPageForStruct st = some p' ∧
          ∀ i j, i < T.rows.length → j < T.columns.length →
            p'.GetDatablockPtr i j = p.GetDatablockPtr i j) ∧
      (∀ name, T'.inheritanceMaps.find? (fun q => decide (q.1 = name))
        = T.inheritanceMaps.find? (fun q => decide (q.1 = name))) := by
  have hmr_perm : (sortedRows T).Perm T.rows := List.perm_insertionSort _ _
  have hmc_perm : (sortedCols T).Perm T.columns := List.perm_insertionSort _ _
  have hmr_keys : ((sortedRows T).map Prod.fst).Nodup :=
    ((hmr_perm.map Prod.fst).nodup_iff).mpr hrk
  have hmc_keys : ((sortedCols T).map Prod.fst).Nodup :=
    ((hmc_perm.map Prod.fst).nodup_iff).mpr hck
  have hssnodup : ((structsToSave T).map (fun s => s.name)).Nodup :=
    ((List.filter_sublist T.structures).map (fun s => s.name)).nodup hsn
  have hkey : ∀ s e, (if (savedLinks T s).length ≠ 0 then
      some (s.name, UAffinityTable.imapAddAll [] (savedLinks T s)) else none) = some e →
      e.1 = s.name := by
    intro s e he
    by_cases hcnd : (savedLinks T s).length ≠ 0
    · rw [if_pos hcnd, Option.some.injEq] at he
      rw [← he]
    · rw [if_neg hcnd] at he
      exact Option.noConfusion he
  refine ⟨archOf T, loadedOf T,
    serializeSave_arch T hrv hcv hcells,
    loadTable_arch T hrk hrv hck hcv hrc hcc hsn hR hC hbound,
    ?_, ?_, ?_, ?_⟩
  · intro u
    exact TagMap.find?_perm hmr_perm hmr_keys u
  · intro u
    exact TagMap.find?_perm hmc_perm hmc_keys u
  · intro st p hp
    have hp2 : T.pages.find? (fun pg => decide (pg.struct = st)) = some p := hp
    have hmemp : p ∈ T.pages := List.mem_of_find?_eq_some hp2
    have hfs := List.find?_some hp2
    have hpstruct : p.struct = st := of_decide_eq_true hfs
    have hstmem : st ∈ T.structures := hpstruct ▸ hpg p hmemp
    have hss : st ∈ structsToSave T :=
      List.mem_filter.mpr ⟨hstmem, by rw [show (T.GetPageForStruct st) = some p from hp]; rfl⟩
    have hpo : pageOf T st = p := by
      unfold pageOf
      rw [show (T.GetPageForStruct st) = some p from hp]
      rfl
    refine ⟨canonPage st T.rows.length T.columns.length
      (writeSeq (fun x => st.schema.defaultVal) 0
        (streamTokens (pageOf T st) T.columns.length 0 T.rows.length)), ?_, ?_⟩
    · show ((structsToSave T).map (fun s => canonPage s T.rows.length T.columns.length
          (writeSeq (fun x => s.schema.defaultVal) 0
            (streamTokens (pageOf T s) T.columns.length 0 T.rows.length)))).find?
          (fun pg => decide (pg.struct = st)) = _
      exact find?_loadedPage _ (fun s => rfl) (structsToSave T) st hss hssnodup
    · intro i j hi hj
      have hn : i * T.columns.length + j < T.rows.length * T.columns.length :=
        cell_slot_lt hi hj
      have hb : (i * T.columns.length + j) / 512 < 2 ^ 32 :=
        div_bound_of_lt hn hbound
      have hlen : (streamTokens (pageOf T st) T.columns.length 0 T.rows.length).length
          = T.rows.length * T.columns.length :=
        streamTokens_length T.rows.length 0 (pageOf T st) T.columns.length
      have hlt : i * T.columns.length + j
          < (streamTokens (pageOf T st) T.columns.length 0 T.rows.length).length := by
        omega
      obtain ⟨v, hv⟩ := hcells st p hp i j hi hj
      have hcv2 : cellVal p i j = v := by
        unfold cellVal
        rw [hv]
      rw [canonPage_getDatablockPtr st _ hi hj hb]
      have hws := writeSeq_get (streamTokens (pageOf T st) T.columns.length 0 T.rows.length)
        0 (i * T.columns.length + j) (fun x => st.schema.defaultVal) hlt
      rw [Nat.zero_add] at hws
      rw [hws]
      have hget := streamTokens_get? T.rows.length 0 i j (pageOf T st) T.columns.length
        (by omega) (by omega) hj
      rw [Nat.sub_zero] at hget
      rw [List.get?_eq_get hlt, Option.some.injEq] at hget
      rw [hget, hpo, hcv2, hv]
  · intro name
    show ((structsToSave T).filterMap (fun s =>
        if (savedLinks T s).length ≠ 0 then
          some (s.name, UAffinityTable.imapAddAll [] (savedLinks T s)) else none)).find?
        (fun q => decide (q.1 = name)) = _
    cases hfind : T.inheritanceMaps.find? (fun q => decide (q.1 = name)) with
    | none =>
      apply find?_filterMap_absent _ hkey
      intro s hs hsname
      have hsl : savedLinks T s = [] := by
        unfold savedLinks
        rw [hsname, hfind]
      rw [if_neg (by rw [hsl]; simp)]
    | some q =>
      have hfs := List.find?_some hfind
      have hq1 : q.1 = name := of_decide_eq_true hfs
      have hqmem : q ∈ T.inheritanceMaps := List.mem_of_find?_eq_some hfind
      obtain ⟨hqlen, hqnodup, st', hst'mem, hst'name, hst'page⟩ := himaps q hqmem
      have hss' : st' ∈ structsToSave T := List.mem_filter.mpr ⟨hst'mem, hst'page⟩
      have hsl : savedLinks T st' = q.2 := by
        unfold savedLinks
        rw [hst'name, hq1, hfind]
      have hfm := find?_filterMap_eq _ hkey (structsToSave T) st' hss' hssnodup
      rw [hst'name, hq1] at hfm
      rw [hfm]
      rw [if_pos (by rw [hsl]; exact hqlen)]
      rw [hsl, imapAddAll_nil_id q.2 hqnodup, ← hq1]

/-- **C3** counterexample to the claim as stated: when the saved index set
has a gap (here rows `A ↦ 0`, `C ↦ 2`, after some index-1 row was deleted),
save followed by load does *not* reproduce identical tag indices — reload
assigns sequential indices in the stored order, compacting `C` to 1. -/
theorem C3_gapped_index_counterexample :
    ∃ ar T', sampleGapTable.SerializeSave = some ar ∧
      UAffinityTable.LoadTable ar = some T' ∧
      TagMap.find? sampleGapTable.rows ["C"] = some 2 ∧
      TagMap.find? T'.rows ["C"] = some 1 := by
  refine ⟨⟨3, [["A"], ["C"]], [["B"]], [], [], [], [], []⟩,
    ⟨[(["A"], 0), (["C"], 1)], [(["B"], 0)], 2, 1, [], [], [], [], [],
      [["A"], ["C"]], [["B"]], false, false⟩, ?_, ?_, by decide, by decide⟩
  · rfl
  · exact ensure_no_orphans _ (by decide) (by decide)

/-- Witness: the round-trip theorem applied to the concrete 1×1 table with
one structure, one page and the record value 42. -/
theorem C3_save_load_round_trip_witness :
    ∃ ar T', sampleTable.SerializeSave = some ar ∧
      UAffinityTable.LoadTable ar = some T' ∧
      (∀ u, TagMap.find? T'.rows u = TagMap.find? sampleTable.rows u) ∧
      (∀ u, TagMap.find? T'.columns u = TagMap.find? sampleTable.columns u) ∧
      (∀ st p, sampleTable.GetPageForStruct st = some p →
        ∃ p', T'.GetPageForStruct st = some p' ∧
          ∀ i j, i < sampleTable.rows.length → j < sampleTable.columns.length →
            p'.GetDatablockPtr i j = p.GetDatablockPtr i j) ∧
      (∀ name, T'.inheritanceMaps.find? (fun q => decide (q.1 = name))
        = sampleTable.inheritanceMaps.find? (fun q => decide (q.1 = name))) :=
  C3_save_load_round_trip sampleTable (by decide) (by decide) (by decide) (by decide)
    (by decide) (by decide) (by decide) (by decide) (by decide) (by decide)
    (by decide)
    (by
      intro st p hp i j hi hj
      have hp2 : [samplePageA].find? (fun pg => decide (pg.struct = st)) = some p := hp
      by_cases h : samplePageA.struct = st
      · rw [List.find?_cons_of_pos _ (by simpa using h)] at hp2
        rw [Option.some.injEq] at hp2
        subst hp2
        have hi' : i < 1 := hi
        have hj' : j < 1 := hj
        have hi0 : i = 0 := by omega
        have hj0 : j = 0 := by omega
        subst hi0
        subst hj0
        exact ⟨42, by decide⟩
      · rw [List.find?_cons_of_neg _ (by simpa using h)] at hp2
        exact Option.noConfusion hp2)
    (by
      intro q hq
      exact absurd hq (List.not_mem_nil q))

theorem chainPresent_invalid {tags : List GameplayTag} {p : GameplayTag}
    (h : p.IsValid = false) : ChainPresent tags p = true := by
  rw [ChainPresent]
  rw [if_neg (by rw [h]; exact Bool.false_ne_true)]

theorem chainPresent_of_false {tags : List GameplayTag} {p : GameplayTag}
    (h : ChainPresent tags p = false) : p.IsValid = true := by
  cases hv : p.IsValid
  · rw [chainPresent_invalid hv] at h
    exact Bool.noConfusion h
  · rfl

theorem orphan_valid {tags : List GameplayTag} {t : GameplayTag}
    (h : ChainPresent tags t.RequestDirectParent = false) : t.IsValid = true := by
  have hpv := chainPresent_of_false h
  rw [GameplayTag.isValid_iff]
  intro he
  subst he
  rw [show GameplayTag.RequestDirectParent [] = [] from rfl] at hpv
  simp [GameplayTag.IsValid] at hpv

theorem walk_eq_chainPresent (tags : List GameplayTag) :
    ∀ (N : Nat) (p : GameplayTag), p.length ≤ N → ∀ (tails : List GameplayTag),
    (∀ q ∈ tails, ChainPresent tags q = true) →
    UAffinityTable.FindOrphanWalk tags tails p = !(ChainPresent tags p) := by
  intro N
  induction N with
  | zero =>
    intro p hlen tails htails
    have hpnil : p = [] := List.eq_nil_of_length_eq_zero (by omega)
    subst hpnil
    rw [UAffinityTable.FindOrphanWalk, ChainPresent]
    rfl
  | succ N ihN =>
    intro p hlen tails htails
    rw [UAffinityTable.FindOrphanWalk, ChainPresent]
    by_cases hv : p.IsValid = true
    · rw [if_pos hv, if_pos hv]
      by_cases ht : p ∈ tails
      · rw [if_pos ht]
        have hcp : ChainPresent tags p = true := htails p ht
        rw [ChainPresent, if_pos hv] at hcp
        rw [hcp]
        rfl
      · rw [if_neg ht]
        by_cases hm : p ∈ tags
        · rw [if_pos hm, decide_eq_true hm, Bool.true_and]
          apply ihN
          · have hpne : p ≠ [] := by
              intro he
              rw [he] at hv
              simp [GameplayTag.IsValid] at hv
            have h0 : p.length ≠ 0 := fun h0 => hpne (List.eq_nil_of_length_eq_zero h0)
            rw [show p.RequestDirectParent = p.dropLast from rfl, List.length_dropLast]
            omega
          · exact htails
        · rw [if_neg hm, decide_eq_false hm, Bool.false_and]
          rfl
    · rw [if_neg hv, if_neg hv]
      rfl

theorem findOrphansGo_eq (tags : List GameplayTag) :
    ∀ (rest tails orphans : List GameplayTag),
    (∀ q ∈ tails, ChainPresent tags q = true) →
    (∀ t ∈ rest, t ∈ tags) → rest.Nodup → (∀ t ∈ rest, t ∉ orphans) →
    UAffinityTable.FindOrphansGo tags rest tails orphans
      = orphans ++ rest.filter (fun t => !(ChainPresent tags t.RequestDirectParent)) := by
  intro rest
  induction rest with
  | nil =>
    intro tails orphans _ _ _ _
    rw [List.filter_nil, List.append_nil]
    rfl
  | cons t rest' ih =>
    intro tails orphans htails hsub hnd hdisj
    rw [List.nodup_cons] at hnd
    unfold UAffinityTable.FindOrphansGo
    rw [walk_eq_chainPresent tags t.RequestDirectParent.length t.RequestDirectParent
      (le_refl _) tails htails]
    cases hcp : ChainPresent tags t.RequestDirectParent with
    | true =>
      rw [show (!true) = false from rfl]
      rw [if_neg Bool.false_ne_true]
      rw [List.filter_cons_of_neg (by rw [hcp]; simp)]
      apply ih (tails ++ [t]) orphans
      · intro q hq
        rcases List.mem_append.mp hq with h1 | h1
        · exact htails q h1
        · have hqt : q = t := by
            rcases List.mem_cons.mp h1 with h2 | h2
            · exact h2
            · simp at h2
          subst hqt
          rw [ChainPresent]
          by_cases hv : q.IsValid = true
          · rw [if_pos hv, decide_eq_true (hsub q (List.mem_cons_self _ _)), hcp]
            rfl
          · rw [if_neg hv]
      · exact fun u hu => hsub u (List.mem_cons_of_mem _ hu)
      · exact hnd.2
      · exact fun u hu => hdisj u (List.mem_cons_of_mem _ hu)
    | false =>
      rw [show (!false) = true from rfl]
      rw [if_pos rfl]
      rw [if_neg (hdisj t (List.mem_cons_self _ _))]
      rw [List.filter_cons_of_pos (by rw [hcp]; rfl)]
      rw [ih tails (orphans ++ [t]) htails
        (fun u hu => hsub u (List.mem_cons_of_mem _ hu)) hnd.2
        (fun u hu => by
          intro hmem
          rcases List.mem_append.mp hmem with h1 | h1
          · exact hdisj u (List.mem_cons_of_mem _ hu) h1
          · have : u = t := by
              rcases List.mem_cons.mp h1 with h2 | h2
              · exact h2
              · simp at h2
            exact hnd.1 (this ▸ hu))]
      rw [List.append_assoc]
      rfl

theorem findOrphans_eq (tags : List GameplayTag) (hnd : tags.Nodup) :
    UAffinityTable.FindOrphans tags = orphansIn tags := by
  unfold UAffinityTable.FindOrphans orphansIn
  rw [findOrphansGo_eq tags tags [] [] (fun q hq => absurd hq (List.not_mem_nil q))
    (fun t ht => ht) hnd (fun t _ => List.not_mem_nil t)]
  rw [List.nil_append]

theorem chainPresent_ancestors (tags : List GameplayTag) :
    ∀ (N : Nat) (u : GameplayTag), u.length ≤ N → u ∈ tags →
    ChainPresent tags u.RequestDirectParent = true →
    ∀ a ∈ ancestorChain u, a ∈ tags ∧
      ChainPresent tags a.RequestDirectParent = true := by
  intro N
  induction N with
  | zero =>
    intro u hlen hmem hcp a ha
    have hunil : u = [] := List.eq_nil_of_length_eq_zero (by omega)
    subst hunil
    rw [show ancestorChain [] = [] from rfl] at ha
    exact absurd ha (List.not_mem_nil a)
  | succ N ihN =>
    intro u hlen hmem hcp a ha
    by_cases hune : u = []
    · subst hune
      rw [show ancestorChain [] = [] from rfl] at ha
      exact absurd ha (List.not_mem_nil a)
    · rw [ancestorChain_cons hune] at ha
      rcases List.mem_cons.mp ha with hau | hau
      · subst hau
        exact ⟨hmem, hcp⟩
      · by_cases hdn : u.dropLast = []
        · rw [hdn, show ancestorChain [] = [] from rfl] at hau
          exact absurd hau (List.not_mem_nil a)
        · have hdp : u.RequestDirectParent = u.dropLast := rfl
          rw [hdp] at hcp
          rw [ChainPresent, if_pos (GameplayTag.isValid_iff.mpr hdn),
            Bool.and_eq_true] at hcp
          rcases hcp with ⟨hm1, hm2⟩
          have hmem' : u.dropLast ∈ tags := of_decide_eq_true hm1
          have hlen' : u.dropLast.length ≤ N := by
            have := List.length_dropLast u
            have hpos : 0 < u.length := List.length_pos.mpr hune
            omega
          exact ihN u.dropLast hlen' hmem' hm2 a hau

theorem okRow_none {d C : Nat} : OKRow d C none :=
  fun _ h => Option.noConfusion h

theorem okRow_some {d C : Nat} {row : List Nat} (h1 : row.length = C)
    (h2 : ∀ h ∈ row, h = InvalidDataHandle ∨
      (h / 2 ^ 32 % 2 ^ 32 < d ∧ h % 2 ^ 32 ≠ InvalidHandle)) :
    OKRow d C (some row) := by
  intro r hr
  rw [Option.some.injEq] at hr
  subst hr
  exact ⟨h1, h2⟩

theorem invalidData_mod32 : InvalidDataHandle % 2 ^ 32 = InvalidHandle := by decide

theorem getHandleData_invalid (p : FAffinityTablePage) :
    p.GetHandleData InvalidDataHandle = some none := by
  unfold FAffinityTablePage.GetHandleData
  rw [if_pos rfl]

theorem getHandleData_ok {p : FAffinityTablePage} {h : Nat}
    (hbi : h / 2 ^ 32 % 2 ^ 32 < p.datablocks.length)
    (hbh : h % 2 ^ 32 ≠ InvalidHandle) :
    p.GetHandleData h = some (some (h / 2 ^ 32 % 2 ^ 32, h % 2 ^ 32)) := by
  have hne : h ≠ InvalidDataHandle := by
    intro he
    apply hbh
    rw [he]
    exact invalidData_mod32
  unfold FAffinityTablePage.GetHandleData
  rw [if_neg hne]
  show (if h / 2 ^ 32 % 2 ^ 32 < p.datablocks.length ∧ h % 2 ^ 32 ≠ InvalidHandle
    then some (some (h / 2 ^ 32 % 2 ^ 32, h % 2 ^ 32)) else none) = _
  rw [if_pos ⟨hbi, hbh⟩]

theorem recycleRowHandles_ok :
    ∀ (row : List Nat) (p : FAffinityTablePage),
    (∀ h ∈ row, h = InvalidDataHandle ∨
      (h / 2 ^ 32 % 2 ^ 32 < p.datablocks.length ∧ h % 2 ^ 32 ≠ InvalidHandle)) →
    ∃ p', p.RecycleRowHandles row = some p' ∧ p'.shape = p.shape ∧
      p'.datablocks.length = p.datablocks.length := by
  intro row
  induction row with
  | nil =>
    intro p _
    exact ⟨p, rfl, rfl, rfl⟩
  | cons h0 rest ih =>
    intro p hOK
    rcases hOK h0 (List.mem_cons_self _ _) with hinv | ⟨hbi, hbh⟩
    · obtain ⟨p', hrec, hsh, hdl⟩ :=
        ih p (fun u hu => hOK u (List.mem_cons_of_mem _ hu))
      refine ⟨p', ?_, hsh, hdl⟩
      show FAffinityTablePage.RecycleRowHandles p (h0 :: rest) = some p'
      unfold FAffinityTablePage.RecycleRowHandles
      rw [hinv, getHandleData_invalid]
      simp only [Option.bind_eq_bind, Option.some_bind]
      exact hrec
    · have hgd := getHandleData_ok hbi hbh
      have hdb := List.get?_eq_get hbi
      have hrc : (p.datablocks.get ⟨h0 / 2 ^ 32 % 2 ^ 32, hbi⟩).RecycleHandle (h0 % 2 ^ 32)
          = some { p.datablocks.get ⟨h0 / 2 ^ 32 % 2 ^ 32, hbi⟩ with
              freeHandles := (p.datablocks.get ⟨h0 / 2 ^ 32 % 2 ^ 32, hbi⟩).freeHandles
                ++ [h0 % 2 ^ 32] } := by
        unfold FStructDatablock.RecycleHandle
        rw [if_neg hbh]
      obtain ⟨p', hrec, hsh, hdl⟩ :=
        ih
          { p with
            datablocks :=
              p.datablocks.set (h0 / 2 ^ 32 % 2 ^ 32)
                ({ p.datablocks.get ⟨h0 / 2 ^ 32 % 2 ^ 32, hbi⟩ with
                  freeHandles := (p.datablocks.get ⟨h0 / 2 ^ 32 % 2 ^ 32, hbi⟩).freeHandles
                    ++ [h0 % 2 ^ 32] }) }
          (by
            intro u hu
            rcases hOK u (List.mem_cons_of_mem _ hu) with h1 | ⟨h1, h2⟩
            · exact Or.inl h1
            · refine Or.inr ⟨?_, h2⟩
              show u / 2 ^ 32 % 2 ^ 32 < (p.datablocks.set (h0 / 2 ^ 32 % 2 ^ 32)
                ({ p.datablocks.get ⟨h0 / 2 ^ 32 % 2 ^ 32, hbi⟩ with
                  freeHandles := (p.datablocks.get ⟨h0 / 2 ^ 32 % 2 ^ 32, hbi⟩).freeHandles
                    ++ [h0 % 2 ^ 32] })).length
              rw [List.length_set]
              exact h1)
      refine ⟨p', ?_, hsh.trans rfl, by rw [hdl]; exact List.length_set _ _ _⟩
      show FAffinityTablePage.RecycleRowHandles p (h0 :: rest) = some p'
      unfold FAffinityTablePage.RecycleRowHandles
      rw [hgd]
      simp only [Option.bind_eq_bind, Option.some_bind]
      rw [hdb]
      simp only [Option.some_bind]
      rw [hrc]
      simp only [Option.some_bind]
      exact hrec

theorem page_deleteRow_ok {p : FAffinityTablePage} {R C i : Nat} {row : List Nat}
    (hOK : OKPage p R C) (hrow : p.rows.get? i = some (some row)) :
    ∃ p', p.DeleteRow i = some p' ∧
      p'.rows = p.rows.set i none ∧ p'.columns = p.columns ∧
      p'.deletedColumns = p.deletedColumns ∧
      p'.datablocks.length = p.datablocks.length ∧ OKPage p' R C := by
  obtain ⟨hlt, hget⟩ := List.get?_eq_some.mp hrow
  have hmem : (some row : Option (List Nat)) ∈ p.rows := hget ▸ List.get_mem p.rows i hlt
  obtain ⟨hlenrow, hhandles⟩ := hOK.2.2 (some row) hmem row rfl
  obtain ⟨p1, hrec, hsh, hdl⟩ := recycleRowHandles_ok row p hhandles
  refine ⟨{ p1 with rows := p1.rows.set i none }, ?_, ?_, ?_, ?_, ?_, ?_, ?_, ?_⟩
  · show p.DeleteRow i = some _
    unfold FAffinityTablePage.DeleteRow FAffinityTablePage.GetRow
    rw [dif_pos hlt]
    simp only [Option.bind_eq_bind, Option.some_bind]
    rw [hget]
    simp only [Option.some_bind]
    rw [hrec]
    simp only [Option.some_bind]
  · show p1.rows.set i none = p.rows.set i none
    rw [FAffinityTablePage.shape_rows hsh]
  · show p1.columns = p.columns
    exact FAffinityTablePage.shape_columns hsh
  · show p1.deletedColumns = p.deletedColumns
    exact FAffinityTablePage.shape_deletedColumns hsh
  · show p1.datablocks.length = p.datablocks.length
    exact hdl
  · show (p1.rows.set i none).length = R
    rw [List.length_set, FAffinityTablePage.shape_rows hsh]
    exact hOK.1
  · show p1.columns = C
    rw [FAffinityTablePage.shape_columns hsh]
    exact hOK.2.1
  · intro r hr
    rw [show ({ p1 with rows := p1.rows.set i none } : FAffinityTablePage).datablocks
      = p1.datablocks from rfl, hdl]
    rw [show ({ p1 with rows := p1.rows.set i none } : FAffinityTablePage).rows
      = p1.rows.set i none from rfl, FAffinityTablePage.shape_rows hsh] at hr
    rcases List.mem_or_eq_of_mem_set hr with h1 | h1
    · exact hOK.2.2 r h1
    · subst h1
      exact okRow_none

theorem deleteColumnRows_ok {C : Nat} (j : Nat) (hj : j < C) :
    ∀ (rows : List (Option (List Nat))) (p : FAffinityTablePage),
    (∀ r ∈ rows, OKRow p.datablocks.length C r) →
    ∃ q rows', p.DeleteColumnRows j rows = some (q, rows') ∧
      q.shape = p.shape ∧ q.datablocks.length = p.datablocks.length ∧
      rows'.length = rows.length ∧
      (∀ r ∈ rows', OKRow p.datablocks.length C r) := by
  intro rows
  induction rows with
  | nil =>
    intro p _
    exact ⟨p, [], rfl, rfl, rfl, rfl, fun r h => absurd h (List.not_mem_nil r)⟩
  | cons r0 rest ih =>
    intro p hOK
    cases r0 with
    | none =>
      obtain ⟨q, rest', heq, hshq, hdlq, hlenq, hokq⟩ :=
        ih p (fun u hu => hOK u (List.mem_cons_of_mem _ hu))
      refine ⟨q, none :: rest', ?_, hshq, hdlq, by rw [List.length_cons, List.length_cons, hlenq], ?_⟩
      · show FAffinityTablePage.DeleteColumnRows p j (none :: rest) = some (q, none :: rest')
        unfold FAffinityTablePage.DeleteColumnRows
        rw [heq]
        simp only [Option.bind_eq_bind, Option.some_bind]
      · intro r hr
        rcases List.mem_cons.mp hr with h1 | h1
        · subst h1
          exact okRow_none
        · exact hokq r h1
    | some row =>
      obtain ⟨hlenrow, hhandles⟩ := hOK (some row) (List.mem_cons_self _ _) row rfl
      have hc : j < row.length := by rw [hlenrow]; exact hj
      rcases hhandles (row.get ⟨j, hc⟩) (List.get_mem row j hc) with hinv | ⟨hbi, hbh⟩
      · have hgd : p.GetHandleData (row.get ⟨j, hc⟩) = some none := by
          rw [hinv]
          exact getHandleData_invalid p
        obtain ⟨q, rest', heq, hshq, hdlq, hlenq, hokq⟩ :=
          ih p (fun u hu => hOK u (List.mem_cons_of_mem _ hu))
        refine ⟨q, some row :: rest', ?_, hshq, hdlq,
          by rw [List.length_cons, List.length_cons, hlenq], ?_⟩
        · show FAffinityTablePage.DeleteColumnRows p j (some row :: rest)
            = some (q, some row :: rest')
          unfold FAffinityTablePage.DeleteColumnRows
          rw [dif_pos hc, hgd]
          rw [heq]
          simp only [Option.bind_eq_bind, Option.some_bind]
        · intro r hr
          rcases List.mem_cons.mp hr with h1 | h1
          · subst h1
            exact okRow_some hlenrow hhandles
          · exact hokq r h1
      · have hgd := getHandleData_ok hbi hbh
        have hdb := List.get?_eq_get hbi
        have hrc : (p.datablocks.get ⟨row.get ⟨j, hc⟩ / 2 ^ 32 % 2 ^ 32, hbi⟩).RecycleHandle
            (row.get ⟨j, hc⟩ % 2 ^ 32)
            = some { p.datablocks.get ⟨row.get ⟨j, hc⟩ / 2 ^ 32 % 2 ^ 32, hbi⟩ with
                freeHandles :=
                  (p.datablocks.get ⟨row.get ⟨j, hc⟩ / 2 ^ 32 % 2 ^ 32, hbi⟩).freeHandles
                    ++ [row.get ⟨j, hc⟩ % 2 ^ 32] } := by
          unfold FStructDatablock.RecycleHandle
          rw [if_neg hbh]
        obtain ⟨q, rest', heq, hshq, hdlq, hlenq, hokq⟩ :=
          ih
            { p with
              datablocks :=
                p.datablocks.set (row.get ⟨j, hc⟩ / 2 ^ 32 % 2 ^ 32)
                  ({ p.datablocks.get ⟨row.get ⟨j, hc⟩ / 2 ^ 32 % 2 ^ 32, hbi⟩ with
                    freeHandles :=
                      (p.datablocks.get ⟨row.get ⟨j, hc⟩ / 2 ^ 32 % 2 ^ 32, hbi⟩).freeHandles
                        ++ [row.get ⟨j, hc⟩ % 2 ^ 32] }) }
            (by
              intro u hu
              intro row' hrow'
              obtain ⟨ha, hb⟩ := hOK u (List.mem_cons_of_mem _ hu) row' hrow'
              refine ⟨ha, ?_⟩
              intro h hh
              rcases hb h hh with h1 | ⟨h1, h2⟩
              · exact Or.inl h1
              · refine Or.inr ⟨?_, h2⟩
                show h / 2 ^ 32 % 2 ^ 32
                  < (p.datablocks.set (row.get ⟨j, hc⟩ / 2 ^ 32 % 2 ^ 32)
                    ({ p.datablocks.get ⟨row.get ⟨j, hc⟩ / 2 ^ 32 % 2 ^ 32, hbi⟩ with
                      freeHandles :=
                        (p.datablocks.get
                          ⟨row.get ⟨j, hc⟩ / 2 ^ 32 % 2 ^ 32, hbi⟩).freeHandles
                          ++ [row.get ⟨j, hc⟩ % 2 ^ 32] })).length
                rw [List.length_set]
                exact h1)
        have hdl2 : (p.datablocks.set (row.get ⟨j, hc⟩ / 2 ^ 32 % 2 ^ 32)
            ({ p.datablocks.get ⟨row.get ⟨j, hc⟩ / 2 ^ 32 % 2 ^ 32, hbi⟩ with
              freeHandles :=
                (p.datablocks.get ⟨row.get ⟨j, hc⟩ / 2 ^ 32 % 2 ^ 32, hbi⟩).freeHandles
                  ++ [row.get ⟨j, hc⟩ % 2 ^ 32] })).length = p.datablocks.length :=
          List.length_set _ _ _
        refine ⟨q, some (row.set j InvalidDataHandle) :: rest', ?_,
          hshq.trans rfl, by rw [hdlq]; exact hdl2,
          by rw [List.length_cons, List.length_cons, hlenq], ?_⟩
        · show FAffinityTablePage.DeleteColumnRows p j (some row :: rest)
            = some (q, some (row.set j InvalidDataHandle) :: rest')
          unfold FAffinityTablePage.DeleteColumnRows
          rw [dif_pos hc, hgd]
          dsimp only
          rw [hdb]
          simp only [Option.bind_eq_bind, Option.some_bind]
          rw [hrc]
          simp only [Option.some_bind]
          rw [heq]
          simp only [Option.some_bind]
        · intro r hr
          rcases List.mem_cons.mp hr with h1 | h1
          · subst h1
            refine okRow_some ?_ ?_
            · rw [List.length_set]
              exact hlenrow
            · intro h hh
              rcases List.mem_or_eq_of_mem_set hh with h2 | h2
              · exact hhandles h h2
              · exact Or.inl h2
          · intro row' hrow'
            obtain ⟨ha, hb⟩ := hokq r h1 row' hrow'
            refine ⟨ha, ?_⟩
            intro h hh
            rcases hb h hh with h2 | ⟨h2, h3⟩
            · exact Or.inl h2
            · refine Or.inr ⟨?_, h3⟩
              rw [hdl2] at h2
              exact h2

theorem page_deleteColumn_ok {p : FAffinityTablePage} {R C j : Nat}
    (hOK : OKPage p R C) (hj : j < C) (hnd : j ∉ p.deletedColumns) :
    ∃ p', p.DeleteColumn j = some p' ∧
      p'.columns = p.columns ∧ p'.deletedColumns = p.deletedColumns ++ [j] ∧
      p'.rows.length = p.rows.length ∧ p'.datablocks.length = p.datablocks.length ∧
      OKPage p' R C := by
  obtain ⟨q, rows', heq, hshq, hdlq, hlenq, hokq⟩ :=
    deleteColumnRows_ok j hj p.rows p hOK.2.2
  refine ⟨{ q with rows := rows', deletedColumns := q.deletedColumns ++ [j] },
    ?_, ?_, ?_, ?_, ?_, ?_, ?_, ?_⟩
  · show p.DeleteColumn j = some _
    unfold FAffinityTablePage.DeleteColumn
    rw [if_pos ⟨by rw [hOK.2.1]; exact hj, hnd⟩]
    rw [heq]
    simp only [Option.bind_eq_bind, Option.some_bind]
  · show q.columns = p.columns
    exact FAffinityTablePage.shape_columns hshq
  · show q.deletedColumns ++ [j] = p.deletedColumns ++ [j]
    rw [FAffinityTablePage.shape_deletedColumns hshq]
  · show rows'.length = p.rows.length
    exact hlenq
  · show q.datablocks.length = p.datablocks.length
    exact hdlq
  · show rows'.length = R
    rw [hlenq]
    exact hOK.1
  · show q.columns = C
    rw [FAffinityTablePage.shape_columns hshq]
    exact hOK.2.1
  · intro r hr
    show OKRow q.datablocks.length C r
    rw [hdlq]
    exact hokq r hr

theorem canonPage_OK {R C : Nat} (st : UScriptStructRef) (f : Nat → Nat)
    (hbound : R * C ≤ 2 ^ 41) :
    OKPage (canonPage st R C f) R C ∧
    (∀ i, i < R → (canonPage st R C f).rows.get? i = some (some (canonRow C i))) ∧
    (canonPage st R C f).deletedColumns = [] := by
  refine ⟨⟨?_, rfl, ?_⟩, ?_, rfl⟩
  · show ((List.range R).map (fun i => some (canonRow C i))).length = R
    rw [List.length_map, List.length_range]
  · intro r hr
    obtain ⟨i, hi, he⟩ := List.mem_map.mp hr
    rw [List.mem_range] at hi
    subst he
    intro row hrow
    rw [Option.some.injEq] at hrow
    subst hrow
    refine ⟨canonRow_length C i, ?_⟩
    intro h hh
    obtain ⟨j, hj, he2⟩ := List.mem_map.mp hh
    rw [List.mem_range] at hj
    subst he2
    refine Or.inr ⟨?_, ?_⟩
    · show slotHandle (i * C + j) / 2 ^ 32 % 2 ^ 32
        < (canonBlocks st.schema (R * C) f).length
      rw [slotHandle_div]
      have hlt : i * C + j < R * C := cell_slot_lt hi hj
      rw [Nat.mod_eq_of_lt (by
        have : (i * C + j) / 512 ≤ (2 ^ 41) / 512 :=
          Nat.div_le_div_right (le_trans (le_of_lt hlt) hbound)
        have h512 : (2 ^ 41) / 512 = 2 ^ 32 := by norm_num
        omega)]
      rw [canonBlocks_length]
      exact blockCaps_length_lt hlt
    · rw [slotHandle_mod]
      exact mod512_ne_invalid _
  · intro i hi
    show ((List.range R).map (fun i => some (canonRow C i))).get? i
      = some (some (canonRow C i))
    rw [get?_map_range, if_pos hi]

theorem mapPages_forward {f : FAffinityTablePage → Option FAffinityTablePage} :
    ∀ (l : List FAffinityTablePage), (∀ pg ∈ l, (f pg).isSome) →
    ∃ l', UAffinityTable.mapPages f l = some l' ∧ l'.length = l.length ∧
      ∀ pg' ∈ l', ∃ pg ∈ l, f pg = some pg' := by
  intro l
  induction l with
  | nil =>
    intro _
    exact ⟨[], rfl, rfl, fun pg' h => absurd h (List.not_mem_nil pg')⟩
  | cons pg0 rest ih =>
    intro hsome
    obtain ⟨pg0', hpg0⟩ := Option.isSome_iff_exists.mp (hsome pg0 (List.mem_cons_self _ _))
    obtain ⟨rest', heq, hlen, hmem⟩ :=
      ih (fun u hu => hsome u (List.mem_cons_of_mem _ hu))
    refine ⟨pg0' :: rest', ?_, by rw [List.length_cons, List.length_cons, hlen], ?_⟩
    · show UAffinityTable.mapPages f (pg0 :: rest) = some (pg0' :: rest')
      unfold UAffinityTable.mapPages
      rw [hpg0]
      simp only [Option.bind_eq_bind, Option.some_bind]
      rw [heq]
      simp only [Option.some_bind]
    · intro pg' hpg'
      rcases List.mem_cons.mp hpg' with h1 | h1
      · exact ⟨pg0, List.mem_cons_self _ _, h1 ▸ hpg0⟩
      · obtain ⟨pg, hpgmem, hpgeq⟩ := hmem pg' h1
        exact ⟨pg, List.mem_cons_of_mem _ hpgmem, hpgeq⟩

theorem contains_iff_mem_keys : ∀ (m : TagMap) (u : GameplayTag),
    TagMap.Contains m u = true ↔ u ∈ m.map Prod.fst := by
  intro m u
  induction m with
  | nil =>
    constructor
    · intro h
      exact absurd h (by simp [TagMap.Contains, TagMap.find?])
    · intro h
      exact absurd h (List.not_mem_nil u)
  | cons p rest ih =>
    unfold TagMap.Contains
    rw [TagMap.find?_cons, List.map_cons]
    by_cases hp : p.1 = u
    · rw [if_pos hp]
      constructor
      · intro _
        rw [← hp]
        exact List.mem_cons_self _ _
      · intro _
        rfl
    · rw [if_neg hp]
      constructor
      · intro h
        exact List.mem_cons_of_mem _ (ih.mp h)
      · intro h
        rcases List.mem_cons.mp h with h1 | h1
        · exact absurd h1.symm hp
        · exact ih.mpr h1

theorem find?_zip_range' :
    ∀ (tags : List GameplayTag) (k j : Nat) (t : GameplayTag),
    tags.Nodup → tags.get? j = some t →
    TagMap.find? (tags.zip (List.range' k tags.length)) t = some (k + j) := by
  intro tags
  induction tags with
  | nil =>
    intro k j t _ hget
    rw [List.get?_eq_getElem?, List.getElem?_nil] at hget
    exact Option.noConfusion hget
  | cons t0 rest ih =>
    intro k j t hnd hget
    rw [List.nodup_cons] at hnd
    rw [show (t0 :: rest).length = rest.length + 1 from rfl, List.range'_succ]
    rw [List.zip_cons_cons]
    cases j with
    | zero =>
      rw [List.get?_cons_zero, Option.some.injEq] at hget
      subst hget
      rw [TagMap.find?_cons, if_pos rfl, Nat.add_zero]
    | succ j' =>
      rw [List.get?_cons_succ] at hget
      have htmem : t ∈ rest := List.mem_iff_get?.mpr ⟨j', hget⟩
      have hne : t0 ≠ t := fun he => hnd.1 (he ▸ htmem)
      rw [TagMap.find?_cons, if_neg hne]
      rw [ih (k + 1) j' t hnd.2 hget]
      rw [Option.some.injEq]
      omega

theorem deleteRowsList_ok :
    ∀ (os : List GameplayTag) (T : UAffinityTable) (R C : Nat),
    os.Nodup →
    (∀ t ∈ os, t.IsValid = true) →
    (∀ t ∈ os, ∃ i, TagMap.find? T.rows t = some i ∧
      (∀ pg ∈ T.pages, ∃ row, pg.rows.get? i = some (some row))) →
    (∀ t ∈ os, ∀ t' ∈ os, ∀ i i', TagMap.find? T.rows t = some i →
      TagMap.find? T.rows t' = some i' → t ≠ t' → i ≠ i') →
    (∀ pg ∈ T.pages, OKPage pg R C) →
    (∀ pg ∈ T.pages, pg.deletedColumns = []) →
    ∃ T', UAffinityTable.DeleteRowsList T os = some T' ∧
      T'.rows = T.rows.filter (fun q => decide (q.1 ∉ os)) ∧
      T'.columns = T.columns ∧ T'.rowTags = T.rowTags ∧
      T'.columnTags = T.columnTags ∧ T'.structures = T.structures ∧
      T'.bHasLoadingErrors = T.bHasLoadingErrors ∧
      T'.inheritanceMaps = T.inheritanceMaps ∧
      (∀ pg ∈ T'.pages, OKPage pg R C) ∧
      (∀ pg ∈ T'.pages, pg.deletedColumns = []) := by
  intro os
  induction os with
  | nil =>
    intro T R C _ _ _ _ hOK hdelc
    refine ⟨T, rfl, ?_, rfl, rfl, rfl, rfl, rfl, rfl, hOK, hdelc⟩
    rw [List.filter_eq_self.mpr (fun a _ => by simp)]
  | cons t rest ih =>
    intro T R C hnd hval hfind hinj hOK hdelc
    rw [List.nodup_cons] at hnd
    obtain ⟨i, hfi, hlive⟩ := hfind t (List.mem_cons_self _ _)
    have hcont : TagMap.Contains T.rows t = true := by
      unfold TagMap.Contains
      rw [hfi]
      rfl
    have hsome : ∀ pg ∈ T.pages, (pg.DeleteRow i).isSome := by
      intro pg hpg
      obtain ⟨row, hrow⟩ := hlive pg hpg
      obtain ⟨pg', heq, _⟩ := page_deleteRow_ok (hOK pg hpg) hrow
      rw [heq]
      rfl
    obtain ⟨pages', hmp, hmplen, hmpmem⟩ := mapPages_forward T.pages hsome
    have hpg_props : ∀ pg' ∈ pages', ∃ pg ∈ T.pages,
        pg'.rows = pg.rows.set i none ∧ pg'.deletedColumns = pg.deletedColumns ∧
        OKPage pg' R C := by
      intro pg' hpg'
      obtain ⟨pg, hpgmem, hpgdel⟩ := hmpmem pg' hpg'
      obtain ⟨row, hrow⟩ := hlive pg hpgmem
      obtain ⟨pg'', heq2, hrows2, _, hdc2, _, hOK2⟩ :=
        page_deleteRow_ok (hOK pg hpgmem) hrow
      have he : pg'' = pg' := by
        rw [heq2] at hpgdel
        exact Option.some.injEq _ _ ▸ hpgdel ▸ rfl
      subst he
      exact ⟨pg, hpgmem, hrows2, hdc2, hOK2⟩
    have hdel : T.DeleteRow t = some
        { T with pages := pages',
                 rows := T.rows.filter (fun p => decide (p.1 ≠ t)),
                 rowColors := T.rowColors.filter (fun p => decide (p.1 ≠ t)) } := by
      unfold UAffinityTable.DeleteRow
      rw [if_pos ⟨hval t (List.mem_cons_self _ _), hcont⟩]
      rw [hfi]
      simp only [Option.bind_eq_bind, Option.some_bind]
      rw [hmp]
      simp only [Option.some_bind]
    obtain ⟨T', heqrest, hrows', hcols', hrt', hct', hst', hfl', him', hOK', hdelc'⟩ :=
      ih { T with pages := pages',
                  rows := T.rows.filter (fun p => decide (p.1 ≠ t)),
                  rowColors := T.rowColors.filter (fun p => decide (p.1 ≠ t)) }
        R C hnd.2
        (fun u hu => hval u (List.mem_cons_of_mem _ hu))
        (by
          intro t' ht'
          obtain ⟨i', hfi', hlive'⟩ := hfind t' (List.mem_cons_of_mem _ ht')
          have hne : t' ≠ t := fun he => hnd.1 (he ▸ ht')
          refine ⟨i', ?_, ?_⟩
          · show TagMap.find? (T.rows.filter (fun p => decide (p.1 ≠ t))) t' = some i'
            rw [TagMap.find?_filter_ne hne]
            exact hfi'
          · intro pg' hpg'
            obtain ⟨pg, hpgmem, hrowsE, _, _⟩ := hpg_props pg' hpg'
            obtain ⟨row', hrow'⟩ := hlive' pg hpgmem
            have hii : i ≠ i' := hinj t (List.mem_cons_self _ _) t'
              (List.mem_cons_of_mem _ ht') i i' hfi hfi' (fun he => hnd.1 (he ▸ ht'))
            refine ⟨row', ?_⟩
            rw [hrowsE, List.get?_set_ne _ _ hii]
            exact hrow')
        (by
          intro t1 ht1 t2 ht2 i1 i2 hf1 hf2 hne12
          have hne1 : t1 ≠ t := fun he => hnd.1 (he ▸ ht1)
          have hne2 : t2 ≠ t := fun he => hnd.1 (he ▸ ht2)
          have hf1' : TagMap.find? (T.rows.filter (fun p => decide (p.1 ≠ t))) t1
            = some i1 := hf1
          have hf2' : TagMap.find? (T.rows.filter (fun p => decide (p.1 ≠ t))) t2
            = some i2 := hf2
          rw [TagMap.find?_filter_ne hne1] at hf1'
          rw [TagMap.find?_filter_ne hne2] at hf2'
          exact hinj t1 (List.mem_cons_of_mem _ ht1) t2 (List.mem_cons_of_mem _ ht2)
            i1 i2 hf1' hf2' hne12)
        (by
          intro pg' hpg'
          obtain ⟨pg, _, _, _, hOK2⟩ := hpg_props pg' hpg'
          exact hOK2)
        (by
          intro pg' hpg'
          obtain ⟨pg, hpgmem, _, hdc2, _⟩ := hpg_props pg' hpg'
          rw [hdc2]
          exact hdelc pg hpgmem)
    refine ⟨T', ?_, ?_, hcols', hrt', hct', hst', hfl', him', hOK', hdelc'⟩
    · show UAffinityTable.DeleteRowsList T (t :: rest) = some T'
      unfold UAffinityTable.DeleteRowsList
      rw [hdel]
      simp only [Option.bind_eq_bind, Option.some_bind]
      exact heqrest
    · rw [hrows']
      show (T.rows.filter (fun p => decide (p.1 ≠ t))).filter
          (fun q => decide (q.1 ∉ rest))
        = T.rows.filter (fun q => decide (q.1 ∉ t :: rest))
      rw [List.filter_filter]
      apply List.filter_congr
      intro a _
      by_cases h1 : a.1 ∈ t :: rest
      · rcases List.mem_cons.mp h1 with h2 | h2
        · simp [h2, h1]
        · simp [h2, h1]
      · have h2 : a.1 ∉ rest := fun hh => h1 (List.mem_cons_of_mem _ hh)
        have h3 : a.1 ≠ t := fun hh => h1 (hh ▸ List.mem_cons_self _ _)
        simp [h1, h2, h3]

theorem deleteColumnsList_ok :
    ∀ (os : List GameplayTag) (T : UAffinityTable) (R C : Nat),
    os.Nodup →
    (∀ t ∈ os, t.IsValid = true) →
    (∀ t ∈ os, ∃ j, TagMap.find? T.columns t = some j ∧ j < C) →
    (∀ t ∈ os, ∀ t' ∈ os, ∀ j j', TagMap.find? T.columns t = some j →
      TagMap.find? T.columns t' = some j' → t ≠ t' → j ≠ j') →
    (∀ pg ∈ T.pages, OKPage pg R C) →
    (∀ pg ∈ T.pages, ∀ t ∈ os, ∀ j, TagMap.find? T.columns t = some j →
      j ∉ pg.deletedColumns) →
    ∃ T', UAffinityTable.DeleteColumnsList T os = some T' ∧
      T'.columns = T.columns.filter (fun q => decide (q.1 ∉ os)) ∧
      T'.rows = T.rows ∧ T'.rowTags = T.rowTags ∧
      T'.columnTags = T.columnTags ∧ T'.structures = T.structures ∧
      T'.bHasLoadingErrors = T.bHasLoadingErrors ∧
      T'.inheritanceMaps = T.inheritanceMaps := by
  intro os
  induction os with
  | nil =>
    intro T R C _ _ _ _ _ _
    refine ⟨T, rfl, ?_, rfl, rfl, rfl, rfl, rfl, rfl⟩
    rw [List.filter_eq_self.mpr (fun a _ => by simp)]
  | cons t rest ih =>
    intro T R C hnd hval hfind hinj hOK hdc
    rw [List.nodup_cons] at hnd
    obtain ⟨j, hfj, hjC⟩ := hfind t (List.mem_cons_self _ _)
    have hcont : TagMap.Contains T.columns t = true := by
      unfold TagMap.Contains
      rw [hfj]
      rfl
    have hsome : ∀ pg ∈ T.pages, (pg.DeleteColumn j).isSome := by
      intro pg hpg
      obtain ⟨pg', heq, _⟩ := page_deleteColumn_ok (hOK pg hpg) hjC
        (hdc pg hpg t (List.mem_cons_self _ _) j hfj)
      rw [heq]
      rfl
    obtain ⟨pages', hmp, hmplen, hmpmem⟩ := mapPages_forward T.pages hsome
    have hpg_props : ∀ pg' ∈ pages', ∃ pg ∈ T.pages,
        pg'.deletedColumns = pg.deletedColumns ++ [j] ∧ OKPage pg' R C := by
      intro pg' hpg'
      obtain ⟨pg, hpgmem, hpgdel⟩ := hmpmem pg' hpg'
      obtain ⟨pg'', heq2, _, hdc2, _, _, hOK2⟩ := page_deleteColumn_ok (hOK pg hpgmem)
        hjC (hdc pg hpgmem t (List.mem_cons_self _ _) j hfj)
      have he : pg'' = pg' := by
        rw [heq2] at hpgdel
        exact Option.some.injEq _ _ ▸ hpgdel ▸ rfl
      subst he
      exact ⟨pg, hpgmem, hdc2, hOK2⟩
    have hdel : T.DeleteColumn t = some
        { T with pages := pages',
                 columns := T.columns.filter (fun p => decide (p.1 ≠ t)),
                 columnColors := T.columnColors.filter (fun p => decide (p.1 ≠ t)) } := by
      unfold UAffinityTable.DeleteColumn
      rw [if_pos ⟨hval t (List.mem_cons_self _ _), hcont⟩]
      rw [hfj]
      simp only [Option.bind_eq_bind, Option.some_bind]
      rw [hmp]
      simp only [Option.some_bind]
    obtain ⟨T', heqrest, hcols', hrows', hrt', hct', hst', hfl', him'⟩ :=
      ih { T with pages := pages',
                  columns := T.columns.filter (fun p => decide (p.1 ≠ t)),
                  columnColors := T.columnColors.filter (fun p => decide (p.1 ≠ t)) }
        R C hnd.2
        (fun u hu => hval u (List.mem_cons_of_mem _ hu))
        (by
          intro t' ht'
          obtain ⟨j', hfj', hj'C⟩ := hfind t' (List.mem_cons_of_mem _ ht')
          have hne : t' ≠ t := fun he => hnd.1 (he ▸ ht')
          refine ⟨j', ?_, hj'C⟩
          show TagMap.find? (T.columns.filter (fun p => decide (p.1 ≠ t))) t' = some j'
          rw [TagMap.find?_filter_ne hne]
          exact hfj')
        (by
          intro t1 ht1 t2 ht2 j1 j2 hf1 hf2 hne12
          have hne1 : t1 ≠ t := fun he => hnd.1 (he ▸ ht1)
          have hne2 : t2 ≠ t := fun he => hnd.1 (he ▸ ht2)
          have hf1' : TagMap.find? (T.columns.filter (fun p => decide (p.1 ≠ t))) t1
            = some j1 := hf1
          have hf2' : TagMap.find? (T.columns.filter (fun p => decide (p.1 ≠ t))) t2
            = some j2 := hf2
          rw [TagMap.find?_filter_ne hne1] at hf1'
          rw [TagMap.find?_filter_ne hne2] at hf2'
          exact hinj t1 (List.mem_cons_of_mem _ ht1) t2 (List.mem_cons_of_mem _ ht2)
            j1 j2 hf1' hf2' hne12)
        (by
          intro pg' hpg'
          obtain ⟨pg, _, _, hOK2⟩ := hpg_props pg' hpg'
          exact hOK2)
        (by
          intro pg' hpg' t' ht' j' hfj'
          obtain ⟨pg, hpgmem, hdc2, _⟩ := hpg_props pg' hpg'
          have hne : t' ≠ t := fun he => hnd.1 (he ▸ ht')
          have hfj'' : TagMap.find? (T.columns.filter (fun p => decide (p.1 ≠ t))) t'
            = some j' := hfj'
          rw [TagMap.find?_filter_ne hne] at hfj''
          have hj'j : j' ≠ j := hinj t' (List.mem_cons_of_mem _ ht') t
            (List.mem_cons_self _ _) j' j hfj'' hfj hne
          rw [hdc2]
          intro hmem
          rcases List.mem_append.mp hmem with h1 | h1
          · exact hdc pg hpgmem t' (List.mem_cons_of_mem _ ht') j' hfj'' h1
          · rcases List.mem_cons.mp h1 with h2 | h2
            · exact hj'j h2
            · exact absurd h2 (List.not_mem_nil j'))
    refine ⟨T', ?_, ?_, hrows', hrt', hct', hst', hfl', him'⟩
    · show UAffinityTable.DeleteColumnsList T (t :: rest) = some T'
      unfold UAffinityTable.DeleteColumnsList
      rw [hdel]
      simp only [Option.bind_eq_bind, Option.some_bind]
      exact heqrest
    · rw [hcols']
      show (T.columns.filter (fun p => decide (p.1 ≠ t))).filter
          (fun q => decide (q.1 ∉ rest))
        = T.columns.filter (fun q => decide (q.1 ∉ t :: rest))
      rw [List.filter_filter]
      apply List.filter_congr
      intro a _
      by_cases h1 : a.1 ∈ t :: rest
      · rcases List.mem_cons.mp h1 with h2 | h2
        · simp [h2, h1]
        · simp [h2, h1]
      · have h2 : a.1 ∉ rest := fun hh => h1 (List.mem_cons_of_mem _ hh)
        have h3 : a.1 ≠ t := fun hh => h1 (hh ▸ List.mem_cons_self _ _)
        simp [h1, h2, h3]

theorem find?_zip_range'_inv :
    ∀ (tags : List GameplayTag) (k : Nat) (t : GameplayTag) (i : Nat),
    TagMap.find? (tags.zip (List.range' k tags.length)) t = some i →
    k ≤ i ∧ tags.get? (i - k) = some t := by
  intro tags
  induction tags with
  | nil =>
    intro k t i h
    exact absurd h (by rw [show (([] : List GameplayTag).zip
      (List.range' k ([] : List GameplayTag).length)) = [] from rfl]; exact fun hh =>
        Option.noConfusion hh)
  | cons t0 rest ih =>
    intro k t i h
    rw [show (t0 :: rest).length = rest.length + 1 from rfl, List.range'_succ,
      List.zip_cons_cons, TagMap.find?_cons] at h
    by_cases h0 : t0 = t
    · rw [if_pos h0, Option.some.injEq] at h
      subst h
      refine ⟨le_refl k, ?_⟩
      rw [Nat.sub_self, List.get?_cons_zero, h0]
    · rw [if_neg h0] at h
      obtain ⟨hk, hget⟩ := ih (k + 1) t i h
      refine ⟨by omega, ?_⟩
      rw [show i - k = (i - (k + 1)) + 1 from by omega, List.get?_cons_succ]
      exact hget

theorem contains_filter_zip (tags os : List GameplayTag) (u : GameplayTag) :
    TagMap.Contains ((tags.zip (List.range' 0 tags.length)).filter
      (fun q => decide (q.1 ∉ os))) u = true ↔ (u ∈ tags ∧ u ∉ os) := by
  rw [contains_iff_mem_keys]
  constructor
  · intro h
    obtain ⟨pair, hpmem, hpeq⟩ := List.mem_map.mp h
    rw [List.mem_filter] at hpmem
    obtain ⟨hmem, hdec⟩ := hpmem
    have h1 : pair.1 ∈ tags := by
      have h2 := List.mem_map_of_mem Prod.fst hmem
      rw [List.map_fst_zip tags _ (by rw [List.length_range'])] at h2
      exact h2
    rw [← hpeq]
    exact ⟨h1, of_decide_eq_true hdec⟩
  · intro hu
    obtain ⟨hmem, hnos⟩ := hu
    obtain ⟨idx, hidx⟩ := List.mem_iff_get?.mp hmem
    have hlt : idx < tags.length := (List.get?_eq_some.mp hidx).1
    have hr' : (List.range' 0 tags.length)[idx]? = some (0 + idx) := by
      rw [List.getElem?_range']
      · rw [Nat.one_mul]
      · exact hlt
    have hzip : (tags.zip (List.range' 0 tags.length)).get? idx = some (u, 0 + idx) := by
      rw [List.get?_eq_getElem?]
      apply List.getElem?_zip_eq_some.mpr
      constructor
      · rw [← List.get?_eq_getElem?]
        exact hidx
      · exact hr'
    have hpair : (u, 0 + idx) ∈ tags.zip (List.range' 0 tags.length) :=
      List.mem_iff_get?.mpr ⟨idx, hzip⟩
    have hfil : (u, 0 + idx) ∈ (tags.zip (List.range' 0 tags.length)).filter
        (fun q => decide (q.1 ∉ os)) :=
      List.mem_filter.mpr ⟨hpair, decide_eq_true hnos⟩
    exact List.mem_map_of_mem Prod.fst hfil

theorem mem_orphansIn_iff {tags : List GameplayTag} {u : GameplayTag} :
    u ∈ orphansIn tags ↔
      (u ∈ tags ∧ ChainPresent tags u.RequestDirectParent = false) := by
  unfold orphansIn
  rw [List.mem_filter]
  constructor
  · intro h
    refine ⟨h.1, ?_⟩
    have h2 := h.2
    cases hb : ChainPresent tags u.RequestDirectParent
    · rfl
    · rw [hb] at h2
      exact absurd h2 (by simp)
  · intro h
    exact ⟨h.1, by rw [h.2]; rfl⟩

theorem ensureTagHierarchy_loaded (T : UAffinityTable)
    (hrows : T.rows = T.rowTags.zip (List.range' 0 T.rowTags.length))
    (hcols : T.columns = T.columnTags.zip (List.range' 0 T.columnTags.length))
    (hndr : T.rowTags.Nodup) (hndc : T.columnTags.Nodup)
    (hOK : ∀ pg ∈ T.pages, OKPage pg T.rowTags.length T.columnTags.length)
    (hlive : ∀ pg ∈ T.pages, ∀ i, i < T.rowTags.length →
      ∃ row, pg.rows.get? i = some (some row))
    (hdelc : ∀ pg ∈ T.pages, pg.deletedColumns = []) :
    ∃ T', T.EnsureTagHierarchy = some T' ∧
      (∀ u, TagMap.Contains T'.rows u = true ↔
        (u ∈ T.rowTags ∧ ChainPresent T.rowTags u.RequestDirectParent = true)) ∧
      (∀ u, TagMap.Contains T'.columns u = true ↔
        (u ∈ T.columnTags ∧ ChainPresent T.columnTags u.RequestDirectParent = true)) ∧
      T'.bHasLoadingErrors = (T.bHasLoadingErrors
        || decide (0 < (orphansIn T.rowTags).length)
        || decide (0 < (orphansIn T.columnTags).length)) := by
  have hosr_sub : ∀ t ∈ orphansIn T.rowTags, t ∈ T.rowTags :=
    fun t ht => (mem_orphansIn_iff.mp ht).1
  have hosr_nd : (orphansIn T.rowTags).Nodup := List.Nodup.filter _ hndr
  obtain ⟨T1, heq1, hrows1, hcols1, hrt1, hct1, hst1, hfl1, him1, hOK1, hdelc1⟩ :=
    deleteRowsList_ok (orphansIn T.rowTags) T T.rowTags.length T.columnTags.length
      hosr_nd
      (fun t ht => orphan_valid (mem_orphansIn_iff.mp ht).2)
      (by
        intro t ht
        obtain ⟨idx, hidx⟩ := List.mem_iff_get?.mp (hosr_sub t ht)
        have hlt : idx < T.rowTags.length := (List.get?_eq_some.mp hidx).1
        refine ⟨0 + idx, ?_, ?_⟩
        · rw [hrows]
          exact find?_zip_range' T.rowTags 0 idx t hndr hidx
        · intro pg hpg
          exact hlive pg hpg (0 + idx) (by omega)
      )
      (by
        intro t1 ht1 t2 ht2 i1 i2 hf1 hf2 hne
        rw [hrows] at hf1 hf2
        obtain ⟨_, hg1⟩ := find?_zip_range'_inv T.rowTags 0 t1 i1 hf1
        obtain ⟨_, hg2⟩ := find?_zip_range'_inv T.rowTags 0 t2 i2 hf2
        intro he
        apply hne
        rw [he] at hg1
        rw [hg1] at hg2
        exact Option.some.inj hg2
      )
      hOK hdelc
  have hosc_sub : ∀ t ∈ orphansIn T.columnTags, t ∈ T.columnTags :=
    fun t ht => (mem_orphansIn_iff.mp ht).1
  have hosc_nd : (orphansIn T.columnTags).Nodup := List.Nodup.filter _ hndc
  have hcols1' : T1.columns = T.columnTags.zip (List.range' 0 T.columnTags.length) := by
    rw [hcols1, hcols]
  obtain ⟨T2, heq2, hcols2, hrows2, hrt2, hct2, hst2, hfl2, him2⟩ :=
    deleteColumnsList_ok (orphansIn T.columnTags) T1 T.rowTags.length
      T.columnTags.length
      hosc_nd
      (fun t ht => orphan_valid (mem_orphansIn_iff.mp ht).2)
      (by
        intro t ht
        obtain ⟨idx, hidx⟩ := List.mem_iff_get?.mp (hosc_sub t ht)
        have hlt : idx < T.columnTags.length := (List.get?_eq_some.mp hidx).1
        refine ⟨0 + idx, ?_, by omega⟩
        rw [hcols1']
        exact find?_zip_range' T.columnTags 0 idx t hndc hidx
      )
      (by
        intro t1 ht1 t2 ht2 j1 j2 hf1 hf2 hne
        rw [hcols1'] at hf1 hf2
        obtain ⟨_, hg1⟩ := find?_zip_range'_inv T.columnTags 0 t1 j1 hf1
        obtain ⟨_, hg2⟩ := find?_zip_range'_inv T.columnTags 0 t2 j2 hf2
        intro he
        apply hne
        rw [he] at hg1
        rw [hg1] at hg2
        exact Option.some.inj hg2
      )
      hOK1
      (fun pg hpg t _ j _ => by rw [hdelc1 pg hpg]; exact List.not_mem_nil j)
  refine ⟨{ T2 with
      bHasLoadingErrors := T2.bHasLoadingErrors
        || decide (0 < (orphansIn T.rowTags).length)
        || decide (0 < (orphansIn T.columnTags).length) }, ?_, ?_, ?_, ?_⟩
  · unfold UAffinityTable.EnsureTagHierarchy
    rw [findOrphans_eq T.rowTags hndr]
    dsimp only
    rw [heq1]
    simp only [Option.bind_eq_bind, Option.some_bind]
    rw [hct1, findOrphans_eq T.columnTags hndc]
    rw [heq2]
    simp only [Option.some_bind]
  · intro u
    show TagMap.Contains T2.rows u = true ↔ _
    rw [hrows2, hrows1, hrows]
    rw [contains_filter_zip]
    constructor
    · intro h
      refine ⟨h.1, ?_⟩
      have h2 := h.2
      cases hb : ChainPresent T.rowTags u.RequestDirectParent
      · exact absurd (mem_orphansIn_iff.mpr ⟨h.1, hb⟩) h2
      · rfl
    · intro h
      refine ⟨h.1, ?_⟩
      intro hmem
      have h2 := (mem_orphansIn_iff.mp hmem).2
      rw [h.2] at h2
      exact Bool.noConfusion h2
  · intro u
    show TagMap.Contains T2.columns u = true ↔ _
    rw [hcols2, hcols1', contains_filter_zip]
    constructor
    · intro h
      refine ⟨h.1, ?_⟩
      have h2 := h.2
      cases hb : ChainPresent T.columnTags u.RequestDirectParent
      · exact absurd (mem_orphansIn_iff.mpr ⟨h.1, hb⟩) h2
      · rfl
    · intro h
      refine ⟨h.1, ?_⟩
      intro hmem
      have h2 := (mem_orphansIn_iff.mp hmem).2
      rw [h.2] at h2
      exact Bool.noConfusion h2
  · show (T2.bHasLoadingErrors
        || decide (0 < (orphansIn T.rowTags).length)
        || decide (0 < (orphansIn T.columnTags).length))
      = (T.bHasLoadingErrors || decide (0 < (orphansIn T.rowTags).length)
        || decide (0 < (orphansIn T.columnTags).length))
    rw [hfl2, hfl1]

theorem loadInheritance_struct :
    ∀ (ent : List (String × InheritanceMap)) (T : UAffinityTable),
    ∃ im, UAffinityTable.LoadInheritance T ent = { T with inheritanceMaps := im } := by
  intro ent
  induction ent with
  | nil =>
    intro T
    exact ⟨T.inheritanceMaps, rfl⟩
  | cons e rest ih =>
    intro T
    obtain ⟨k, links⟩ := e
    unfold UAffinityTable.LoadInheritance
    by_cases hl : links.length ≠ 0
    · rw [if_pos hl]
      dsimp only
      by_cases hf : (T.inheritanceMaps.find? (fun q => decide (q.1 = k))).isSome = true
      · rw [if_pos hf]
        obtain ⟨im, him⟩ := ih
          { T with
            inheritanceMaps :=
              T.inheritanceMaps.map
                (fun q => if q.1 = k then (k, UAffinityTable.imapAddAll q.2 links) else q) }
        exact ⟨im, him⟩
      · rw [if_neg hf]
        obtain ⟨im, him⟩ := ih
          { T with
            inheritanceMaps :=
              T.inheritanceMaps ++ [(k, UAffinityTable.imapAddAll [] links)] }
        exact ⟨im, him⟩
    · rw [if_neg hl]
      exact ih T

theorem loadTable_eth (ar : FTableArchive) (ss : List UScriptStructRef)
    (sz : UScriptStructRef → Nat) (tk : UScriptStructRef → List Nat)
    (hver : ar.formatVersion = FileFormatVersion)
    (hndr : ar.rowTags.Nodup) (hndc : ar.columnTags.Nodup)
    (hsn : (ar.structures.map (fun s => s.name)).Nodup)
    (hpd : ar.pageData = ss.map (fun s => (s.name, sz s, tk s)))
    (hss : ∀ s ∈ ss, s ∈ ar.structures)
    (htk : ∀ s ∈ ss, (tk s).length = ar.rowTags.length * ar.columnTags.length)
    (hR : 0 < ar.rowTags.length) (hC : 0 < ar.columnTags.length)
    (hbound : ar.rowTags.length * ar.columnTags.length ≤ 2 ^ 41) :
    ∃ im, UAffinityTable.LoadTable ar
      = (preEnsure ar ss tk im).EnsureTagHierarchy := by
  have hgen : (UAffinityTable.FreshFromArchive ar).GenerateRowAndColumnMaps
      = some (genFresh ar) := by
    unfold UAffinityTable.GenerateRowAndColumnMaps
    rw [if_pos (⟨rfl, rfl, rfl, rfl⟩ :
      (UAffinityTable.FreshFromArchive ar).nextRowIndex = 0 ∧
      (UAffinityTable.FreshFromArchive ar).rows = [] ∧
      (UAffinityTable.FreshFromArchive ar).nextColumnIndex = 0 ∧
      (UAffinityTable.FreshFromArchive ar).columns = [])]
    rw [show (UAffinityTable.FreshFromArchive ar).rowTags = ar.rowTags from rfl]
    rw [show (UAffinityTable.FreshFromArchive ar).columnTags = ar.columnTags from rfl]
    rw [genMaps_clean ar.rowTags [] 0 (fun t _ => rfl) hndr]
    rw [genMaps_clean ar.columnTags [] 0 (fun t _ => rfl) hndc]
    dsimp only
    rw [Option.some.injEq]
    unfold genFresh
    rw [UAffinityTable.mk.injEq]
    refine ⟨?_, ?_, ?_, ?_, rfl, rfl, rfl, rfl, rfl, rfl, rfl, rfl, rfl⟩
    · rw [List.nil_append]
    · rw [List.nil_append]
    · rw [Nat.zero_add]
    · rw [Nat.zero_add]
  have hrowsnd : (genFresh ar).rows.map Prod.snd
      = List.range' 0 ar.rowTags.length := by
    unfold genFresh
    dsimp only
    rw [List.map_snd_zip _ _ (by rw [List.length_range'])]
  have hcolsnd : (genFresh ar).columns.map Prod.snd
      = List.range' 0 ar.columnTags.length := by
    unfold genFresh
    dsimp only
    rw [List.map_snd_zip _ _ (by rw [List.length_range'])]
  have hrlen : (genFresh ar).rows.length = ar.rowTags.length := by
    unfold genFresh
    dsimp only
    rw [List.length_zip, List.length_range', Nat.min_self]
  have hclen : (genFresh ar).columns.length = ar.columnTags.length := by
    unfold genFresh
    dsimp only
    rw [List.length_zip, List.length_range', Nat.min_self]
  have hlp := loadPages_canon ar.rowTags.length ar.columnTags.length sz tk ss
    (genFresh ar) hss hsn rfl hrowsnd hcolsnd hR hC hbound htk
  obtain ⟨im, him⟩ := loadInheritance_struct ar.inheritance
    { { genFresh ar with pages := (genFresh ar).pages ++ ss.map (fun s =>
        canonPage s ar.rowTags.length ar.columnTags.length
          (writeSeq (fun x => s.schema.defaultVal) 0 (tk s))) } with
      rowColors := ar.rowColors, columnColors := ar.columnColors }
  refine ⟨im, ?_⟩
  unfold UAffinityTable.LoadTable
  dsimp only
  rw [if_neg (show ¬ ar.formatVersion < FileFormatVersion from by
    rw [hver]
    omega)]
  rw [hgen]
  simp only [Option.bind_eq_bind, Option.some_bind]
  rw [if_neg (show ¬ (genFresh ar).bHasLoadingErrors = true from fun h =>
    Bool.false_ne_true h)]
  rw [hrlen, hclen]
  rw [hpd]
  rw [hlp]
  simp only [Option.some_bind]
  rw [if_neg (show ¬ false = true from Bool.false_ne_true)]
  rw [him]
  rfl

/-- **C6.** After loading a current-version archive (duplicate-free tag
arrays, uniquely named structures whose page streams cover the full grid),
the load succeeds, and in the loaded table: a row or column tag is indexed
iff it was in the archive's tag array with its whole ancestor chain present
there (so every orphan has been deleted, through `EnsureTagHierarchy`'s
DeleteRow/DeleteColumn iteration); the loading-error flag is set exactly
when at least one orphan was removed; and every surviving tag has its
complete ancestor chain indexed. -/
theorem C6_load_deletes_orphans (ar : FTableArchive) (ss : List UScriptStructRef)
    (sz : UScriptStructRef → Nat) (tk : UScriptStructRef → List Nat)
    (hver : ar.formatVersion = FileFormatVersion)
    (hndr : ar.rowTags.Nodup) (hndc : ar.columnTags.Nodup)
    (hsn : (ar.structures.map (fun s => s.name)).Nodup)
    (hpd : ar.pageData = ss.map (fun s => (s.name, sz s, tk s)))
    (hss : ∀ s ∈ ss, s ∈ ar.structures)
    (htk : ∀ s ∈ ss, (tk s).length = ar.rowTags.length * ar.columnTags.length)
    (hR : 0 < ar.rowTags.length) (hC : 0 < ar.columnTags.length)
    (hbound : ar.rowTags.length * ar.columnTags.length ≤ 2 ^ 41) :
    ∃ T', UAffinityTable.LoadTable ar = some T' ∧
      (∀ u, TagMap.Contains T'.rows u = true ↔
        (u ∈ ar.rowTags ∧ ChainPresent ar.rowTags u.RequestDirectParent = true)) ∧
      (∀ u, TagMap.Contains T'.columns u = true ↔
        (u ∈ ar.columnTags ∧ ChainPresent ar.columnTags u.RequestDirectParent = true)) ∧
      (T'.bHasLoadingErrors = true ↔
        (orphansIn ar.rowTags ≠ [] ∨ orphansIn ar.columnTags ≠ [])) ∧
      (∀ u, TagMap.Contains T'.rows u = true →
        ∀ a ∈ ancestorChain u, TagMap.Contains T'.rows a = true) ∧
      (∀ u, TagMap.Contains T'.columns u = true →
        ∀ a ∈ ancestorChain u, TagMap.Contains T'.columns a = true) := by
  obtain ⟨im, hload⟩ :=
    loadTable_eth ar ss sz tk hver hndr hndc hsn hpd hss htk hR hC hbound
  obtain ⟨T', heth, hrowsIff, hcolsIff, hflag⟩ :=
    ensureTagHierarchy_loaded (preEnsure ar ss tk im) rfl rfl hndr hndc
      (by
        intro pg hpg
        obtain ⟨s, hs, he⟩ := List.mem_map.mp hpg
        rw [← he]
        exact (canonPage_OK s (writeSeq (fun x => s.schema.defaultVal) 0 (tk s))
          hbound).1)
      (by
        intro pg hpg i hi
        obtain ⟨s, hs, he⟩ := List.mem_map.mp hpg
        rw [← he]
        exact ⟨canonRow ar.columnTags.length i,
          (canonPage_OK s (writeSeq (fun x => s.schema.defaultVal) 0 (tk s))
            hbound).2.1 i hi⟩)
      (by
        intro pg hpg
        obtain ⟨s, hs, he⟩ := List.mem_map.mp hpg
        rw [← he]
        exact (canonPage_OK s (writeSeq (fun x => s.schema.defaultVal) 0 (tk s))
          hbound).2.2)
  refine ⟨T', by rw [hload]; exact heth, hrowsIff, hcolsIff, ?_, ?_, ?_⟩
  · rw [hflag]
    show (false || decide (0 < (orphansIn ar.rowTags).length)
        || decide (0 < (orphansIn ar.columnTags).length)) = true ↔ _
    rw [Bool.false_or, Bool.or_eq_true, decide_eq_true_eq, decide_eq_true_eq,
      List.length_pos, List.length_pos]
  · intro u hu
    obtain ⟨hmem, hcp⟩ := (hrowsIff u).mp hu
    intro a ha
    apply (hrowsIff a).mpr
    exact chainPresent_ancestors ar.rowTags u.length u (le_refl _) hmem hcp a ha
  · intro u hu
    obtain ⟨hmem, hcp⟩ := (hcolsIff u).mp hu
    intro a ha
    apply (hcolsIff a).mpr
    exact chainPresent_ancestors ar.columnTags u.length u (le_refl _) hmem hcp a ha

/-- Witness for C6: a current-version archive whose row tag `A.B.X` is an
orphan (its ancestor `A.B` is missing) while `A` survives; the load runs,
the orphan is gone, the flag is set, and the survivor's chain is indexed. -/
theorem C6_load_deletes_orphans_witness :
    ∃ T', UAffinityTable.LoadTable
        ⟨FileFormatVersion, [["A"], ["A", "B", "X"]], [["B"]], [], [], [], [], []⟩
        = some T' ∧
      (∀ u, TagMap.Contains T'.rows u = true ↔
        (u ∈ [["A"], ["A", "B", "X"]] ∧
          ChainPresent [["A"], ["A", "B", "X"]] u.RequestDirectParent = true)) ∧
      (∀ u, TagMap.Contains T'.columns u = true ↔
        (u ∈ [["B"]] ∧ ChainPresent [["B"]] u.RequestDirectParent = true)) ∧
      (T'.bHasLoadingErrors = true ↔
        (orphansIn [["A"], ["A", "B", "X"]] ≠ [] ∨ orphansIn [["B"]] ≠ [])) ∧
      (∀ u, TagMap.Contains T'.rows u = true →
        ∀ a ∈ ancestorChain u, TagMap.Contains T'.rows a = true) ∧
      (∀ u, TagMap.Contains T'.columns u = true →
        ∀ a ∈ ancestorChain u, TagMap.Contains T'.columns a = true) :=
  C6_load_deletes_orphans
    ⟨FileFormatVersion, [["A"], ["A", "B", "X"]], [["B"]], [], [], [], [], []⟩
    [] (fun _ => 0) (fun _ => []) rfl (by decide) (by decide) (by decide) rfl
    (fun s hs => absurd hs (List.not_mem_nil s))
    (fun s hs => absurd hs (List.not_mem_nil s))
    (by decide) (by decide) (by decide)

namespace FAffinityTableEditor

theorem findLink_cons (q : ECell × ECell) (rest : LinkState) (y : ECell) :
    findLink (q :: rest) y = if q.1 = y then some q.2 else findLink rest y := rfl

theorem findLink_linkCells (st : LinkState) (ch p y : ECell) :
    findLink (LinkCells st ch p) y = if y = ch then some p else findLink st y := by
  unfold LinkCells
  induction st with
  | nil =>
    rw [List.filter_nil, List.nil_append]
    show (if ch = y then some p else none) = if y = ch then some p else none
    by_cases h : y = ch
    · rw [if_pos h.symm, if_pos h]
    · rw [if_neg (fun hh => h hh.symm), if_neg h]
  | cons q rest ih =>
    by_cases hq : q.1 = ch
    · rw [List.filter_cons_of_neg (by simp [hq]), ih, findLink_cons]
      by_cases h : y = ch
      · rw [if_pos h, if_pos h]
      · rw [if_neg h, if_neg h, if_neg (fun (hh : q.1 = y) => h (hh ▸ hq))]
    · rw [List.filter_cons_of_pos (by simp [hq]), List.cons_append, findLink_cons,
        findLink_cons, ih]
      by_cases h2 : q.1 = y
      · by_cases h : y = ch
        · exact absurd (h ▸ h2) hq
        · rw [if_pos h2, if_neg h, if_pos h2]
      · by_cases h : y = ch
        · rw [if_neg h2, if_pos h, if_pos h]
        · rw [if_neg h2, if_neg h, if_neg h, if_neg h2]

theorem findLink_unlinkCell (st : LinkState) (c y : ECell) :
    findLink (UnlinkCell st c) y = if y = c then none else findLink st y := by
  unfold UnlinkCell
  induction st with
  | nil =>
    rw [List.filter_nil]
    by_cases h : y = c
    · rw [if_pos h]
      rfl
    · rw [if_neg h]
  | cons q rest ih =>
    by_cases hq : q.1 = c
    · rw [List.filter_cons_of_neg (by simp [hq]), ih, findLink_cons]
      by_cases h : y = c
      · rw [if_pos h, if_pos h]
      · rw [if_neg h, if_neg h, if_neg (fun (hh : q.1 = y) => h (hh ▸ hq))]
    · rw [List.filter_cons_of_pos (by simp [hq]), findLink_cons, findLink_cons, ih]
      by_cases h2 : q.1 = y
      · by_cases h : y = c
        · exact absurd (h ▸ h2) hq
        · rw [if_pos h2, if_neg h, if_pos h2]
      · by_cases h : y = c
        · rw [if_neg h2, if_pos h, if_pos h]
        · rw [if_neg h2, if_neg h, if_neg h, if_neg h2]

theorem mem_linkCells {st : LinkState} {ch p : ECell} {q : ECell × ECell}
    (h : q ∈ LinkCells st ch p) : q = (ch, p) ∨ (q ∈ st ∧ q.1 ≠ ch) := by
  unfold LinkCells at h
  rcases List.mem_append.mp h with h1 | h1
  · rw [List.mem_filter] at h1
    exact Or.inr ⟨h1.1, of_decide_eq_true h1.2⟩
  · rcases List.mem_cons.mp h1 with h2 | h2
    · exact Or.inl h2
    · exact absurd h2 (List.not_mem_nil q)

theorem mem_unlinkCell {st : LinkState} {c : ECell} {q : ECell × ECell}
    (h : q ∈ UnlinkCell st c) : q ∈ st ∧ q.1 ≠ c := by
  unfold UnlinkCell at h
  rw [List.mem_filter] at h
  exact ⟨h.1, of_decide_eq_true h.2⟩

theorem mem_of_findLink : ∀ {st : LinkState} {y v : ECell},
    findLink st y = some v → (y, v) ∈ st := by
  intro st
  induction st with
  | nil =>
    intro y v h
    exact absurd h (by unfold findLink; exact fun hh => Option.noConfusion hh)
  | cons q rest ih =>
    intro y v h
    unfold findLink at h
    by_cases hq : q.1 = y
    · rw [if_pos hq, Option.some.injEq] at h
      have hqe : q = (y, v) := by
        obtain ⟨a, b⟩ := q
        rw [Prod.mk.injEq]
        exact ⟨hq, h⟩
      rw [← hqe]
      exact List.mem_cons_self _ _
    · rw [if_neg hq] at h
      exact List.mem_cons_of_mem _ (ih h)

theorem unlink_oneHop {st : LinkState} {c : ECell} (hinv : OneHop st) :
    OneHop (UnlinkCell st c) := by
  intro q hq
  obtain ⟨hmem, _⟩ := mem_unlinkCell hq
  rw [findLink_unlinkCell]
  by_cases h : q.2 = c
  · rw [if_pos h]
  · rw [if_neg h]
    exact hinv q hmem

theorem fold_findLink (t : ECell) :
    ∀ (children : List ECell) (st : LinkState) (y : ECell),
    findLink (children.foldl (fun s ch => LinkCells s ch t) st) y
      = if y ∈ children then some t else findLink st y := by
  intro children
  induction children with
  | nil =>
    intro st y
    rw [List.foldl_nil, if_neg (List.not_mem_nil y)]
  | cons ch rest ih =>
    intro st y
    rw [List.foldl_cons, ih, findLink_linkCells]
    by_cases h1 : y ∈ rest
    · rw [if_pos h1, if_pos (List.mem_cons_of_mem _ h1)]
    · rw [if_neg h1]
      by_cases h2 : y = ch
      · rw [if_pos h2, if_pos (h2 ▸ List.mem_cons_self _ _)]
      · rw [if_neg h2, if_neg (by
          intro hmem
          rcases List.mem_cons.mp hmem with hh | hh
          · exact h2 hh
          · exact h1 hh)]

theorem fold_mem (t : ECell) :
    ∀ (children : List ECell) (st : LinkState) (q : ECell × ECell),
    q ∈ children.foldl (fun s ch => LinkCells s ch t) st →
    q.2 = t ∨ (q ∈ st ∧ q.1 ∉ children) := by
  intro children
  induction children with
  | nil =>
    intro st q h
    rw [List.foldl_nil] at h
    exact Or.inr ⟨h, List.not_mem_nil q.1⟩
  | cons ch rest ih =>
    intro st q h
    rw [List.foldl_cons] at h
    rcases ih (LinkCells st ch t) q h with h1 | ⟨h1, h2⟩
    · exact Or.inl h1
    · rcases mem_linkCells h1 with h3 | ⟨h3, h4⟩
      · exact Or.inl (by rw [h3])
      · refine Or.inr ⟨h3, ?_⟩
        intro hmem
        rcases List.mem_cons.mp hmem with hh | hh
        · exact h4 hh
        · exact h2 hh

theorem not_inherits_findLink {st : LinkState} {c : ECell}
    (h : ¬ InheritsData st c = true) : findLink st c = none := by
  unfold InheritsData at h
  cases hfl : findLink st c
  · rfl
  · rw [hfl] at h
    exact absurd rfl h

theorem acquireLoop_eq (c p : ECell) :
    ∀ (children : List ECell) (st : LinkState),
    findLink st c = some p → c ∉ children →
    AcquireLoop st c children
      = some (children.foldl (fun s ch => LinkCells s ch p) st) := by
  intro children
  induction children with
  | nil =>
    intro st _ _
    rw [List.foldl_nil]
    rfl
  | cons ch rest ih =>
    intro st hfc hc
    unfold AcquireLoop
    rw [hfc]
    rw [List.foldl_cons]
    apply ih
    · rw [findLink_linkCells, if_neg (fun (he : c = ch) => hc (by
        rw [he]
        exact List.mem_cons_self _ _))]
      exact hfc
    · exact fun hmem => hc (List.mem_cons_of_mem _ hmem)

end FAffinityTableEditor

/-- **C9.** Editor inheritance chains are at most one hop deep.  Over any
link state satisfying the one-hop invariant (`OneHop`: no recorded
`InheritedCell` itself inherits): (a) the editing `AssignInheritance` of a
cell whose chosen ancestor cell inherits links directly to that ancestor's
recorded source, which does not inherit (the terminal cell); (b)
`AssignInheritance` preserves the invariant for a cell no other cell
inherits from; (c) `PropagateInheritance` preserves it whenever the
gathered set excludes the cell and is closed under "inherits from the cell
or from a gathered cell" (what `GatherInheritedCells`' downward walk
collects); (d) `AcquireInheritance` preserves it under the same region
hypotheses plus the ancestor cell (and its source) lying outside the
gathered region — the geometry `FAffinityTableNode` parents guarantee. -/
theorem C9_one_hop_inheritance (rowParent colParent : Nat → Option Nat)
    (st : FAffinityTableEditor.LinkState) (hinv : FAffinityTableEditor.OneHop st) :
    (∀ c cs p gp, FAffinityTableEditor.assignTarget rowParent colParent c cs = some p →
      FAffinityTableEditor.findLink st p = some gp →
      FAffinityTableEditor.findLink
        (FAffinityTableEditor.AssignInheritance rowParent colParent st c cs) c
        = some gp ∧
      FAffinityTableEditor.findLink st gp = none) ∧
    (∀ c cs, (∀ q ∈ st, q.2 ≠ c) →
      (∀ p, FAffinityTableEditor.assignTarget rowParent colParent c cs = some p →
        p ≠ c ∧ ∀ gp, FAffinityTableEditor.findLink st p = some gp → gp ≠ c) →
      FAffinityTableEditor.OneHop
        (FAffinityTableEditor.AssignInheritance rowParent colParent st c cs)) ∧
    (∀ c children, c ∉ children →
      (∀ q ∈ st, q.2 = c ∨ q.2 ∈ children → q.1 ∈ children) →
      FAffinityTableEditor.OneHop
        (FAffinityTableEditor.PropagateInheritance st c children)) ∧
    (∀ c cs children st', c ∉ children →
      (∀ q ∈ st, q.2 = c ∨ q.2 ∈ children → q.1 ∈ children) →
      (∀ p, FAffinityTableEditor.assignTarget rowParent colParent c cs = some p →
        (p ∉ children ∧ p ≠ c) ∧
        ∀ gp, FAffinityTableEditor.findLink st p = some gp →
          gp ∉ children ∧ gp ≠ c) →
      FAffinityTableEditor.AcquireInheritance rowParent colParent st c cs children
        = some st' →
      FAffinityTableEditor.OneHop st') := by
  refine ⟨?_, ?_, ?_, ?_⟩
  · intro c cs p gp htgt hfp
    constructor
    · have hst1 : FAffinityTableEditor.AssignInheritance rowParent colParent st c cs
          = FAffinityTableEditor.LinkCells st c gp := by
        unfold FAffinityTableEditor.AssignInheritance
        rw [htgt]
        dsimp only
        rw [hfp]
      rw [hst1, FAffinityTableEditor.findLink_linkCells, if_pos rfl]
    · exact hinv (p, gp) (FAffinityTableEditor.mem_of_findLink hfp)
  · intro c cs hnp htb
    unfold FAffinityTableEditor.AssignInheritance
    cases htgt : FAffinityTableEditor.assignTarget rowParent colParent c cs with
    | none =>
      dsimp only
      exact FAffinityTableEditor.unlink_oneHop hinv
    | some p =>
      dsimp only
      obtain ⟨hpc, hgpc⟩ := htb p htgt
      cases hfp : FAffinityTableEditor.findLink st p with
      | some gp =>
        dsimp only
        intro q hq
        rcases FAffinityTableEditor.mem_linkCells hq with hqe | ⟨hqm, hqne⟩
        · rw [hqe]
          show FAffinityTableEditor.findLink
            (FAffinityTableEditor.LinkCells st c gp) gp = none
          rw [FAffinityTableEditor.findLink_linkCells, if_neg (hgpc gp hfp)]
          exact hinv (p, gp) (FAffinityTableEditor.mem_of_findLink hfp)
        · rw [FAffinityTableEditor.findLink_linkCells, if_neg (hnp q hqm)]
          exact hinv q hqm
      | none =>
        dsimp only
        intro q hq
        rcases FAffinityTableEditor.mem_linkCells hq with hqe | ⟨hqm, hqne⟩
        · rw [hqe]
          show FAffinityTableEditor.findLink
            (FAffinityTableEditor.LinkCells st c p) p = none
          rw [FAffinityTableEditor.findLink_linkCells, if_neg hpc]
          exact hfp
        · rw [FAffinityTableEditor.findLink_linkCells, if_neg (hnp q hqm)]
          exact hinv q hqm
  · intro c children hc hcov
    unfold FAffinityTableEditor.PropagateInheritance
    by_cases hg : FAffinityTableEditor.InheritsData st c = true
    · rw [if_pos hg]
      exact hinv
    · rw [if_neg hg]
      have hfc := FAffinityTableEditor.not_inherits_findLink hg
      intro q hq
      rcases FAffinityTableEditor.fold_mem c children st q hq with h1 | ⟨h1, h2⟩
      · rw [FAffinityTableEditor.fold_findLink,
          if_neg (show q.2 ∉ children from by rw [h1]; exact hc), h1]
        exact hfc
      · rw [FAffinityTableEditor.fold_findLink,
          if_neg (fun hmem => h2 (hcov q h1 (Or.inr hmem)))]
        exact hinv q h1
  · intro c cs children st' hc hcov htd hacq
    unfold FAffinityTableEditor.AcquireInheritance at hacq
    by_cases hg : FAffinityTableEditor.InheritsData st c = true
    · rw [if_pos hg, Option.some.injEq] at hacq
      rw [← hacq]
      exact hinv
    · rw [if_neg hg] at hacq
      have hfc := FAffinityTableEditor.not_inherits_findLink hg
      cases htgt : FAffinityTableEditor.assignTarget rowParent colParent c cs with
      | none =>
        have hst1 : FAffinityTableEditor.AssignInheritance rowParent colParent st c cs
            = FAffinityTableEditor.UnlinkCell st c := by
          unfold FAffinityTableEditor.AssignInheritance
          rw [htgt]
        rw [hst1] at hacq
        cases children with
        | nil =>
          unfold FAffinityTableEditor.AcquireLoop at hacq
          rw [Option.some.injEq] at hacq
          rw [← hacq]
          exact FAffinityTableEditor.unlink_oneHop hinv
        | cons ch rest =>
          unfold FAffinityTableEditor.AcquireLoop at hacq
          rw [FAffinityTableEditor.findLink_unlinkCell, if_pos rfl] at hacq
          exact Option.noConfusion hacq
      | some p =>
        obtain ⟨⟨hpch, hpc⟩, hgp⟩ := htd p htgt
        cases hfp : FAffinityTableEditor.findLink st p with
        | some gp =>
          obtain ⟨hgpch, hgpc⟩ := hgp gp hfp
          have hst1 : FAffinityTableEditor.AssignInheritance rowParent colParent st c cs
              = FAffinityTableEditor.LinkCells st c gp := by
            unfold FAffinityTableEditor.AssignInheritance
            rw [htgt]
            dsimp only
            rw [hfp]
          rw [hst1] at hacq
          have hfl1 : FAffinityTableEditor.findLink
              (FAffinityTableEditor.LinkCells st c gp) c = some gp := by
            rw [FAffinityTableEditor.findLink_linkCells, if_pos rfl]
          rw [FAffinityTableEditor.acquireLoop_eq c gp children
            (FAffinityTableEditor.LinkCells st c gp) hfl1 hc,
            Option.some.injEq] at hacq
          rw [← hacq]
          intro q hq
          rcases FAffinityTableEditor.fold_mem gp children
            (FAffinityTableEditor.LinkCells st c gp) q hq with h1 | ⟨h1, h2⟩
          · rw [FAffinityTableEditor.fold_findLink,
              if_neg (show q.2 ∉ children from by rw [h1]; exact hgpch),
              FAffinityTableEditor.findLink_linkCells,
              if_neg (show q.2 ≠ c from by rw [h1]; exact hgpc), h1]
            exact hinv (p, gp) (FAffinityTableEditor.mem_of_findLink hfp)
          · rcases FAffinityTableEditor.mem_linkCells h1 with hqe | ⟨hqm, hqne⟩
            · rw [FAffinityTableEditor.fold_findLink,
                if_neg (show q.2 ∉ children from by rw [hqe]; exact hgpch),
                FAffinityTableEditor.findLink_linkCells,
                if_neg (show q.2 ≠ c from by rw [hqe]; exact hgpc), hqe]
              exact hinv (p, gp) (FAffinityTableEditor.mem_of_findLink hfp)
            · rw [FAffinityTableEditor.fold_findLink,
                if_neg (fun hmem => h2 (hcov q hqm (Or.inr hmem))),
                FAffinityTableEditor.findLink_linkCells,
                if_neg (fun (he : q.2 = c) => h2 (hcov q hqm (Or.inl he)))]
              exact hinv q hqm
        | none =>
          have hst1 : FAffinityTableEditor.AssignInheritance rowParent colParent st c cs
              = FAffinityTableEditor.LinkCells st c p := by
            unfold FAffinityTableEditor.AssignInheritance
            rw [htgt]
            dsimp only
            rw [hfp]
          rw [hst1] at hacq
          have hfl1 : FAffinityTableEditor.findLink
              (FAffinityTableEditor.LinkCells st c p) c = some p := by
            rw [FAffinityTableEditor.findLink_linkCells, if_pos rfl]
          rw [FAffinityTableEditor.acquireLoop_eq c p children
            (FAffinityTableEditor.LinkCells st c p) hfl1 hc,
            Option.some.injEq] at hacq
          rw [← hacq]
          intro q hq
          rcases FAffinityTableEditor.fold_mem p children
            (FAffinityTableEditor.LinkCells st c p) q hq with h1 | ⟨h1, h2⟩
          · rw [FAffinityTableEditor.fold_findLink,
              if_neg (show q.2 ∉ children from by rw [h1]; exact hpch),
              FAffinityTableEditor.findLink_linkCells,
              if_neg (show q.2 ≠ c from by rw [h1]; exact hpc), h1]
            exact hfp
          · rcases FAffinityTableEditor.mem_linkCells h1 with hqe | ⟨hqm, hqne⟩
            · rw [FAffinityTableEditor.fold_findLink,
                if_neg (show q.2 ∉ children from by rw [hqe]; exact hpch),
                FAffinityTableEditor.findLink_linkCells,
                if_neg (show q.2 ≠ c from by rw [hqe]; exact hpc), hqe]
              exact hfp
            · rw [FAffinityTableEditor.fold_findLink,
                if_neg (fun hmem => h2 (hcov q hqm (Or.inr hmem))),
                FAffinityTableEditor.findLink_linkCells,
                if_neg (fun (he : q.2 = c) => h2 (hcov q hqm (Or.inl he)))]
              exact hinv q hqm

/-- Witness for C9: rows `0 ← 1 ← 2` (one column), with cell `(1,0)`
already inheriting from `(0,0)` — a state satisfying the one-hop
invariant.  The theorem then applies: assigning inheritance to `(2,0)`
links it directly to `(0,0)`, the terminal source of its inheriting
ancestor `(1,0)`, and the editing operations keep the invariant. -/
theorem C9_one_hop_inheritance_witness :
    (∀ c cs p gp, FAffinityTableEditor.assignTarget
        (fun n => if n = 2 then some 1 else if n = 1 then some 0 else none)
        (fun _ => none) c cs = some p →
      FAffinityTableEditor.findLink [((1, 0), (0, 0))] p = some gp →
      FAffinityTableEditor.findLink
        (FAffinityTableEditor.AssignInheritance
          (fun n => if n = 2 then some 1 else if n = 1 then some 0 else none)
          (fun _ => none) [((1, 0), (0, 0))] c cs) c
        = some gp ∧
      FAffinityTableEditor.findLink [((1, 0), (0, 0))] gp = none) ∧
    (∀ c cs, (∀ q ∈ [((1, 0), (0, 0))], q.2 ≠ c) →
      (∀ p, FAffinityTableEditor.assignTarget
          (fun n => if n = 2 then some 1 else if n = 1 then some 0 else none)
          (fun _ => none) c cs = some p →
        p ≠ c ∧ ∀ gp, FAffinityTableEditor.findLink [((1, 0), (0, 0))] p = some gp →
          gp ≠ c) →
      FAffinityTableEditor.OneHop
        (FAffinityTableEditor.AssignInheritance
          (fun n => if n = 2 then some 1 else if n = 1 then some 0 else none)
          (fun _ => none) [((1, 0), (0, 0))] c cs)) ∧
    (∀ c children, c ∉ children →
      (∀ q ∈ [((1, 0), (0, 0))], q.2 = c ∨ q.2 ∈ children → q.1 ∈ children) →
      FAffinityTableEditor.OneHop
        (FAffinityTableEditor.PropagateInheritance [((1, 0), (0, 0))] c children)) ∧
    (∀ c cs children st', c ∉ children →
      (∀ q ∈ [((1, 0), (0, 0))], q.2 = c ∨ q.2 ∈ children → q.1 ∈ children) →
      (∀ p, FAffinityTableEditor.assignTarget
          (fun n => if n = 2 then some 1 else if n = 1 then some 0 else none)
          (fun _ => none) c cs = some p →
        (p ∉ children ∧ p ≠ c) ∧
        ∀ gp, FAffinityTableEditor.findLink [((1, 0), (0, 0))] p = some gp →
          gp ∉ children ∧ gp ≠ c) →
      FAffinityTableEditor.AcquireInheritance
        (fun n => if n = 2 then some 1 else if n = 1 then some 0 else none)
        (fun _ => none) [((1, 0), (0, 0))] c cs children
        = some st' →
      FAffinityTableEditor.OneHop st') :=
  C9_one_hop_inheritance
    (fun n => if n = 2 then some 1 else if n = 1 then some 0 else none)
    (fun _ => none)
    [((1, 0), (0, 0))]
    (by decide)

end AffinityTableModel
